import Mathlib

/-!
# Counting distinct IPv4 addresses: parser, window mapper, bitmap, pipeline

A shallow embedding of `app.go`, `memory_map.go` and `ipv4_set.go`.

* A byte is a natural number and a window is a `List Nat` (every real byte is
  below 256, and every theorem that quantifies over windows holds in
  particular for such lists).
* `uint32` and `uint64` values are naturals reduced modulo `2 ^ 32` and
  `2 ^ 64` wherever the Go code computes them; `int64` values are integers
  wrapped by `wrap64`.
* A slice `b[i:]` that a loop still has to read is the list of remaining bytes.
* The channel `in` that `writeIPs` sends to is the list of values it returns,
  in sending order.
-/

namespace EfficientGo

/-! ## Constants of `app.go` -/

/-- Constant `newLine = byte('\n')`. -/
def newLine : Nat := 10

/-- Constant `zeroChar = byte('0')`. -/
def zeroChar : Nat := 48

/-- Constant `neufChar = byte('9')`. -/
def neufChar : Nat := 57

/-- The byte `'.'`. -/
def dotChar : Nat := 46

/-- The bytes of an ASCII string literal, as `[]byte(s)` gives them. -/
def bytes (s : String) : List Nat := s.toList.map Char.toNat

/-- The test helper `ip(a, b, c, d)` of `app_test.go`, on `uint32`. -/
def ip (a b c d : Nat) : Nat :=
  ((a <<< 24) % 2 ^ 32) ||| ((b <<< 16) % 2 ^ 32) ||| ((c <<< 8) % 2 ^ 32) ||| d

/-! ## The cancellation context -/

/-- A context as `writeIPs` sees it: `ctx k` tells whether `ctx.Done()` is
ready at the `k`-th check still to come (check `0` is the next one). -/
abbrev Context := Nat → Bool

/-- The context `context.Background()`, never cancelled. -/
def Context.background : Context := fun _ => false

/-- An already cancelled context. -/
def Context.cancelled : Context := fun _ => true

/-- The context after one check has been made. -/
def Context.next (ctx : Context) : Context := fun k => ctx (k + 1)

/-! ## The parser `writeIPs` -/

/-- The local variables of `writeIPs` that live across iterations
(`a3` is written and read in the same branch, so it is a local `let`). -/
structure PState where
  a0 : Nat
  a1 : Nat
  a2 : Nat
  number : Nat
  segment : Nat
deriving DecidableEq, Repr

/-- The zero-initialised variables of the `var ( ... )` block. -/
def PState.init : PState := ⟨0, 0, 0, 0, 0⟩

/-- The statements `number = 0; segment = 0`. -/
def PState.reset (st : PState) : PState := { st with number := 0, segment := 0 }

/-- The loop `for i < n && b[i] != newLine { i++ }`: the remaining slice
afterwards, which is empty or starts with the newline. -/
def skipToNewline : List Nat → List Nat
  | [] => []
  | c :: rest => if c ≠ newLine then skipToNewline rest else c :: rest

/-- One iteration of the main loop `for i < n { ... }` after the cancellation
check, with `c = b[i]` already read and `rest = b[i+1:]`: the value sent to
`in` (if any), the variables afterwards and the slice still to read. -/
def writeIPsStep (st : PState) (c : Nat) (rest : List Nat) :
    Option Nat × PState × List Nat :=
  if zeroChar ≤ c ∧ c ≤ neufChar then
    let number := (st.number * 10 + (c - zeroChar)) % 2 ^ 32
    if number > 255 then
      -- bad octet
      (none, st.reset, skipToNewline rest)
    else
      (none, { st with number := number }, rest)
  else if c = dotChar then
    match st.segment with
    | 0 => (none, { st with a0 := st.number, segment := (st.segment + 1) % 2 ^ 32,
                            number := 0 }, rest)
    | 1 => (none, { st with a1 := st.number, segment := (st.segment + 1) % 2 ^ 32,
                            number := 0 }, rest)
    | 2 => (none, { st with a2 := st.number, segment := (st.segment + 1) % 2 ^ 32,
                            number := 0 }, rest)
    | _ =>
      -- too many dots
      (none, st.reset, skipToNewline rest)
  else if c = newLine then
    if st.segment = 3 then
      let a3 := st.number
      let ip := ((st.a0 <<< 24) % 2 ^ 32) ||| ((st.a1 <<< 16) % 2 ^ 32)
        ||| ((st.a2 <<< 8) % 2 ^ 32) ||| a3
      (some ip, st.reset, rest)
    else
      (none, st.reset, rest)
  else
    -- unexpected char
    (none, st.reset, skipToNewline rest)

/-- The main loop `for i < n { ... }` of `writeIPs` on the remaining slice.
The first argument bounds the number of iterations; every iteration reads at
least one byte, so the length of the slice is always enough. -/
def writeIPsLoop : Nat → Context → PState → List Nat → List Nat
  | 0, _, _, _ => []
  | _ + 1, _, _, [] => []
  | fuel + 1, ctx, st, c :: rest =>
    if ctx 0 then []
    else
      let r := writeIPsStep st c rest
      r.1.toList ++ writeIPsLoop fuel ctx.next r.2.1 r.2.2

/-- The function `writeIPs(ctx, b, index, in)`: the values sent to `in`. -/
def writeIPs (ctx : Context) (b : List Nat) (index : Int) : List Nat :=
  let n := b.length
  if n = 0 then []
  else
    let start := if index ≠ 0 then (skipToNewline b).drop 1 else b
    writeIPsLoop n ctx PState.init start

/-! ## Reference semantics of the parser, line by line -/

/-- The newline-terminated lines of a window, each without its newline; a
final piece with no newline after it is not one of them. -/
def terminatedLines (b : List Nat) : List (List Nat) :=
  (b.splitOn newLine).dropLast

/-- The part of a window after its first newline (empty when there is none). -/
def afterFirstNewline (b : List Nat) : List Nat :=
  (b.dropWhile (fun c => c != newLine)).drop 1

/-- An ASCII digit. -/
def isDigit (c : Nat) : Bool := decide (zeroChar ≤ c) && decide (c ≤ neufChar)

/-- The value of a digit run continued from `n`: `number*10 + digit` at each
digit, as unbounded naturals. -/
def runValueFrom (n : Nat) (r : List Nat) : Nat :=
  r.foldl (fun m c => m * 10 + (c - zeroChar)) n

/-- The decimal value of a digit run, accumulated from 0 (an empty run has
value 0, leading zeros do not count). -/
def runValue (r : List Nat) : Nat := runValueFrom 0 r

/-- The address `(a0<<24)|(a1<<16)|(a2<<8)|a3` of exactly four run values. -/
def combine : List Nat → Option Nat
  | [v0, v1, v2, v3] => some ((v0 <<< 24) ||| (v1 <<< 16) ||| (v2 <<< 8) ||| v3)
  | _ => none

/-- The address of a line (given without its newline): the line is cut at
its `'.'` bytes; every piece must consist of digits only and have a value of
at most 255, and there must be exactly four pieces (three dots). -/
def refLine (l : List Nat) : Option Nat :=
  let runs := l.splitOn dotChar
  if runs.all (fun r => r.all isDigit && decide (runValue r ≤ 255)) then
    combine (runs.map runValue)
  else none

/-- The reference output of the parser at chunk index 0: one value per
accepted newline-terminated line, in window order. -/
def refEmit (b : List Nat) : List Nat := (terminatedLines b).filterMap refLine

/-- A well-formed dotted-decimal line in the strict sense: four non-empty
digit runs, each of value at most 255, separated by three dots. -/
def strictLine (l : List Nat) : Bool :=
  let runs := l.splitOn dotChar
  decide (runs.length = 4) &&
    runs.all (fun r => !r.isEmpty && r.all isDigit && decide (runValue r ≤ 255))

/-! ## The presence bitmap of `ipv4_set.go` -/

/-- Constant `TotalIPs = 1 << 32`. -/
def TotalIPs : Nat := 1 <<< 32

/-- Constant `Words = TotalIPs >> 6`. -/
def Words : Nat := TotalIPs >>> 6

/-- Constant `BitmapBytes = Words * 8`. -/
def BitmapBytes : Nat := Words * 8

/-- The struct `ipv4Set`: a slice of `uint64` words. -/
structure ipv4Set where
  bitmap : List Nat
deriving DecidableEq, Repr

/-- The constructor `newIPv4Set()`: `Words` zero words. -/
def newIPv4Set : ipv4Set := ⟨List.replicate Words 0⟩

/-- The test helper `newSmallSet(words)` of `ipv4_set_test.go`. -/
def newSmallSet (words : Nat) : ipv4Set := ⟨List.replicate words 0⟩

/-- The method `ipv4Set.add(ip)`; `none` is the panic of an index out of range. -/
def ipv4Set.add (s : ipv4Set) (ip : Nat) : Option ipv4Set :=
  let w := ip >>> 6
  let b := (1 <<< (ip &&& 63)) % 2 ^ 64
  if w < s.bitmap.length then some ⟨s.bitmap.set w (s.bitmap.getD w 0 ||| b)⟩ else none

/-- The library function `bits.OnesCount64`: the number of one bits among the
64 bits of a word. -/
def onesCount64 (w : Nat) : Nat := (List.range 64).countP (fun i => w.testBit i)

/-- The method `ipv4Set.count()`, with its `uint64` total. -/
def ipv4Set.count (s : ipv4Set) : Nat :=
  s.bitmap.foldl (fun total w => (total + onesCount64 w) % 2 ^ 64) 0

/-- The aggregator loop `for ip := range ips { ipSet.add(ip) }` on the values
received, in the order received. -/
def ipv4Set.addAll (s : ipv4Set) : List Nat → Option ipv4Set
  | [] => some s
  | ip :: rest => (s.add ip).bind (fun s' => s'.addAll rest)

/-! ## The window mapper of `memory_map.go` -/

/-- The value an `int64` computation keeps of the exact result `x`: signed
64-bit wraparound. -/
def wrap64 (x : Int) : Int := (x + 2 ^ 63) % 2 ^ 64 - 2 ^ 63

/-- An error number of the operating system. -/
abbrev Errno := Nat

/-- The error `syscall.EINVAL`. -/
def EINVAL : Errno := 22

/-- The side of the operating system in a mapping request: for an offset and
a length, the error it answers with (alignment, resource limits), or `none`
when it grants the mapping. -/
abbrev Platform := Int → Int → Option Errno

/-- A platform that grants every request. -/
def Platform.permissive : Platform := fun _ _ => none

/-- A platform that refuses every offset that is not a multiple of the page
size, with `EINVAL`. -/
def Platform.paged (pageSize : Int) : Platform :=
  fun offset _ => if offset % pageSize = 0 then none else some EINVAL

/-- The library call `syscall.Mmap(fd, offset, length, PROT_READ, MAP_SHARED)`
on a file with content `f`: Go refuses a length that is not positive with
`EINVAL`, the system refuses a negative offset, and a granted mapping is the
bytes of the file at `[offset, offset+length)`. -/
def sysMmap (os : Platform) (f : List Nat) (offset length : Int) : Except Errno (List Nat) :=
  if length ≤ 0 then .error EINVAL
  else if offset < 0 then .error EINVAL
  else
    match os offset length with
    | some e => .error e
    | none => .ok ((f.drop offset.toNat).take length.toNat)

/-- The struct `memoryMap`; the file `f` is its content, `b` the window. -/
structure memoryMap where
  f : List Nat
  size : Int
  chunk : Int
  overlap : Int
  b : List Nat
deriving DecidableEq, Repr

/-- The first half of `memoryMap.mmap(index)`: the offset and the length it
passes to `syscall.Mmap`, or `none` when it returns before mapping
(`left < 1`). -/
def memoryMap.request (mm : memoryMap) (index : Int) : Option (Int × Int) :=
  let offset := wrap64 (index * mm.chunk)
  let length := wrap64 (mm.chunk + mm.overlap)
  let left := wrap64 (mm.size - offset)
  if left < 1 then none
  else if left < length then some (offset, left)
  else some (offset, length)

/-- The method `memoryMap.mmap(index)`: the mapper afterwards and the error
returned (`none` is `nil`). On the early return `mm.b` is not assigned; the
conversion `int(length)` keeps the value (`int` is 64 bits wide); a failed
`syscall.Mmap` assigns its nil slice to `mm.b`. -/
def memoryMap.mmap (os : Platform) (mm : memoryMap) (index : Int) : memoryMap × Option Errno :=
  match mm.request index with
  | none => (mm, none)
  | some (offset, length) =>
    match sysMmap os mm.f offset length with
    | .ok b => ({ mm with b := b }, none)
    | .error e => ({ mm with b := [] }, some e)

/-- The bytes `[k*chunk, min(k*chunk + chunk + overlap, size))` of a file: the
window of chunk `k` in exact arithmetic. -/
def window (f : List Nat) (chunk overlap k : Nat) : List Nat :=
  (f.drop (k * chunk)).take (chunk + overlap)

/-! ## The pipeline `app.run` -/

/-- The struct `app`. -/
structure app where
  chunk : Int
  overlap : Int
  numWorkers : Int
deriving DecidableEq, Repr

/-- The expression `nchunks := (size + (app.chunk) - 1) / (app.chunk)` on
`int64`, with Go's division truncated toward zero. -/
def app.nchunks (a : app) (size : Int) : Int :=
  wrap64 (Int.tdiv (wrap64 (wrap64 (size + a.chunk) - 1)) a.chunk)

/-- The indices the generator goroutine sends on `indexes` when the context is
never cancelled: `0, 1, ..., nchunks-1`. -/
def app.indexes (a : app) (size : Int) : List Int :=
  (List.range (a.nchunks size).toNat).map Int.ofNat

/-- The mapper a worker goroutine starts with. -/
def app.newMap (a : app) (f : List Nat) (size : Int) : memoryMap :=
  { f := f, size := size, chunk := a.chunk, overlap := a.overlap, b := [] }

/-- One worker goroutine under a live context, receiving the indices `work`
from the channel in this order and then finding it closed: the values it sends
to `ips` and its final `err`. A failed `mmap` ends the worker. -/
def app.worker (os : Platform) : memoryMap → List Int → List Nat × Option Errno
  | _, [] => ([], none)
  | mm, i :: rest =>
    match mm.mmap os i with
    | (_, some e) => ([], some e)
    | (mm', none) =>
      let r := app.worker os mm' rest
      (writeIPs Context.background mm'.b i ++ r.1, r.2)

/-- What the scheduler decides in one run: the indices each worker receives,
in the order it receives them (one list per worker), and the order in which
the values sent to `ips` reach the aggregator. -/
structure Schedule where
  work : List (List Int)
  arrival : List Nat
deriving DecidableEq, Repr

/-- What each worker of a run sends and how it ends. -/
def app.workerResults (os : Platform) (a : app) (f : List Nat) (size : Int) (sch : Schedule) :
    List (List Nat × Option Errno) :=
  sch.work.map (app.worker os (a.newMap f size))

/-- A run without cancellation that is complete: there is one work list per
worker, together the workers receive exactly the generated indices, and the
aggregator receives exactly the values the workers send, in some order. -/
def Schedule.Complete (os : Platform) (a : app) (f : List Nat) (size : Int) (sch : Schedule) :
    Prop :=
  (sch.work.length : Int) = a.numWorkers ∧
  sch.work.flatten.Perm (a.indexes size) ∧
  sch.arrival.Perm ((a.workerResults os f size sch).map (fun r => r.1)).flatten

/-- The method `app.run` as a sequential model under a schedule: the count of
the bitmap after the aggregator has added every value received, and the
non-nil worker errors (`none` when there is none, Go's `nil`). The outer
`none` is a panic of `ipSet.add`. -/
def app.run (os : Platform) (a : app) (f : List Nat) (size : Int) (sch : Schedule) :
    Option (Nat × Option (List Errno)) :=
  let errArr := (a.workerResults os f size sch).filterMap (fun r => r.2)
  (newIPv4Set.addAll sch.arrival).map
    (fun s => (s.count, if errArr.length ≠ 0 then some errArr else none))

/-! ## Auxiliary definitions for the proofs -/

/-- The main loop of `writeIPs` run on a remaining slice with the bound `n` that
always suffices: the length of the slice. -/
def parseFrom (ctx : Context) (st : PState) (rest : List Nat) : List Nat :=
  writeIPsLoop rest.length ctx st rest

/-- Two states that the rest of the parse cannot tell apart: same `number` and
`segment`, and the same octets among those already stored in this line. -/
def PState.agree (st st' : PState) : Prop :=
  st.segment = st'.segment ∧ st.number = st'.number ∧ (1 ≤ st.segment → st.a0 = st'.a0) ∧
    (2 ≤ st.segment → st.a1 = st'.a1) ∧ (3 ≤ st.segment → st.a2 = st'.a2)

/-- The octets already stored in the current line. -/
def PState.pre (st : PState) : List Nat := [st.a0, st.a1, st.a2].take st.segment

/-- The invariant of the parser inside a line. -/
def PState.Inv (st : PState) : Prop :=
  st.segment ≤ 3 ∧ st.number ≤ 255 ∧ ∀ v ∈ st.pre, v ≤ 255

/-- The address of the rest of a line, cut at its dots, when the octets `pre`
are already stored and the current run has accumulated `n`. -/
def refFrom (pre : List Nat) (n : Nat) : List (List Nat) → Option Nat
  | [] => none
  | r0 :: rs =>
    if (r0.all isDigit && decide (runValueFrom n r0 ≤ 255)) &&
        rs.all (fun r => r.all isDigit && decide (runValue r ≤ 255)) then
      combine (pre ++ runValueFrom n r0 :: rs.map runValue)
    else none

/-- The sum of the one-bit counts of the words, without the `uint64` wrap. -/
def ipv4Set.bitSum (s : ipv4Set) : Nat := (s.bitmap.map onesCount64).sum

/-- The bitmap `s` represents the set `S` of addresses below `64 * len`. -/
def ipv4Set.Represents (s : ipv4Set) (S : Finset Nat) : Prop :=
  (∀ j ∈ S, j < 64 * s.bitmap.length) ∧
  (∀ j, j < 64 * s.bitmap.length → ((s.bitmap.getD (j / 64) 0).testBit (j % 64) = true ↔ j ∈ S)) ∧
  s.bitSum = S.card

/-- A fresh mapper (no window yet) of a 16-byte file that is one chunk. -/
def staleMap : memoryMap :=
  { f := bytes "1.2.3.4\n5.6.7.8\n", size := 16, chunk := 16, overlap := 0, b := [] }

/-- A window that is empty or ends with a newline. -/
def endsLine (a : List Nat) : Prop := a = [] ∨ ∃ a', a = a' ++ [newLine]

/-- The iterations of the main loop of `writeIPs` under a live context, as the
loop makes them: for each one the variables at its start, the byte `c = b[i]`
it reads and the value it sends to `in`, if any. -/
def writeIPsTrace : Nat → PState → List Nat → List (PState × Nat × Option Nat)
  | 0, _, _ => []
  | _ + 1, _, [] => []
  | fuel + 1, st, c :: rest =>
    let r := writeIPsStep st c rest
    (st, c, r.1) :: writeIPsTrace fuel r.2.1 r.2.2

/-- The iterations that `writeIPs(ctx, b, index, in)` makes when the context
stays live. -/
def writeIPsIterations (b : List Nat) (index : Int) : List (PState × Nat × Option Nat) :=
  let n := b.length
  if n = 0 then []
  else
    let start := if index ≠ 0 then (skipToNewline b).drop 1 else b
    writeIPsTrace n PState.init start

/-- The context that is cancelled from its `k`-th check on. -/
def Context.cancelledFrom (k : Nat) : Context := fun j => decide (k ≤ j)

/-- The bounds on the variables of the parser: every stored octet and the
accumulator are at most 255, the dot count at most 3. -/
def PState.Bounded (st : PState) : Prop :=
  st.a0 ≤ 255 ∧ st.a1 ≤ 255 ∧ st.a2 ≤ 255 ∧ st.number ≤ 255 ∧ st.segment ≤ 3

/-- A file of 4112 bytes: 256 lines `100.100.100.100` (one page of 4096 bytes)
followed by the line `255.255.255.255`, which starts exactly at byte 4096. -/
def boundaryFile : List Nat :=
  (List.replicate 256 (bytes "100.100.100.100\n")).flatten ++ bytes "255.255.255.255\n"

/-- One worker goroutine whatever the context does: `work` lists the indices
the worker receives from the channel, each with the context as the parser run
on that chunk observes it; after them the worker stops because the channel is
closed or because it observes the cancellation, in both cases with a nil
`err`. A failed `mmap` ends the worker with that error (after `stop()`). -/
def app.workerCtx (os : Platform) : memoryMap → List (Int × Context) → List Nat × Option Errno
  | _, [] => ([], none)
  | mm, ic :: rest =>
    match mm.mmap os ic.1 with
    | (_, some e) => ([], some e)
    | (mm', none) =>
      let r := app.workerCtx os mm' rest
      (writeIPs ic.2 mm'.b ic.1 ++ r.1, r.2)

/-- What the scheduler and the cancellation decide in one run: for each worker
the indices it receives with the context it observes on each, and the order in
which the values sent to `ips` reach the aggregator. -/
structure CtxSchedule where
  work : List (List (Int × Context))
  arrival : List Nat

/-- What each worker of a run sends and how it ends, whatever the context
does. -/
def app.ctxResults (os : Platform) (a : app) (f : List Nat) (size : Int) (sch : CtxSchedule) :
    List (List Nat × Option Errno) :=
  sch.work.map (app.workerCtx os (a.newMap f size))

/-- The method `app.run` as a sequential model under a schedule with
cancellation: the count of the bitmap after the aggregator has added every
value received, and the non-nil worker errors collected from `errs` (`none`
when there is none). -/
def app.runCtx (os : Platform) (a : app) (f : List Nat) (size : Int) (sch : CtxSchedule) :
    Option (Nat × Option (List Errno)) :=
  let errArr := (a.ctxResults os f size sch).filterMap (fun r => r.2)
  (newIPv4Set.addAll sch.arrival).map
    (fun s => (s.count, if errArr.length ≠ 0 then some errArr else none))

/-- The schedule of a run under a context that stays live. -/
def Schedule.toCtx (sch : Schedule) : CtxSchedule :=
  ⟨sch.work.map (fun w => w.map (fun i => (i, Context.background))), sch.arrival⟩

/-- What the aggregator receives in a run: every value some worker sent on
`ips` before it ended, in some order (`ips` is closed only after every worker
has reported on `errs`, and the aggregator drains it before `count`). -/
def CtxSchedule.Sent (os : Platform) (a : app) (f : List Nat) (size : Int) (sch : CtxSchedule) :
    Prop :=
  sch.arrival.Perm ((a.ctxResults os f size sch).map (fun r => r.1)).flatten

/-! # Proofs -/

/-! ## The parser -/

theorem skipToNewline_length_le (b : List Nat) : (skipToNewline b).length ≤ b.length := by
  induction b with
  | nil => simp [skipToNewline]
  | cons c rest ih =>
    simp only [skipToNewline]
    split_ifs
    · simp only [List.length_cons]; omega
    · exact le_refl _

theorem writeIPsStep_length_le (st : PState) (c : Nat) (rest : List Nat) :
    (writeIPsStep st c rest).2.2.length ≤ rest.length := by
  have h := skipToNewline_length_le rest
  unfold writeIPsStep
  dsimp only
  repeat' split
  all_goals first | exact h | exact le_refl _

theorem writeIPsLoop_fuel (f1 f2 : Nat) (ctx : Context) (st : PState) (rest : List Nat)
    (h1 : rest.length ≤ f1) (h2 : rest.length ≤ f2) :
    writeIPsLoop f1 ctx st rest = writeIPsLoop f2 ctx st rest := by
  induction f1 generalizing f2 ctx st rest with
  | zero =>
    have : rest = [] := List.length_eq_zero.mp (Nat.le_zero.mp h1)
    subst this
    cases f2 <;> simp [writeIPsLoop]
  | succ f1 ih =>
    cases rest with
    | nil => cases f2 <;> simp [writeIPsLoop]
    | cons c rest =>
      cases f2 with
      | zero => simp at h2
      | succ f2 =>
        simp only [writeIPsLoop]
        have hl := writeIPsStep_length_le st c rest
        simp only [List.length_cons] at h1 h2
        rw [ih f2 ctx.next _ _ (by omega) (by omega)]

theorem parseFrom_nil (ctx : Context) (st : PState) : parseFrom ctx st [] = [] := by
  simp [parseFrom, writeIPsLoop]

theorem parseFrom_cons (ctx : Context) (st : PState) (c : Nat) (rest : List Nat) :
    parseFrom ctx st (c :: rest) =
      if ctx 0 then []
      else (writeIPsStep st c rest).1.toList ++
        parseFrom ctx.next (writeIPsStep st c rest).2.1 (writeIPsStep st c rest).2.2 := by
  simp only [parseFrom, List.length_cons, writeIPsLoop]
  split_ifs
  · rfl
  · rw [writeIPsLoop_fuel rest.length _ _ _ _ (writeIPsStep_length_le st c rest) (le_refl _)]

theorem writeIPs_eq_parseFrom (ctx : Context) (b : List Nat) (index : Int) :
    writeIPs ctx b index =
      parseFrom ctx PState.init (if index ≠ 0 then (skipToNewline b).drop 1 else b) := by
  unfold writeIPs parseFrom
  dsimp only
  split_ifs with h0 hi
  · have : b = [] := List.length_eq_zero.mp h0
    subst this
    simp [skipToNewline, writeIPsLoop]
  · have : b = [] := List.length_eq_zero.mp h0
    subst this
    simp [writeIPsLoop]
  · apply writeIPsLoop_fuel
    · have := skipToNewline_length_le b
      simp only [List.length_drop]; omega
    · exact le_refl _
  · rfl

theorem Context.next_background : Context.next Context.background = Context.background := rfl

theorem writeIPsStep_agree (st st' : PState) (h : st.agree st') (c : Nat) (rest : List Nat) :
    (writeIPsStep st c rest).1 = (writeIPsStep st' c rest).1 ∧
    (writeIPsStep st c rest).2.1.agree (writeIPsStep st' c rest).2.1 ∧
    (writeIPsStep st c rest).2.2 = (writeIPsStep st' c rest).2.2 := by
  obtain ⟨a0, a1, a2, n, s⟩ := st
  obtain ⟨b0, b1, b2, n', s'⟩ := st'
  obtain ⟨hs, hn, h0, h1, h2⟩ := h
  simp only at hs hn h0 h1 h2
  subst hs hn
  unfold writeIPsStep
  dsimp only
  split_ifs with hd hbig hdot hnl h3
  · simp [PState.agree, PState.reset]
  · simp only [PState.agree]; exact ⟨trivial, ⟨trivial, trivial, h0, h1, h2⟩, trivial⟩
  · obtain _ | _ | _ | s := s
    · simp [PState.agree]
    · simp [PState.agree] at h0 ⊢; exact h0
    · simp [PState.agree] at h0 h1 ⊢; exact ⟨h0, h1⟩
    · simp [PState.agree, PState.reset]
  · subst h3
    simp [PState.agree, PState.reset] at h0 h1 h2 ⊢
    rw [h0, h1, h2]
  · simp [PState.agree, PState.reset]
  · simp [PState.agree, PState.reset]

theorem writeIPsLoop_agree (fuel : Nat) (ctx : Context) (st st' : PState) (h : st.agree st')
    (rest : List Nat) : writeIPsLoop fuel ctx st rest = writeIPsLoop fuel ctx st' rest := by
  induction fuel generalizing ctx st st' rest with
  | zero => simp [writeIPsLoop]
  | succ fuel ih =>
    cases rest with
    | nil => simp [writeIPsLoop]
    | cons c rest =>
      simp only [writeIPsLoop]
      obtain ⟨e1, e2, e3⟩ := writeIPsStep_agree st st' h c rest
      rw [e1, e3, ih ctx.next _ _ e2]

theorem parseFrom_agree (ctx : Context) (st st' : PState) (h : st.agree st')
    (rest : List Nat) : parseFrom ctx st rest = parseFrom ctx st' rest :=
  writeIPsLoop_agree _ ctx st st' h rest

theorem parseFrom_reset (ctx : Context) (st : PState) (rest : List Nat) :
    parseFrom ctx st.reset rest = parseFrom ctx PState.init rest :=
  parseFrom_agree ctx _ _ (by simp [PState.agree, PState.reset, PState.init]) rest

theorem skipToNewline_of_not_mem (l : List Nat) (h : newLine ∉ l) : skipToNewline l = [] := by
  induction l with
  | nil => rfl
  | cons c l ih =>
    simp only [List.mem_cons, not_or] at h
    simp only [skipToNewline]
    rw [if_pos (fun e => h.1 e.symm)]
    exact ih h.2

theorem skipToNewline_append (l rest : List Nat) (h : newLine ∉ l) :
    skipToNewline (l ++ newLine :: rest) = newLine :: rest := by
  induction l with
  | nil => simp [skipToNewline]
  | cons c l ih =>
    simp only [List.mem_cons, not_or] at h
    simp only [List.cons_append, skipToNewline]
    rw [if_pos (fun e => h.1 e.symm)]
    exact ih h.2

theorem splitOn_cons_sep (sep : Nat) (l : List Nat) :
    (sep :: l).splitOn sep = [] :: l.splitOn sep := by
  simp [List.splitOn, List.splitOnP_cons]

theorem splitOn_cons_ne (sep c : Nat) (l : List Nat) (h : c ≠ sep) :
    ∃ r rs, l.splitOn sep = r :: rs ∧ (c :: l).splitOn sep = (c :: r) :: rs := by
  have hne : l.splitOn sep ≠ [] := List.splitOnP_ne_nil _ _
  obtain ⟨r, rs, hr⟩ := List.exists_cons_of_ne_nil hne
  refine ⟨r, rs, hr, ?_⟩
  simp only [List.splitOn] at hr ⊢
  rw [List.splitOnP_cons, hr]
  simp [h]

theorem runValueFrom_cons (n : Nat) (c : Nat) (r : List Nat) :
    runValueFrom n (c :: r) = runValueFrom (n * 10 + (c - zeroChar)) r := rfl

theorem le_runValueFrom (n : Nat) (r : List Nat) : n ≤ runValueFrom n r := by
  induction r generalizing n with
  | nil => exact le_refl _
  | cons c r ih =>
    rw [runValueFrom_cons]
    have := ih (n * 10 + (c - zeroChar))
    omega

theorem parseFrom_cons_bg (st : PState) (c : Nat) (rest : List Nat) :
    parseFrom Context.background st (c :: rest) =
      (writeIPsStep st c rest).1.toList ++
        parseFrom Context.background (writeIPsStep st c rest).2.1 (writeIPsStep st c rest).2.2 := by
  rw [parseFrom_cons, Context.next_background]
  exact if_neg (by simp [Context.background])

theorem writeIPsStep_newline (st : PState) (rest : List Nat) :
    writeIPsStep st newLine rest =
      (if st.segment = 3 then (some (((st.a0 <<< 24) % 2 ^ 32) ||| ((st.a1 <<< 16) % 2 ^ 32)
          ||| ((st.a2 <<< 8) % 2 ^ 32) ||| st.number), st.reset, rest)
       else (none, st.reset, rest)) := by
  unfold writeIPsStep
  simp [newLine, zeroChar, neufChar, dotChar]

theorem parseFrom_newline (st : PState) (rest : List Nat) :
    parseFrom Context.background st (newLine :: rest) =
      (if st.segment = 3 then
        [((st.a0 <<< 24) % 2 ^ 32) ||| ((st.a1 <<< 16) % 2 ^ 32) ||| ((st.a2 <<< 8) % 2 ^ 32)
          ||| st.number]
       else []) ++ parseFrom Context.background PState.init rest := by
  rw [parseFrom_cons_bg, writeIPsStep_newline]
  split_ifs <;> simp [parseFrom_reset]

theorem parseFrom_reject (st : PState) (c : Nat) (l rest : List Nat) (hl : newLine ∉ l)
    (hstep : writeIPsStep st c (l ++ newLine :: rest) =
      (none, st.reset, skipToNewline (l ++ newLine :: rest))) :
    parseFrom Context.background st (c :: (l ++ newLine :: rest)) =
      parseFrom Context.background PState.init rest := by
  rw [parseFrom_cons_bg, hstep, skipToNewline_append l rest hl]
  simp only [Option.toList, List.nil_append]
  rw [parseFrom_newline]
  simp [PState.reset]

theorem shl_mod (a k : Nat) (h : a ≤ 255) (hk : k ≤ 24) : (a <<< k) % 2 ^ 32 = a <<< k := by
  apply Nat.mod_eq_of_lt
  rw [Nat.shiftLeft_eq]
  calc a * 2 ^ k ≤ 255 * 2 ^ 24 :=
        Nat.mul_le_mul h (Nat.pow_le_pow_right (by norm_num) hk)
    _ < 2 ^ 32 := by norm_num

theorem shl_mod_lit (a k : Nat) (h : a ≤ 255) (hk : k ≤ 24) :
    (a <<< k) % 4294967296 = a <<< k := by
  have := shl_mod a k h hk
  norm_num at this
  exact Nat.mod_eq_of_lt this

theorem digit_sub_le (c : Nat) (hd : zeroChar ≤ c ∧ c ≤ neufChar) : c - zeroChar ≤ 9 := by
  have h1 : zeroChar = 48 := rfl
  have h2 : neufChar = 57 := rfl
  rw [h1, h2] at hd
  rw [h1]
  omega

theorem digit_ne_dot (c : Nat) (hd : zeroChar ≤ c ∧ c ≤ neufChar) : c ≠ dotChar := by
  intro e; rw [e] at hd; simp [zeroChar, dotChar] at hd

theorem digit_ne_newLine (c : Nat) (hd : zeroChar ≤ c ∧ c ≤ neufChar) : c ≠ newLine := by
  intro e; rw [e] at hd; simp [zeroChar, newLine] at hd

theorem writeIPsStep_digit (st : PState) (c : Nat) (rest : List Nat)
    (hd : zeroChar ≤ c ∧ c ≤ neufChar) (hn : st.number ≤ 255) :
    writeIPsStep st c rest =
      if st.number * 10 + (c - zeroChar) > 255 then (none, st.reset, skipToNewline rest)
      else (none, { st with number := st.number * 10 + (c - zeroChar) }, rest) := by
  have hmod : (st.number * 10 + (c - zeroChar)) % 2 ^ 32 = st.number * 10 + (c - zeroChar) := by
    apply Nat.mod_eq_of_lt
    have := digit_sub_le c hd
    have : (2:Nat) ^ 32 = 4294967296 := by norm_num
    omega
  unfold writeIPsStep
  simp only [hd, and_self, if_true, hmod]

theorem writeIPsStep_other (st : PState) (c : Nat) (rest : List Nat)
    (hd : ¬ (zeroChar ≤ c ∧ c ≤ neufChar)) (hdot : c ≠ dotChar) (hnl : c ≠ newLine) :
    writeIPsStep st c rest = (none, st.reset, skipToNewline rest) := by
  unfold writeIPsStep
  simp only [hd, if_false, hdot, hnl]

theorem writeIPsStep_dot (a0 a1 a2 n s : Nat) (rest : List Nat) :
    writeIPsStep ⟨a0, a1, a2, n, s⟩ dotChar rest =
      if s = 0 then (none, ⟨n, a1, a2, 0, 1⟩, rest)
      else if s = 1 then (none, ⟨a0, n, a2, 0, 2⟩, rest)
      else if s = 2 then (none, ⟨a0, a1, n, 0, 3⟩, rest)
      else (none, ⟨a0, a1, a2, 0, 0⟩, skipToNewline rest) := by
  unfold writeIPsStep
  obtain _ | _ | _ | s := s <;> simp [zeroChar, neufChar, dotChar, PState.reset]

theorem parseFrom_line (l : List Nat) (hl : newLine ∉ l) (st : PState) (hinv : st.Inv)
    (rest : List Nat) :
    parseFrom Context.background st (l ++ newLine :: rest) =
      (refFrom st.pre st.number (l.splitOn dotChar)).toList ++
        parseFrom Context.background PState.init rest := by
  induction l generalizing st with
  | nil =>
    obtain ⟨a0, a1, a2, n, s⟩ := st
    obtain ⟨hs, hn, hpre⟩ := hinv
    simp only [PState.pre] at hs hn hpre
    rw [List.nil_append, parseFrom_newline, List.splitOn_nil]
    congr 1
    simp only [refFrom, List.all_nil, runValueFrom, List.foldl_nil, hn, decide_True, Bool.and_self,
      if_true, List.map_nil, PState.pre]
    obtain _ | _ | _ | _ | s := s
    · simp [combine]
    · simp [combine]
    · simp [combine]
    · simp only [List.take, List.mem_cons, forall_eq_or_imp] at hpre
      simp [combine, shl_mod_lit _ _ hpre.1, shl_mod_lit _ _ hpre.2.1, shl_mod_lit _ _ hpre.2.2.1]
    · omega
  | cons c l ih =>
    simp only [List.mem_cons, not_or] at hl
    obtain ⟨hc, hl⟩ := hl
    obtain ⟨a0, a1, a2, n, s⟩ := st
    obtain ⟨hs, hn, hpre⟩ := hinv
    simp only at hs hn
    rw [List.cons_append]
    by_cases hd : zeroChar ≤ c ∧ c ≤ neufChar
    · -- a digit
      obtain ⟨r, rs, hr, hr'⟩ := splitOn_cons_ne dotChar c l (digit_ne_dot c hd)
      have hdig : isDigit c = true := by simp [isDigit, hd]
      have hstep := writeIPsStep_digit ⟨a0, a1, a2, n, s⟩ c (l ++ newLine :: rest) hd hn
      simp only at hstep
      by_cases hbig : n * 10 + (c - zeroChar) > 255
      · rw [if_pos hbig] at hstep
        rw [parseFrom_reject _ c l rest hl hstep, hr']
        have := le_runValueFrom (n * 10 + (c - zeroChar)) r
        have hnot : ¬ runValueFrom n (c :: r) ≤ 255 := by
          rw [runValueFrom_cons]; omega
        simp [refFrom, hnot]
      · rw [if_neg hbig] at hstep
        rw [parseFrom_cons_bg, hstep]
        show parseFrom Context.background _ (l ++ newLine :: rest) = _
        rw [ih hl ⟨a0, a1, a2, n * 10 + (c - zeroChar), s⟩ ⟨hs, by simp only; omega, hpre⟩,
          hr, hr']
        simp [refFrom, PState.pre, runValueFrom_cons, hdig]
    · by_cases hdot : c = dotChar
      · subst hdot
        rw [splitOn_cons_sep]
        obtain ⟨r, rs, hr⟩ := List.exists_cons_of_ne_nil
          (List.splitOnP_ne_nil (fun x => x == dotChar) l)
        have hr2 : List.splitOn dotChar l = r :: rs := hr
        simp only [PState.pre] at hpre
        have hstep := writeIPsStep_dot a0 a1 a2 n s (l ++ newLine :: rest)
        have hs4 : s = 0 ∨ s = 1 ∨ s = 2 ∨ s = 3 := by omega
        rcases hs4 with rfl | rfl | rfl | rfl
        · simp only [if_true] at hstep
          rw [parseFrom_cons_bg, hstep]
          show parseFrom Context.background _ (l ++ newLine :: rest) = _
          rw [ih hl ⟨n, a1, a2, 0, 1⟩ ⟨by simp, by simp, by simp [PState.pre, hn]⟩, hr2]
          simp [refFrom, PState.pre, runValueFrom, runValue, hn]
        · simp only [if_true, OfNat.one_ne_ofNat, if_false, one_ne_zero] at hstep
          simp only [List.take, List.mem_cons, forall_eq_or_imp] at hpre
          rw [parseFrom_cons_bg, hstep]
          show parseFrom Context.background _ (l ++ newLine :: rest) = _
          rw [ih hl ⟨a0, n, a2, 0, 2⟩ ⟨by simp, by simp, by simp [PState.pre, hn, hpre.1]⟩, hr2]
          simp [refFrom, PState.pre, runValueFrom, runValue, hn]
        · simp only [if_true, OfNat.ofNat_ne_one, OfNat.ofNat_ne_zero, if_false] at hstep
          simp only [List.take, List.mem_cons, forall_eq_or_imp] at hpre
          rw [parseFrom_cons_bg, hstep]
          show parseFrom Context.background _ (l ++ newLine :: rest) = _
          rw [ih hl ⟨a0, a1, n, 0, 3⟩
            ⟨by simp, by simp, by simp [PState.pre, hn, hpre.1, hpre.2.1]⟩, hr2]
          simp [refFrom, PState.pre, runValueFrom, runValue, hn]
        · have hstep' : writeIPsStep ⟨a0, a1, a2, n, 3⟩ dotChar (l ++ newLine :: rest) =
              (none, PState.reset ⟨a0, a1, a2, n, 3⟩, skipToNewline (l ++ newLine :: rest)) := by
            rw [hstep]; simp [PState.reset]
          rw [parseFrom_reject _ dotChar l rest hl hstep', hr2]
          simp [refFrom, PState.pre, combine]
      · have hstep := writeIPsStep_other ⟨a0, a1, a2, n, s⟩ c (l ++ newLine :: rest) hd hdot
          (fun e => hc e.symm)
        obtain ⟨r, rs, hr, hr'⟩ := splitOn_cons_ne dotChar c l hdot
        rw [parseFrom_reject _ c l rest hl hstep, hr']
        have hdig : isDigit c = false := by
          simp only [isDigit, Bool.and_eq_false_iff, decide_eq_false_iff_not]
          by_contra hcon
          push_neg at hcon
          exact hd hcon
        simp [refFrom, hdig]

theorem refFrom_init (l : List Nat) : refFrom [] 0 (l.splitOn dotChar) = refLine l := by
  obtain ⟨r, rs, hr⟩ := List.exists_cons_of_ne_nil
    (List.splitOnP_ne_nil (fun x => x == dotChar) l)
  have hr2 : List.splitOn dotChar l = r :: rs := hr
  simp [refLine, refFrom, hr2, runValue]

theorem PState.init_inv : PState.init.Inv := by
  simp [PState.Inv, PState.init, PState.pre]

theorem parseFrom_line_init (l : List Nat) (hl : newLine ∉ l) (rest : List Nat) :
    parseFrom Context.background PState.init (l ++ newLine :: rest) =
      (refLine l).toList ++ parseFrom Context.background PState.init rest := by
  rw [parseFrom_line l hl PState.init PState.init_inv rest, ← refFrom_init]
  rfl

theorem writeIPsStep_emit_none (st : PState) (c : Nat) (rest : List Nat) (hc : c ≠ newLine) :
    (writeIPsStep st c rest).1 = none := by
  unfold writeIPsStep
  dsimp only
  repeat' split
  all_goals rfl

theorem writeIPsStep_rest_not_mem (st : PState) (c : Nat) (rest : List Nat)
    (h : newLine ∉ rest) : newLine ∉ (writeIPsStep st c rest).2.2 := by
  have hs : newLine ∉ skipToNewline rest := by
    rw [skipToNewline_of_not_mem rest h]; simp
  unfold writeIPsStep
  dsimp only
  repeat' split
  all_goals first | exact h | exact hs

theorem writeIPsLoop_of_not_mem (fuel : Nat) (ctx : Context) (st : PState) (l : List Nat)
    (h : newLine ∉ l) : writeIPsLoop fuel ctx st l = [] := by
  induction fuel generalizing ctx st l with
  | zero => simp [writeIPsLoop]
  | succ fuel ih =>
    cases l with
    | nil => simp [writeIPsLoop]
    | cons c l =>
      simp only [List.mem_cons, not_or] at h
      simp only [writeIPsLoop]
      split_ifs
      · rfl
      · rw [writeIPsStep_emit_none st c l (fun e => h.1 e.symm),
          ih _ _ _ (writeIPsStep_rest_not_mem st c l h.2)]
        rfl

theorem parseFrom_of_not_mem (ctx : Context) (st : PState) (l : List Nat)
    (h : newLine ∉ l) : parseFrom ctx st l = [] :=
  writeIPsLoop_of_not_mem _ ctx st l h

theorem exists_first_newline (b : List Nat) (h : newLine ∈ b) :
    ∃ l rest, b = l ++ newLine :: rest ∧ newLine ∉ l := by
  induction b with
  | nil => simp at h
  | cons c b ih =>
    by_cases hc : c = newLine
    · exact ⟨[], b, by simp [hc], by simp⟩
    · have hb : newLine ∈ b := by
        rcases List.mem_cons.mp h with e | e
        · exact absurd e.symm hc
        · exact e
      obtain ⟨l, rest, e, hl⟩ := ih hb
      refine ⟨c :: l, rest, by simp [e], ?_⟩
      simp only [List.mem_cons, not_or]
      exact ⟨fun e => hc e.symm, hl⟩

theorem terminatedLines_of_not_mem (l : List Nat) (h : newLine ∉ l) : terminatedLines l = [] := by
  unfold terminatedLines List.splitOn
  rw [List.splitOnP_eq_single]
  · rfl
  · intro x hx
    simp only [beq_iff_eq]
    intro e; rw [e] at hx; exact h hx

theorem terminatedLines_append (l rest : List Nat) (h : newLine ∉ l) :
    terminatedLines (l ++ newLine :: rest) = l :: terminatedLines rest := by
  unfold terminatedLines List.splitOn
  rw [List.splitOnP_first]
  · obtain ⟨r, rs, hr⟩ := List.exists_cons_of_ne_nil
      (List.splitOnP_ne_nil (fun x => x == newLine) rest)
    rw [hr]
    rfl
  · intro x hx
    simp only [beq_iff_eq]
    intro e; rw [e] at hx; exact h hx
  · simp

theorem parseFrom_eq_refEmit_aux (n : Nat) :
    ∀ b : List Nat, b.length ≤ n → parseFrom Context.background PState.init b = refEmit b := by
  induction n with
  | zero =>
    intro b hb
    have : b = [] := List.length_eq_zero.mp (Nat.le_zero.mp hb)
    subst this
    rw [parseFrom_nil, refEmit, terminatedLines_of_not_mem [] (by simp)]
    rfl
  | succ n ih =>
    intro b hb
    by_cases h : newLine ∈ b
    · obtain ⟨l, rest, e, hl⟩ := exists_first_newline b h
      subst e
      rw [parseFrom_line_init l hl rest, refEmit, terminatedLines_append l rest hl,
        List.filterMap_cons]
      rw [ih rest (by simp at hb; omega), refEmit]
      cases refLine l <;> rfl
    · rw [parseFrom_of_not_mem _ _ _ h, refEmit, terminatedLines_of_not_mem b h]
      rfl

theorem parseFrom_eq_refEmit (b : List Nat) :
    parseFrom Context.background PState.init b = refEmit b :=
  parseFrom_eq_refEmit_aux b.length b (le_refl _)

theorem writeIPs_zero_eq_refEmit (b : List Nat) :
    writeIPs Context.background b 0 = refEmit b := by
  rw [writeIPs_eq_parseFrom]
  simp [parseFrom_eq_refEmit]

theorem skipToNewline_eq_dropWhile (b : List Nat) :
    skipToNewline b = b.dropWhile (fun c => c != newLine) := by
  induction b with
  | nil => rfl
  | cons c b ih =>
    simp only [skipToNewline, List.dropWhile_cons]
    by_cases h : c = newLine
    · simp [h]
    · simp [h, ih]

theorem start_eq_afterFirstNewline (b : List Nat) :
    (skipToNewline b).drop 1 = afterFirstNewline b := by
  rw [skipToNewline_eq_dropWhile]; rfl

theorem afterFirstNewline_append (l rest : List Nat) (h : newLine ∉ l) :
    afterFirstNewline (l ++ newLine :: rest) = rest := by
  rw [← start_eq_afterFirstNewline, skipToNewline_append l rest h]; rfl

theorem afterFirstNewline_of_not_mem (l : List Nat) (h : newLine ∉ l) :
    afterFirstNewline l = [] := by
  rw [← start_eq_afterFirstNewline, skipToNewline_of_not_mem l h]; rfl

theorem writeIPs_index (ctx : Context) (b : List Nat) (i : Int) (hi : i ≠ 0) :
    writeIPs ctx b i = writeIPs ctx (afterFirstNewline b) 0 := by
  rw [writeIPs_eq_parseFrom, writeIPs_eq_parseFrom, if_pos hi, start_eq_afterFirstNewline]
  simp

theorem writeIPs_of_not_mem (ctx : Context) (b : List Nat) (i : Int) (h : newLine ∉ b) :
    writeIPs ctx b i = [] := by
  rw [writeIPs_eq_parseFrom]
  split_ifs
  · rw [skipToNewline_of_not_mem b h]; exact parseFrom_nil _ _
  · exact parseFrom_of_not_mem _ _ _ h

/-- What one iteration leaves to read when bytes without a newline are appended. -/
theorem writeIPsStep_append (st : PState) (c : Nat) (r t : List Nat) (ht : newLine ∉ t) :
    ∃ t', newLine ∉ t' ∧ writeIPsStep st c (r ++ t) =
      ((writeIPsStep st c r).1, (writeIPsStep st c r).2.1, (writeIPsStep st c r).2.2 ++ t') := by
  have hskip : ∃ t', newLine ∉ t' ∧ skipToNewline (r ++ t) = skipToNewline r ++ t' := by
    by_cases hr : newLine ∈ r
    · obtain ⟨l, rest, e, hl⟩ := exists_first_newline r hr
      subst e
      refine ⟨t, ht, ?_⟩
      rw [List.append_assoc, List.cons_append, skipToNewline_append l _ hl,
        skipToNewline_append l _ hl]
      rfl
    · refine ⟨[], by simp, ?_⟩
      rw [skipToNewline_of_not_mem r hr, skipToNewline_of_not_mem (r ++ t)]
      · rfl
      · simp [hr, ht]
  obtain ⟨t', ht', e⟩ := hskip
  unfold writeIPsStep
  dsimp only
  rw [e]
  repeat' split
  all_goals first | exact ⟨t', ht', rfl⟩ | exact ⟨t, ht, rfl⟩

theorem parseFrom_append_aux (n : Nat) :
    ∀ (ctx : Context) (st : PState) (rest t : List Nat), rest.length ≤ n → newLine ∉ t →
      parseFrom ctx st (rest ++ t) = parseFrom ctx st rest := by
  induction n with
  | zero =>
    intro ctx st rest t hn ht
    have : rest = [] := List.length_eq_zero.mp (Nat.le_zero.mp hn)
    subst this
    rw [List.nil_append, parseFrom_of_not_mem _ _ _ ht, parseFrom_nil]
  | succ n ih =>
    intro ctx st rest t hn ht
    cases rest with
    | nil => rw [List.nil_append, parseFrom_of_not_mem _ _ _ ht, parseFrom_nil]
    | cons c r =>
      rw [List.cons_append, parseFrom_cons, parseFrom_cons]
      obtain ⟨t', ht', e⟩ := writeIPsStep_append st c r t ht
      rw [e]
      dsimp only
      have hlen := writeIPsStep_length_le st c r
      simp only [List.length_cons] at hn
      rw [ih _ _ _ t' (by omega) ht']

theorem parseFrom_append (ctx : Context) (st : PState) (rest t : List Nat) (ht : newLine ∉ t) :
    parseFrom ctx st (rest ++ t) = parseFrom ctx st rest :=
  parseFrom_append_aux rest.length ctx st rest t (le_refl _) ht

theorem writeIPs_append (ctx : Context) (b t : List Nat) (i : Int) (ht : newLine ∉ t) :
    writeIPs ctx (b ++ t) i = writeIPs ctx b i := by
  by_cases hi : i = 0
  · subst hi
    rw [writeIPs_eq_parseFrom, writeIPs_eq_parseFrom]
    simp only [ne_eq, not_true_eq_false, if_false]
    exact parseFrom_append _ _ _ _ ht
  · rw [writeIPs_index _ _ _ hi, writeIPs_index _ _ _ hi]
    by_cases hb : newLine ∈ b
    · obtain ⟨l, rest, e, hl⟩ := exists_first_newline b hb
      subst e
      rw [List.append_assoc, List.cons_append, afterFirstNewline_append l _ hl,
        afterFirstNewline_append l _ hl]
      rw [writeIPs_eq_parseFrom, writeIPs_eq_parseFrom]
      simp only [ne_eq, not_true_eq_false, if_false]
      exact parseFrom_append _ _ _ _ ht
    · rw [afterFirstNewline_of_not_mem b hb, afterFirstNewline_of_not_mem (b ++ t)]
      simp [hb, ht]

theorem writeIPsLoop_isPrefix (fuel : Nat) (ctx : Context) (st : PState) (rest : List Nat) :
    writeIPsLoop fuel ctx st rest <+: writeIPsLoop fuel Context.background st rest := by
  induction fuel generalizing ctx st rest with
  | zero => simp [writeIPsLoop]
  | succ fuel ih =>
    cases rest with
    | nil => simp [writeIPsLoop]
    | cons c rest =>
      simp only [writeIPsLoop]
      rw [if_neg (by simp [Context.background] : ¬ (Context.background 0 = true))]
      split_ifs
      · exact List.nil_prefix
      · rw [Context.next_background]
        exact (List.prefix_append_right_inj _).mpr (ih _ _ _)

theorem writeIPs_isPrefix (ctx : Context) (b : List Nat) (i : Int) :
    writeIPs ctx b i <+: writeIPs Context.background b i := by
  unfold writeIPs
  dsimp only
  split_ifs
  · exact List.prefix_refl _
  · exact writeIPsLoop_isPrefix _ _ _ _
  · exact writeIPsLoop_isPrefix _ _ _ _

theorem terminatedLines_afterFirstNewline_subset (b : List Nat) :
    ∀ l ∈ terminatedLines (afterFirstNewline b), l ∈ terminatedLines b := by
  intro l hl
  by_cases hb : newLine ∈ b
  · obtain ⟨p, rest, e, hp⟩ := exists_first_newline b hb
    subst e
    rw [afterFirstNewline_append p rest hp] at hl
    rw [terminatedLines_append p rest hp]
    exact List.mem_cons_of_mem _ hl
  · rw [afterFirstNewline_of_not_mem b hb, terminatedLines_of_not_mem [] (by simp)] at hl
    simp at hl

theorem mem_writeIPs_line (ctx : Context) (b : List Nat) (i : Int) (v : Nat)
    (hv : v ∈ writeIPs ctx b i) : ∃ l ∈ terminatedLines b, refLine l = some v := by
  have hv' := (writeIPs_isPrefix ctx b i).subset hv
  by_cases hi : i = 0
  · subst hi
    rw [writeIPs_zero_eq_refEmit, refEmit, List.mem_filterMap] at hv'
    exact hv'
  · rw [writeIPs_index _ _ _ hi, writeIPs_zero_eq_refEmit, refEmit, List.mem_filterMap] at hv'
    obtain ⟨l, hl, e⟩ := hv'
    exact ⟨l, terminatedLines_afterFirstNewline_subset b l hl, e⟩

/-- A window that is empty or ends with a newline. -/
theorem refEmit_append_aux (n : Nat) :
    ∀ (a x : List Nat), a.length ≤ n → (a = [] ∨ ∃ a', a = a' ++ [newLine]) →
      refEmit (a ++ x) = refEmit a ++ refEmit x := by
  induction n with
  | zero =>
    intro a x hn _
    have : a = [] := List.length_eq_zero.mp (Nat.le_zero.mp hn)
    subst this
    simp [refEmit, terminatedLines_of_not_mem []]
  | succ n ih =>
    intro a x hn ha
    rcases ha with rfl | ⟨a', rfl⟩
    · simp [refEmit, terminatedLines_of_not_mem []]
    · obtain ⟨l, rest, e, hl⟩ := exists_first_newline (a' ++ [newLine]) (by simp)
      have hrest : rest = [] ∨ ∃ r', rest = r' ++ [newLine] := by
        rcases List.eq_nil_or_concat rest with h | ⟨r', c, h⟩
        · exact Or.inl h
        · right
          refine ⟨r', ?_⟩
          subst h
          have e2 : a' ++ [newLine] = (l ++ newLine :: r') ++ [c] := by
            rw [e]; simp
          have := List.append_inj_right' e2 rfl
          simp only [List.cons.injEq, and_true] at this
          rw [this]; simp
      rw [e, List.append_assoc, List.cons_append]
      simp only [refEmit]
      rw [terminatedLines_append l _ hl, terminatedLines_append l _ hl]
      simp only [List.filterMap_cons]
      have hlen : rest.length ≤ n := by
        have := congrArg List.length e
        simp only [List.length_append, List.length_cons] at this hn
        simp only [List.length_nil] at this hn
        omega
      have := ih rest x hlen hrest
      simp only [refEmit] at this
      cases refLine l <;> simp [this]

theorem refEmit_append (a x : List Nat) (ha : a = [] ∨ ∃ a', a = a' ++ [newLine]) :
    refEmit (a ++ x) = refEmit a ++ refEmit x :=
  refEmit_append_aux a.length a x (le_refl _) ha

theorem refEmit_line (l rest : List Nat) (hl : newLine ∉ l) :
    refEmit (l ++ newLine :: rest) = (refLine l).toList ++ refEmit rest := by
  simp only [refEmit]
  rw [terminatedLines_append l rest hl, List.filterMap_cons]
  cases refLine l <;> rfl

theorem splitOn_length (sep : Nat) (l : List Nat) :
    (l.splitOn sep).length = l.count sep + 1 := by
  induction l with
  | nil => simp [List.splitOn_nil]
  | cons c l ih =>
    by_cases h : c = sep
    · subst h
      rw [splitOn_cons_sep, List.length_cons, ih]
      simp
    · obtain ⟨r, rs, hr, hr'⟩ := splitOn_cons_ne sep c l h
      rw [hr', List.count_cons_of_ne (fun e => h e.symm), ← ih, hr]
      simp

theorem mem_splitOn_of_mem (sep c : Nat) (l : List Nat) (hc : c ∈ l) (hne : c ≠ sep) :
    ∃ r ∈ l.splitOn sep, c ∈ r := by
  induction l with
  | nil => simp at hc
  | cons d l ih =>
    by_cases h : d = sep
    · subst h
      rw [splitOn_cons_sep]
      have hc' : c ∈ l := by
        rcases List.mem_cons.mp hc with e | e
        · exact absurd e hne
        · exact e
      obtain ⟨r, hr, hcr⟩ := ih hc'
      exact ⟨r, List.mem_cons_of_mem _ hr, hcr⟩
    · obtain ⟨r, rs, hr, hr'⟩ := splitOn_cons_ne sep d l h
      rw [hr']
      rcases List.mem_cons.mp hc with e | e
      · exact ⟨d :: r, List.mem_cons_self _ _, by simp [e]⟩
      · obtain ⟨r2, hr2, hcr⟩ := ih e
        rw [hr] at hr2
        rcases List.mem_cons.mp hr2 with e2 | e2
        · exact ⟨d :: r, List.mem_cons_self _ _, by simp [← e2, hcr]⟩
        · exact ⟨r2, List.mem_cons_of_mem _ e2, hcr⟩

theorem combine_eq_some_length (vs : List Nat) (v : Nat) (h : combine vs = some v) :
    vs.length = 4 := by
  match vs, h with
  | [_, _, _, _], _ => rfl

theorem refLine_eq_none_of_bad (l : List Nat)
    (h : (∃ r ∈ l.splitOn dotChar, 255 < runValue r) ∨ 3 < l.count dotChar ∨
      ∃ c ∈ l, isDigit c = false ∧ c ≠ dotChar) : refLine l = none := by
  by_contra hne
  obtain ⟨v, hv⟩ := Option.ne_none_iff_exists'.mp hne
  unfold refLine at hv
  dsimp only at hv
  split_ifs at hv with hall
  rw [List.all_eq_true] at hall
  rcases h with ⟨r, hr, hbig⟩ | hcount | ⟨c, hc, hnd, hdot⟩
  · have := hall r hr
    simp only [Bool.and_eq_true, decide_eq_true_eq] at this
    omega
  · have := combine_eq_some_length _ _ hv
    rw [List.length_map, splitOn_length] at this
    omega
  · obtain ⟨r, hr, hcr⟩ := mem_splitOn_of_mem dotChar c l hc hdot
    have := hall r hr
    simp only [Bool.and_eq_true, decide_eq_true_eq, List.all_eq_true] at this
    have := this.1 c hcr
    rw [hnd] at this
    exact Bool.false_ne_true this

theorem refLine_eq_some_iff (l : List Nat) (v : Nat) :
    refLine l = some v ↔
      ∃ r0 r1 r2 r3 : List Nat,
        l = r0 ++ dotChar :: (r1 ++ dotChar :: (r2 ++ dotChar :: r3)) ∧
        (∀ c ∈ r0 ++ r1 ++ r2 ++ r3, isDigit c = true) ∧
        runValue r0 ≤ 255 ∧ runValue r1 ≤ 255 ∧ runValue r2 ≤ 255 ∧ runValue r3 ≤ 255 ∧
        v = ((runValue r0 <<< 24) ||| (runValue r1 <<< 16) ||| (runValue r2 <<< 8)
          ||| runValue r3) := by
  constructor
  · intro h
    unfold refLine at h
    dsimp only at h
    split_ifs at h with hall
    have hlen := combine_eq_some_length _ _ h
    rw [List.length_map] at hlen
    have hl := List.intercalate_splitOn l dotChar
    match hs : l.splitOn dotChar, hlen with
    | [r0, r1, r2, r3], _ =>
      rw [hs] at hall h hl
      refine ⟨r0, r1, r2, r3, ?_, ?_, ?_⟩
      · rw [← hl]; simp [List.intercalate, List.intersperse]
      · simp only [List.all_cons, List.all_nil, Bool.and_true, Bool.and_eq_true,
          decide_eq_true_eq, List.all_eq_true] at hall
        intro c hc
        simp only [List.mem_append] at hc
        rcases hc with ((hc | hc) | hc) | hc
        · exact hall.1.1 c hc
        · exact hall.2.1.1 c hc
        · exact hall.2.2.1.1 c hc
        · exact hall.2.2.2.1 c hc
      · simp only [List.all_cons, List.all_nil, Bool.and_true, Bool.and_eq_true,
          decide_eq_true_eq, List.all_eq_true] at hall
        simp only [List.map, combine, Option.some.injEq] at h
        exact ⟨hall.1.2, hall.2.1.2, hall.2.2.1.2, hall.2.2.2.2, h.symm⟩
  · rintro ⟨r0, r1, r2, r3, hl, hdig, h0, h1, h2, h3, hv⟩
    have hnd : ∀ r ∈ [r0, r1, r2, r3], dotChar ∉ r := by
      intro r hr hdot
      have : dotChar ∈ r0 ++ r1 ++ r2 ++ r3 := by
        simp only [List.mem_cons, List.mem_singleton, List.not_mem_nil, or_false] at hr
        simp only [List.mem_append]
        rcases hr with rfl | rfl | rfl | rfl <;> tauto
      have := hdig _ this
      simp [isDigit, dotChar, zeroChar] at this
    have hs : l.splitOn dotChar = [r0, r1, r2, r3] := by
      have := List.splitOn_intercalate [r0, r1, r2, r3] dotChar hnd (by simp)
      rw [← this, hl]
      simp [List.intercalate, List.intersperse]
    unfold refLine
    dsimp only
    rw [hs]
    have hall : ([r0, r1, r2, r3].all fun r => r.all isDigit && decide (runValue r ≤ 255)) = true := by
      simp only [List.all_cons, List.all_nil, Bool.and_true, Bool.and_eq_true,
        decide_eq_true_eq, List.all_eq_true]
      simp only [List.mem_append] at hdig
      exact ⟨⟨fun c hc => hdig c (by tauto), h0⟩, ⟨fun c hc => hdig c (by tauto), h1⟩,
        ⟨fun c hc => hdig c (by tauto), h2⟩, fun c hc => hdig c (by tauto), h3⟩
    rw [if_pos hall]
    simp [combine, hv]

theorem writeIPs_lines (ls : List (List Nat)) (t : List Nat) (hls : ∀ l ∈ ls, newLine ∉ l)
    (ht : newLine ∉ t) :
    writeIPs Context.background ((ls.map (fun l => l ++ [newLine])).flatten ++ t) 0 =
      ls.filterMap refLine := by
  rw [writeIPs_append _ _ _ _ ht, writeIPs_zero_eq_refEmit]
  induction ls with
  | nil => simp [refEmit, terminatedLines_of_not_mem []]
  | cons l ls ih =>
    simp only [List.map_cons, List.flatten_cons, List.append_assoc, List.singleton_append]
    rw [refEmit_line l _ (hls l (List.mem_cons_self _ _)),
      ih (fun l' hl' => hls l' (List.mem_cons_of_mem _ hl')), List.filterMap_cons]
    cases refLine l <;> rfl

/-- C2. Reference semantics of the parser at chunk index 0 with a live
context: `writeIPs` sends, in window order, exactly one value per
newline-terminated line that `refLine` accepts and nothing else (first and
second part; the second spells the window out as lines followed by a final
piece without a newline, which contributes nothing); a line is accepted with
value `v` exactly when it is four runs of digits separated by three dots, each
run of accumulated value at most 255, and `v` is
`(a0<<24)|(a1<<16)|(a2<<8)|a3` of the four run values (third part). -/
theorem writeIPs_reference_semantics :
    (∀ b : List Nat,
      writeIPs Context.background b 0 = (terminatedLines b).filterMap refLine) ∧
    (∀ (ls : List (List Nat)) (t : List Nat), (∀ l ∈ ls, newLine ∉ l) → newLine ∉ t →
      writeIPs Context.background ((ls.map (fun l => l ++ [newLine])).flatten ++ t) 0 =
        ls.filterMap refLine) ∧
    (∀ (l : List Nat) (v : Nat), refLine l = some v ↔
      ∃ r0 r1 r2 r3 : List Nat,
        l = r0 ++ dotChar :: (r1 ++ dotChar :: (r2 ++ dotChar :: r3)) ∧
        (∀ c ∈ r0 ++ r1 ++ r2 ++ r3, isDigit c = true) ∧
        runValue r0 ≤ 255 ∧ runValue r1 ≤ 255 ∧ runValue r2 ≤ 255 ∧ runValue r3 ≤ 255 ∧
        v = ((runValue r0 <<< 24) ||| (runValue r1 <<< 16) ||| (runValue r2 <<< 8)
          ||| runValue r3)) :=
  ⟨writeIPs_zero_eq_refEmit, writeIPs_lines, refLine_eq_some_iff⟩

/-- C5, as stated, fails: the window `1.2..4` followed by a newline has a
single line, whose third digit run is empty, and `writeIPs` sends the address
1.2.0.4 for it, so a sent value comes from a line that is not four non-empty
digit runs. -/
theorem writeIPs_accepts_empty_octet :
    writeIPs Context.background (bytes "1.2..4\n") 0 = [ip 1 2 0 4] ∧
    terminatedLines (bytes "1.2..4\n") = [bytes "1.2..4"] ∧
    strictLine (bytes "1.2..4") = false ∧
    ¬ (∀ v ∈ writeIPs Context.background (bytes "1.2..4\n") 0,
        ∃ l ∈ terminatedLines (bytes "1.2..4\n"), strictLine l = true ∧ refLine l = some v) := by
  decide

/-- C5, amended. For every context, window and chunk index, every value that
`writeIPs` sends comes from a newline-terminated line of the window that
`refLine` accepts with that value: four runs of digits separated by exactly
three dots, each run of accumulated value at most 255, where a run may be
empty (value 0) and may carry leading zeros. -/
theorem writeIPs_emits_only_accepted_lines (ctx : Context) (b : List Nat) (i : Int) (v : Nat)
    (hv : v ∈ writeIPs ctx b i) :
    ∃ l ∈ terminatedLines b, refLine l = some v ∧
      ∃ r0 r1 r2 r3 : List Nat,
        l = r0 ++ dotChar :: (r1 ++ dotChar :: (r2 ++ dotChar :: r3)) ∧
        (∀ c ∈ r0 ++ r1 ++ r2 ++ r3, isDigit c = true) ∧
        runValue r0 ≤ 255 ∧ runValue r1 ≤ 255 ∧ runValue r2 ≤ 255 ∧ runValue r3 ≤ 255 ∧
        v = ((runValue r0 <<< 24) ||| (runValue r1 <<< 16) ||| (runValue r2 <<< 8)
          ||| runValue r3) := by
  obtain ⟨l, hl, e⟩ := mem_writeIPs_line ctx b i v hv
  exact ⟨l, hl, e, (refLine_eq_some_iff l v).mp e⟩

/-- Witness for C5 amended: the value sent for the window `1.2..4` with a
newline. -/
theorem writeIPs_emits_only_accepted_lines_witness :
    ∃ l ∈ terminatedLines (bytes "1.2..4\n"), refLine l = some (ip 1 2 0 4) ∧
      ∃ r0 r1 r2 r3 : List Nat,
        l = r0 ++ dotChar :: (r1 ++ dotChar :: (r2 ++ dotChar :: r3)) ∧
        (∀ c ∈ r0 ++ r1 ++ r2 ++ r3, isDigit c = true) ∧
        runValue r0 ≤ 255 ∧ runValue r1 ≤ 255 ∧ runValue r2 ≤ 255 ∧ runValue r3 ≤ 255 ∧
        ip 1 2 0 4 = ((runValue r0 <<< 24) ||| (runValue r1 <<< 16) ||| (runValue r2 <<< 8)
          ||| runValue r3) :=
  writeIPs_emits_only_accepted_lines Context.background (bytes "1.2..4\n") 0 (ip 1 2 0 4)
    (by decide)

/-- C6. Leading-line skip: at a chunk index other than 0, `writeIPs` sends
exactly what it sends at index 0 for the part of the window after its first
newline; so for a window `p ++ newline :: r` with no newline in `p` the output
is that of `r` alone, whatever `p` is, and a window with no newline gives
nothing. This holds for every context, the live one included. -/
theorem writeIPs_skips_leading_line (ctx : Context) (b : List Nat) (i : Int) (hi : i ≠ 0) :
    writeIPs ctx b i = writeIPs ctx (afterFirstNewline b) 0 ∧
    (∀ p r : List Nat, newLine ∉ p → b = p ++ newLine :: r →
      writeIPs ctx b i = writeIPs ctx r 0) ∧
    (newLine ∉ b → writeIPs ctx b i = []) := by
  refine ⟨writeIPs_index ctx b i hi, ?_, writeIPs_of_not_mem ctx b i⟩
  intro p r hp e
  rw [writeIPs_index ctx b i hi, e, afterFirstNewline_append p r hp]

/-- Witness for C6: index 5 and the window `PARTIAL LINE`, newline,
`10.0.0.1`, newline: only 10.0.0.1 is sent. -/
theorem writeIPs_skips_leading_line_witness :
    writeIPs Context.background (bytes "PARTIAL LINE\n10.0.0.1\n") 5 = [ip 10 0 0 1] ∧
    writeIPs Context.background (bytes "PARTIAL LINE\n10.0.0.1\n") 5 =
      writeIPs Context.background (afterFirstNewline (bytes "PARTIAL LINE\n10.0.0.1\n")) 0 :=
  ⟨by decide,
    (writeIPs_skips_leading_line Context.background (bytes "PARTIAL LINE\n10.0.0.1\n") 5
      (by decide)).1⟩

/-- C7. A final piece without a terminating newline is never sent: appending
bytes `t` that contain no newline to a window does not change what `writeIPs`
sends, for every context and chunk index; a window with no newline at all
gives nothing. -/
theorem writeIPs_ignores_unterminated_tail (ctx : Context) (b t : List Nat) (i : Int)
    (ht : newLine ∉ t) :
    writeIPs ctx (b ++ t) i = writeIPs ctx b i ∧ writeIPs ctx t i = [] :=
  ⟨writeIPs_append ctx b t i ht, writeIPs_of_not_mem ctx t i ht⟩

/-- Witness for C7: the window `5.6.7.8` with no newline gives nothing, also
after the line `1.2.3.4`. -/
theorem writeIPs_ignores_unterminated_tail_witness :
    newLine ∉ bytes "5.6.7.8" ∧
    writeIPs Context.background (bytes "1.2.3.4\n" ++ bytes "5.6.7.8") 0 =
      writeIPs Context.background (bytes "1.2.3.4\n") 0 ∧
    writeIPs Context.background (bytes "5.6.7.8") 0 = [] :=
  ⟨by decide,
    writeIPs_ignores_unterminated_tail Context.background (bytes "1.2.3.4\n") (bytes "5.6.7.8") 0
      (by decide)⟩

/-- C8. Malformed lines are dropped and parsing resumes on the next line: at
chunk index 0 with a live context, for a window `A` that is empty or ends with
a newline, a line `L` without a newline that has a digit run of value above
255, or more than three dots, or a byte that is neither a digit nor a dot, and
any window `B`, the window `A ++ L ++ newline ++ B` gives what `A` gives
followed by what `B` gives. -/
theorem writeIPs_drops_malformed_line (A L B : List Nat)
    (hA : A = [] ∨ ∃ A', A = A' ++ [newLine]) (hL : newLine ∉ L)
    (hbad : (∃ r ∈ L.splitOn dotChar, 255 < runValue r) ∨ 3 < L.count dotChar ∨
      ∃ c ∈ L, isDigit c = false ∧ c ≠ dotChar) :
    writeIPs Context.background (A ++ L ++ [newLine] ++ B) 0 =
      writeIPs Context.background A 0 ++ writeIPs Context.background B 0 := by
  rw [writeIPs_zero_eq_refEmit, writeIPs_zero_eq_refEmit, writeIPs_zero_eq_refEmit,
    List.append_assoc, List.append_assoc, refEmit_append A _ hA, List.singleton_append,
    refEmit_line L B hL, refLine_eq_none_of_bad L hbad]
  rfl

/-- Witness for C8: the bad octet of `12.34.5678.9` between two good lines. -/
theorem writeIPs_drops_malformed_line_witness :
    writeIPs Context.background
        (bytes "1.2.3.4\n" ++ bytes "12.34.5678.9" ++ [newLine] ++ bytes "8.8.8.8\n") 0 =
      writeIPs Context.background (bytes "1.2.3.4\n") 0 ++
        writeIPs Context.background (bytes "8.8.8.8\n") 0 :=
  writeIPs_drops_malformed_line (bytes "1.2.3.4\n") (bytes "12.34.5678.9") (bytes "8.8.8.8\n")
    (Or.inr ⟨bytes "1.2.3.4", by decide⟩) (by decide)
    (Or.inl ⟨bytes "5678", by decide, by decide⟩)

/-! ## The presence bitmap -/

theorem foldl_count_eq (l : List Nat) (t : Nat) :
    l.foldl (fun total w => (total + onesCount64 w) % 2 ^ 64) t % 2 ^ 64 =
      (t + (l.map onesCount64).sum) % 2 ^ 64 := by
  induction l generalizing t with
  | nil => simp
  | cons w l ih =>
    simp only [List.foldl_cons, List.map_cons, List.sum_cons]
    rw [ih]
    rw [Nat.add_mod, Nat.mod_mod, ← Nat.add_mod, Nat.add_assoc]

theorem foldl_count_lt (l : List Nat) (t : Nat) (ht : t < 2 ^ 64) :
    l.foldl (fun total w => (total + onesCount64 w) % 2 ^ 64) t < 2 ^ 64 := by
  induction l generalizing t with
  | nil => simpa using ht
  | cons w l ih =>
    simp only [List.foldl_cons]
    exact ih _ (Nat.mod_lt _ (by norm_num))

theorem ipv4Set.count_eq (s : ipv4Set) : s.count = s.bitSum % 2 ^ 64 := by
  unfold ipv4Set.count ipv4Set.bitSum
  have h1 := foldl_count_eq s.bitmap 0
  have h2 := foldl_count_lt s.bitmap 0 (by norm_num)
  rw [Nat.mod_eq_of_lt h2] at h1
  rw [h1, Nat.zero_add]

theorem countP_range_or (p : Nat → Bool) (b k : Nat) :
    (List.range k).countP (fun i => p i || decide (b = i)) =
      (List.range k).countP p + (if b < k ∧ p b = false then 1 else 0) := by
  induction k with
  | zero => simp
  | succ k ih =>
    rw [List.range_succ, List.countP_append, List.countP_append, ih]
    simp only [List.countP_cons, List.countP_nil, Nat.zero_add]
    by_cases hb : b = k
    · subst hb
      cases hp : p b <;> simp [hp]
    · have hne : ¬ (b = k) := hb
      by_cases hlt : b < k
      · have : b < k + 1 := by omega
        simp only [hne, hlt, this, decide_False, Bool.or_false, true_and]
        omega
      · have : ¬ b < k + 1 := by omega
        simp [hne, hlt, this]

theorem onesCount64_or (x b : Nat) (hb : b < 64) :
    onesCount64 (x ||| 1 <<< b) = onesCount64 x + (if x.testBit b = false then 1 else 0) := by
  unfold onesCount64
  have : (fun i => (x ||| 1 <<< b).testBit i) = (fun i => x.testBit i || decide (b = i)) := by
    funext i
    rw [Nat.testBit_or, Nat.one_shiftLeft, Nat.testBit_two_pow]
  rw [this, countP_range_or]
  simp [hb]

theorem onesCount64_or_of_set (x b : Nat) (hb : b < 64) (h : x.testBit b = true) :
    onesCount64 (x ||| 1 <<< b) = onesCount64 x := by
  rw [onesCount64_or x b hb, h]; rfl

theorem onesCount64_or_of_clear (x b : Nat) (hb : b < 64) (h : x.testBit b = false) :
    onesCount64 (x ||| 1 <<< b) = onesCount64 x + 1 := by
  rw [onesCount64_or x b hb, h]; rfl

theorem sum_map_set (f : Nat → Nat) (l : List Nat) (w x : Nat) (h : w < l.length) :
    ((l.set w x).map f).sum + f (l.getD w 0) = (l.map f).sum + f x := by
  induction l generalizing w with
  | nil => simp at h
  | cons a l ih =>
    cases w with
    | zero => simp; omega
    | succ w =>
      simp only [List.length_cons, Nat.add_lt_add_iff_right] at h
      have := ih w h
      simp only [List.set_cons_succ, List.map_cons, List.sum_cons, List.getD_cons_succ]
      omega

theorem shift_and_eq (ip : Nat) : ip >>> 6 = ip / 64 ∧ ip &&& 63 = ip % 64 := by
  constructor
  · rw [Nat.shiftRight_eq_div_pow]
  · have := Nat.and_pow_two_sub_one_eq_mod ip 6
    simpa using this

theorem ipv4Set.add_represents (s : ipv4Set) (S : Finset Nat) (h : s.Represents S) (ip : Nat)
    (hin : ip >>> 6 < s.bitmap.length) :
    ∃ s', s.add ip = some s' ∧ s'.bitmap.length = s.bitmap.length ∧
      s'.Represents (insert ip S) := by
  obtain ⟨hS, hbits, hsum⟩ := h
  obtain ⟨e1, e2⟩ := shift_and_eq ip
  have hb : ip % 64 < 64 := Nat.mod_lt _ (by norm_num)
  have hmod : (1 <<< (ip % 64)) % 2 ^ 64 = 1 <<< (ip % 64) := by
    apply Nat.mod_eq_of_lt
    rw [Nat.one_shiftLeft]
    exact Nat.pow_lt_pow_right (by norm_num) hb
  rw [e1] at hin
  have hipl : ip < 64 * s.bitmap.length := by omega
  refine ⟨⟨s.bitmap.set (ip / 64) (s.bitmap.getD (ip / 64) 0 ||| 1 <<< (ip % 64))⟩, ?_, ?_, ?_⟩
  · unfold ipv4Set.add
    simp only [e1, e2, hmod, hin, if_true]
  · simp
  · refine ⟨?_, ?_, ?_⟩
    · intro j hj
      simp only [List.length_set]
      rcases Finset.mem_insert.mp hj with rfl | hj
      · exact hipl
      · exact hS j hj
    · intro j hj
      simp only [List.length_set] at hj
      have hjw : j / 64 < s.bitmap.length := by omega
      simp only [Finset.mem_insert]
      by_cases hw : j / 64 = ip / 64
      · rw [hw, List.getD_eq_getElem _ _ (by simpa using hin), List.getElem_set_self,
          Nat.testBit_or, Nat.one_shiftLeft, Nat.testBit_two_pow, Bool.or_eq_true,
          decide_eq_true_eq]
        have := hbits j hj
        rw [hw] at this
        rw [this]
        constructor
        · rintro (h1 | h1)
          · exact Or.inr h1
          · left; omega
        · rintro (h1 | h1)
          · right; rw [h1]
          · exact Or.inl h1
      · rw [List.getD_eq_getElem _ _ (by simpa using hjw),
          List.getElem_set_ne (fun e => hw e.symm)]
        have := hbits j hj
        rw [List.getD_eq_getElem _ _ hjw] at this
        rw [this]
        constructor
        · exact Or.inr
        · rintro (h1 | h1)
          · exact absurd (by rw [h1]) hw
          · exact h1
    · have hset := sum_map_set onesCount64 s.bitmap (ip / 64)
        (s.bitmap.getD (ip / 64) 0 ||| 1 <<< (ip % 64)) hin
      have hmem := hbits ip hipl
      unfold ipv4Set.bitSum at hsum ⊢
      simp only
      by_cases hip : ip ∈ S
      · rw [Finset.insert_eq_of_mem hip]
        have : (s.bitmap.getD (ip / 64) 0).testBit (ip % 64) = true := hmem.mpr hip
        rw [onesCount64_or_of_set _ _ hb this] at hset
        omega
      · rw [Finset.card_insert_of_not_mem hip]
        have : (s.bitmap.getD (ip / 64) 0).testBit (ip % 64) = false := by
          cases hc : (s.bitmap.getD (ip / 64) 0).testBit (ip % 64)
          · rfl
          · exact absurd (hmem.mp hc) hip
        rw [onesCount64_or_of_clear _ _ hb this] at hset
        omega

theorem onesCount64_zero : onesCount64 0 = 0 := by decide

theorem newSmallSet_represents (words : Nat) : (newSmallSet words).Represents ∅ := by
  refine ⟨by simp, ?_, ?_⟩
  · intro j hj
    have hj' : j / 64 < words := by
      simp only [newSmallSet, List.length_replicate] at hj
      omega
    simp [newSmallSet, List.getD_eq_getElem, hj']
  · simp [ipv4Set.bitSum, newSmallSet, onesCount64_zero]

theorem ipv4Set.addAll_represents (l : List Nat) :
    ∀ (s : ipv4Set) (S : Finset Nat), s.Represents S →
      (∀ ip ∈ l, ip >>> 6 < s.bitmap.length) →
      ∃ s', s.addAll l = some s' ∧ s'.bitmap.length = s.bitmap.length ∧
        s'.Represents (S ∪ l.toFinset) := by
  induction l with
  | nil =>
    intro s S h _
    exact ⟨s, rfl, rfl, by simpa using h⟩
  | cons ip l ih =>
    intro s S h hin
    obtain ⟨s1, e1, hl1, h1⟩ := s.add_represents S h ip (hin ip (List.mem_cons_self _ _))
    obtain ⟨s2, e2, hl2, h2⟩ := ih s1 (insert ip S) h1
      (fun x hx => by rw [hl1]; exact hin x (List.mem_cons_of_mem _ hx))
    refine ⟨s2, ?_, by rw [hl2, hl1], ?_⟩
    · simp only [ipv4Set.addAll, e1]
      exact e2
    · have : S ∪ (ip :: l).toFinset = insert ip S ∪ l.toFinset := by
        ext x; simp only [List.toFinset_cons, Finset.mem_union, Finset.mem_insert]; tauto
      rw [this]; exact h2

theorem card_toFinset_le (l : List Nat) (n : Nat) (h : ∀ x ∈ l, x < n) : l.toFinset.card ≤ n := by
  have : l.toFinset ⊆ Finset.range n := by
    intro x hx
    exact Finset.mem_range.mpr (h x (List.mem_toFinset.mp hx))
  simpa using Finset.card_le_card this

theorem ipv4Set.count_addAll (words : Nat) (ips : List Nat) (h32 : ∀ ip ∈ ips, ip < 2 ^ 32)
    (hin : ∀ ip ∈ ips, ip >>> 6 < words) :
    ∃ s, (newSmallSet words).addAll ips = some s ∧ s.count = ips.dedup.length := by
  obtain ⟨s, e, _, hrep⟩ := ipv4Set.addAll_represents ips (newSmallSet words) ∅
    (newSmallSet_represents words) (by simpa [newSmallSet] using hin)
  refine ⟨s, e, ?_⟩
  rw [ipv4Set.count_eq, hrep.2.2, Finset.empty_union, List.card_toFinset]
  apply Nat.mod_eq_of_lt
  have := card_toFinset_le ips (2 ^ 32) h32
  rw [List.card_toFinset] at this
  calc ips.dedup.length ≤ 2 ^ 32 := this
    _ < 2 ^ 64 := by norm_num

theorem shiftRight_lt_Words (ip : Nat) (h : ip < 2 ^ 32) : ip >>> 6 < Words := by
  rw [Nat.shiftRight_eq_div_pow]
  have hW : Words = 2 ^ 26 := by decide
  rw [hW]
  have : (2:Nat) ^ 32 = 2 ^ 6 * 2 ^ 26 := by norm_num
  rw [this] at h
  exact Nat.div_lt_of_lt_mul h

theorem newSmallSet_count (words : Nat) : (newSmallSet words).count = 0 := by
  rw [ipv4Set.count_eq, (newSmallSet_represents words).2.2]
  rfl

/-- C3. For every sequence of 32-bit addresses added with `add` to an all-zero
bitmap of any length that is long enough for them, the adds succeed and
`count` returns the number of distinct values of the sequence (first part), so
every reordering of the sequence gives the same count (second part); the full
bitmap of `newIPv4Set` is long enough for every 32-bit address (third part);
and `count` on an all-zero bitmap is 0 (last two parts). -/
theorem ipv4Set_count_distinct :
    (∀ (words : Nat) (ips : List Nat), (∀ ip ∈ ips, ip < 2 ^ 32) →
      (∀ ip ∈ ips, ip >>> 6 < words) →
      ∃ s, (newSmallSet words).addAll ips = some s ∧ s.count = ips.dedup.length) ∧
    (∀ (words : Nat) (ips ips' : List Nat), (∀ ip ∈ ips, ip < 2 ^ 32) →
      (∀ ip ∈ ips, ip >>> 6 < words) → ips'.Perm ips →
      ∃ s s', (newSmallSet words).addAll ips = some s ∧
        (newSmallSet words).addAll ips' = some s' ∧ s'.count = s.count) ∧
    (∀ ips : List Nat, (∀ ip ∈ ips, ip < 2 ^ 32) →
      ∃ s, newIPv4Set.addAll ips = some s ∧ s.count = ips.dedup.length) ∧
    (∀ words : Nat, (newSmallSet words).count = 0) ∧
    newIPv4Set.count = 0 := by
  refine ⟨ipv4Set.count_addAll, ?_, ?_, newSmallSet_count, newSmallSet_count Words⟩
  · intro words ips ips' h32 hin hperm
    obtain ⟨s, e, hc⟩ := ipv4Set.count_addAll words ips h32 hin
    obtain ⟨s', e', hc'⟩ := ipv4Set.count_addAll words ips'
      (fun x hx => h32 x (hperm.subset hx)) (fun x hx => hin x (hperm.subset hx))
    refine ⟨s, s', e, e', ?_⟩
    rw [hc, hc', ← List.card_toFinset, ← List.card_toFinset, List.toFinset_eq_of_perm _ _ hperm]
  · intro ips h32
    exact ipv4Set.count_addAll Words ips h32 (fun ip hip => shiftRight_lt_Words ip (h32 ip hip))

/-- The table of `TestIPv4Set`, evaluated. -/
theorem ipv4Set_count_tests :
    ((newSmallSet 1).addAll []).map ipv4Set.count = some 0 ∧
    ((newSmallSet 1).addAll [0]).map ipv4Set.count = some 1 ∧
    ((newSmallSet 1).addAll [0, 0, 0]).map ipv4Set.count = some 1 ∧
    ((newSmallSet 1).addAll [1, 63]).map ipv4Set.count = some 2 ∧
    ((newSmallSet 2).addAll [63, 64]).map ipv4Set.count = some 2 ∧
    ((newSmallSet 2).addAll [0, 1, 1, 2, 64, 65, 64]).map ipv4Set.count = some 5 ∧
    ((newSmallSet 2).addAll [127]).map ipv4Set.count = some 1 := by
  decide

/-! ## The window mapper -/

theorem wrap64_eq (x : Int) (h1 : -(2 ^ 63) ≤ x) (h2 : x < 2 ^ 63) : wrap64 x = x := by
  unfold wrap64
  omega

theorem wrap64_neg (x : Int) (h1 : 2 ^ 63 ≤ x) (h2 : x < 2 ^ 64) : wrap64 x < 0 := by
  unfold wrap64
  omega

theorem memoryMap.request_eq (mm : memoryMap) (index : Int)
    (hover : 0 ≤ mm.overlap) (hidx : 0 ≤ index) (hchunk : 0 < mm.chunk)
    (hsize : mm.size < 2 ^ 63)
    (hoff : index * mm.chunk < mm.size) (hsum : mm.chunk + mm.overlap < 2 ^ 63) :
    mm.request index =
      some (index * mm.chunk, min (mm.chunk + mm.overlap) (mm.size - index * mm.chunk)) := by
  have hmul : 0 ≤ index * mm.chunk := Int.mul_nonneg hidx (le_of_lt hchunk)
  unfold memoryMap.request
  dsimp only
  rw [wrap64_eq (index * mm.chunk) (by omega) (by omega),
    wrap64_eq (mm.chunk + mm.overlap) (by omega) (by omega),
    wrap64_eq (mm.size - index * mm.chunk) (by omega) (by omega)]
  rw [if_neg (by omega)]
  split_ifs with h
  · rw [min_eq_right (le_of_lt h)]
  · rw [min_eq_left (by omega)]

theorem take_drop_length (f : List Nat) (o n : Nat) (h : o + n ≤ f.length) :
    ((f.drop o).take n).length = n := by
  simp only [List.length_take, List.length_drop]
  omega

/-- The offset and length that `mmap` requests, and the window a successful call leaves. -/
theorem memoryMap.mmap_range (os : Platform) (mm : memoryMap) (index : Int)
    (hchunk : 0 < mm.chunk) (hover : 0 ≤ mm.overlap) (hidx : 0 ≤ index)
    (hsize : mm.size < 2 ^ 63)
    (hoff : index * mm.chunk < mm.size) (hsum : mm.chunk + mm.overlap < 2 ^ 63) :
    mm.request index =
      some (index * mm.chunk, min (mm.chunk + mm.overlap) (mm.size - index * mm.chunk)) ∧
    1 ≤ min (mm.chunk + mm.overlap) (mm.size - index * mm.chunk) ∧
    index * mm.chunk + min (mm.chunk + mm.overlap) (mm.size - index * mm.chunk) ≤ mm.size ∧
    (mm.chunk + mm.overlap ≤ mm.size - index * mm.chunk →
      min (mm.chunk + mm.overlap) (mm.size - index * mm.chunk) = mm.chunk + mm.overlap) ∧
    (mm.size - index * mm.chunk < mm.chunk + mm.overlap →
      min (mm.chunk + mm.overlap) (mm.size - index * mm.chunk) = mm.size - index * mm.chunk) ∧
    (mm.size = mm.f.length → ∀ mm', mm.mmap os index = (mm', none) →
      mm'.b = (mm.f.drop (index * mm.chunk).toNat).take
        (min (mm.chunk + mm.overlap) (mm.size - index * mm.chunk)).toNat ∧
      (mm'.b.length : Int) = min (mm.chunk + mm.overlap) (mm.size - index * mm.chunk) ∧
      mm'.b = window mm.f mm.chunk.toNat mm.overlap.toNat index.toNat) := by
  have hmul : 0 ≤ index * mm.chunk := Int.mul_nonneg hidx (le_of_lt hchunk)
  have hreq := memoryMap.request_eq mm index hover hidx hchunk hsize hoff hsum
  refine ⟨hreq, ?_, ?_, ?_, ?_, ?_⟩
  · exact le_min (by omega) (by omega)
  · have := min_le_right (mm.chunk + mm.overlap) (mm.size - index * mm.chunk)
    omega
  · intro h; exact min_eq_left h
  · intro h; exact min_eq_right (le_of_lt h)
  · intro hf mm' hmm
    have hlen1 : 1 ≤ min (mm.chunk + mm.overlap) (mm.size - index * mm.chunk) :=
      le_min (by omega) (by omega)
    unfold memoryMap.mmap at hmm
    rw [hreq] at hmm
    dsimp only at hmm
    unfold sysMmap at hmm
    rw [if_neg (by omega), if_neg (by omega)] at hmm
    cases hos : os (index * mm.chunk) (min (mm.chunk + mm.overlap) (mm.size - index * mm.chunk)) with
    | some e =>
      rw [hos] at hmm
      simp at hmm
    | none =>
      rw [hos] at hmm
      simp only [Prod.mk.injEq, and_true] at hmm
      subst hmm
      dsimp only
      have hle : min (mm.chunk + mm.overlap) (mm.size - index * mm.chunk)
          ≤ mm.size - index * mm.chunk := min_le_right _ _
      refine ⟨rfl, ?_, ?_⟩
      · rw [take_drop_length]
        · omega
        · omega
      · unfold window
        have e1 : (index * mm.chunk).toNat = index.toNat * mm.chunk.toNat := by
          have := Int.toNat_of_nonneg hidx
          have := Int.toNat_of_nonneg (le_of_lt hchunk)
          zify
          rw [Int.toNat_of_nonneg hmul, Int.toNat_of_nonneg hidx,
            Int.toNat_of_nonneg (le_of_lt hchunk)]
        rw [e1]
        apply List.ext_getElem?
        intro n
        simp only [List.getElem?_take, List.getElem?_drop]
        by_cases hn : n < (min (mm.chunk + mm.overlap) (mm.size - index * mm.chunk)).toNat
        · have : n < mm.chunk.toNat + mm.overlap.toNat := by
            have := min_le_left (mm.chunk + mm.overlap) (mm.size - index * mm.chunk)
            omega
          simp [hn, this]
        · simp only [hn, if_false]
          split_ifs with h2
          · symm
            apply List.getElem?_eq_none
            rw [← e1]
            have : (min (mm.chunk + mm.overlap) (mm.size - index * mm.chunk)) =
                mm.size - index * mm.chunk := by
              apply min_eq_right
              omega
            omega
          · rfl

/-- C9. Window range: for a size, a chunk above 0, an overlap and an index of
at least 0, all `int64` values with `index*chunk < size` and `chunk+overlap`
not overflowing, `mmap` passes to `syscall.Mmap` the offset `index*chunk` and
the length `min(chunk+overlap, size-offset)`; this length is at least 1, the
range ends within the file, the length is `chunk+overlap` when that many bytes
remain and `size-offset` otherwise; and when the call succeeds on a file of
that size the window is the file's bytes at `[offset, offset+length)`, that
many of them, which is `window` of the chunk. -/
theorem mmap_window_range (os : Platform) (mm : memoryMap) (index : Int)
    (hchunk : 0 < mm.chunk) (hover : 0 ≤ mm.overlap) (hidx : 0 ≤ index)
    (hsize : mm.size < 2 ^ 63)
    (hoff : index * mm.chunk < mm.size) (hsum : mm.chunk + mm.overlap < 2 ^ 63) :
    mm.request index =
      some (index * mm.chunk, min (mm.chunk + mm.overlap) (mm.size - index * mm.chunk)) ∧
    1 ≤ min (mm.chunk + mm.overlap) (mm.size - index * mm.chunk) ∧
    index * mm.chunk + min (mm.chunk + mm.overlap) (mm.size - index * mm.chunk) ≤ mm.size ∧
    (mm.chunk + mm.overlap ≤ mm.size - index * mm.chunk →
      min (mm.chunk + mm.overlap) (mm.size - index * mm.chunk) = mm.chunk + mm.overlap) ∧
    (mm.size - index * mm.chunk < mm.chunk + mm.overlap →
      min (mm.chunk + mm.overlap) (mm.size - index * mm.chunk) = mm.size - index * mm.chunk) ∧
    (mm.size = mm.f.length → ∀ mm', mm.mmap os index = (mm', none) →
      mm'.b = (mm.f.drop (index * mm.chunk).toNat).take
        (min (mm.chunk + mm.overlap) (mm.size - index * mm.chunk)).toNat ∧
      (mm'.b.length : Int) = min (mm.chunk + mm.overlap) (mm.size - index * mm.chunk) ∧
      mm'.b = window mm.f mm.chunk.toNat mm.overlap.toNat index.toNat) :=
  memoryMap.mmap_range os mm index hchunk hover hidx hsize hoff hsum

/-- Witness for C9: the last chunk of a ten-byte file with chunk 4 and
overlap 2, index 2: offset 8, length 2. -/
theorem mmap_window_range_witness :
    (memoryMap.mk (bytes "0123456789") 10 4 2 []).request 2 = some (8, 2) ∧
    ((memoryMap.mk (bytes "0123456789") 10 4 2 []).mmap Platform.permissive 2).1.b
      = bytes "89" := by
  have h := mmap_window_range Platform.permissive (memoryMap.mk (bytes "0123456789") 10 4 2 []) 2
    (by decide) (by decide) (by decide) (by decide) (by decide) (by decide)
  exact ⟨h.1, by decide⟩

theorem memoryMap.mmap_of_request_none (os : Platform) (mm : memoryMap) (index : Int)
    (h : mm.request index = none) : mm.mmap os index = (mm, none) := by
  unfold memoryMap.mmap
  rw [h]

theorem memoryMap.request_past_end (mm : memoryMap) (index : Int)
    (hsize : 0 ≤ mm.size)
    (hoff : mm.size ≤ index * mm.chunk) (hmul : index * mm.chunk < 2 ^ 63) :
    mm.request index = none := by
  unfold memoryMap.request
  dsimp only
  rw [wrap64_eq (index * mm.chunk) (by omega) (by omega),
    wrap64_eq (mm.size - index * mm.chunk) (by omega) (by omega)]
  rw [if_pos (by omega)]

/-- C10, as stated for every state of the mapper, fails on a window left by
a previously mapped chunk. A mapper of the 16-byte file `1.2.3.4`, newline,
`5.6.7.8`, newline, with chunk 16 maps chunk 0 (the whole file); the call
`mmap(1)`, whose offset 16 is at the end of the file, then returns a nil error
and leaves the mapper as it was: the window still has its 16 bytes, and the
parser run on it at index 1 sends 5.6.7.8. -/
theorem mmap_past_end_keeps_stale_window :
    (staleMap.mmap Platform.permissive 0).2 = none ∧
    (staleMap.mmap Platform.permissive 0).1.b = bytes "1.2.3.4\n5.6.7.8\n" ∧
    ((staleMap.mmap Platform.permissive 0).1.mmap Platform.permissive 1).2 = none ∧
    ((staleMap.mmap Platform.permissive 0).1.mmap Platform.permissive 1).1.b.length = 16 ∧
    writeIPs Context.background
      ((staleMap.mmap Platform.permissive 0).1.mmap Platform.permissive 1).1.b 1 = [ip 5 6 7 8] := by
  decide

/-! ## Windows of a file and its lines -/

theorem endsLine_tail (a l rest : List Nat) (ha : endsLine a) (e : a = l ++ newLine :: rest) :
    endsLine rest := by
  rcases ha with rfl | ⟨a', rfl⟩
  · simp at e
  · rcases List.eq_nil_or_concat rest with h | ⟨r', c, h⟩
    · exact Or.inl h
    · right
      refine ⟨r', ?_⟩
      subst h
      have e2 : a' ++ [newLine] = (l ++ newLine :: r') ++ [c] := by
        rw [e]; simp
      have := List.append_inj_right' e2 rfl
      simp only [List.cons.injEq, and_true] at this
      rw [this]; simp

theorem endsLine_append_newline (x : List Nat) : endsLine (x ++ [newLine]) := Or.inr ⟨x, rfl⟩

theorem terminatedLines_nil : terminatedLines [] = [] :=
  terminatedLines_of_not_mem [] (by simp)

theorem terminatedLines_append_aux (n : Nat) :
    ∀ (a x : List Nat), a.length ≤ n → endsLine a →
      terminatedLines (a ++ x) = terminatedLines a ++ terminatedLines x := by
  induction n with
  | zero =>
    intro a x hn _
    have : a = [] := List.length_eq_zero.mp (Nat.le_zero.mp hn)
    subst this
    simp [terminatedLines_nil]
  | succ n ih =>
    intro a x hn ha
    by_cases hmem : newLine ∈ a
    · obtain ⟨l, rest, e, hl⟩ := exists_first_newline a hmem
      have hrest := endsLine_tail a l rest ha e
      have hlen : rest.length ≤ n := by
        have := congrArg List.length e
        simp only [List.length_append, List.length_cons] at this
        omega
      rw [e, List.append_assoc, List.cons_append, terminatedLines_append l _ hl,
        terminatedLines_append l _ hl, ih rest x hlen hrest]
      rfl
    · rcases ha with rfl | ⟨a', rfl⟩
      · simp [terminatedLines_nil]
      · simp at hmem

theorem terminatedLines_append_of_endsLine (a x : List Nat) (ha : endsLine a) :
    terminatedLines (a ++ x) = terminatedLines a ++ terminatedLines x :=
  terminatedLines_append_aux a.length a x (le_refl _) ha

theorem mem_terminatedLines_decomp_aux (n : Nat) :
    ∀ (f l : List Nat), f.length ≤ n → l ∈ terminatedLines f →
      ∃ A B, f = A ++ l ++ newLine :: B ∧ endsLine A ∧ newLine ∉ l := by
  induction n with
  | zero =>
    intro f l hn hl
    have : f = [] := List.length_eq_zero.mp (Nat.le_zero.mp hn)
    subst this
    rw [terminatedLines_nil] at hl
    simp at hl
  | succ n ih =>
    intro f l hn hl
    by_cases hmem : newLine ∈ f
    · obtain ⟨l0, rest, e, hl0⟩ := exists_first_newline f hmem
      subst e
      rw [terminatedLines_append l0 rest hl0] at hl
      rcases List.mem_cons.mp hl with rfl | hl'
      · exact ⟨[], rest, by simp, Or.inl rfl, hl0⟩
      · have hlen : rest.length ≤ n := by
          simp only [List.length_append, List.length_cons] at hn
          omega
        obtain ⟨A, B, e, _, hl2⟩ := ih rest l hlen hl'
        refine ⟨l0 ++ newLine :: A, B, by rw [e]; simp, ?_, hl2⟩
        rcases List.eq_nil_or_concat A with h | ⟨A', c, h⟩
        · subst h; exact Or.inr ⟨l0, rfl⟩
        · rename_i hA
          rcases hA with h0 | ⟨A'', h1⟩
          · subst h0; exact Or.inr ⟨l0, rfl⟩
          · subst h1; exact Or.inr ⟨l0 ++ newLine :: A'', by simp⟩
    · rw [terminatedLines_of_not_mem f hmem] at hl
      simp at hl

theorem mem_terminatedLines_decomp (f l : List Nat) (hl : l ∈ terminatedLines f) :
    ∃ A B, f = A ++ l ++ newLine :: B ∧ endsLine A ∧ newLine ∉ l :=
  mem_terminatedLines_decomp_aux f.length f l (le_refl _) hl

theorem mem_terminatedLines_of_decomp (A l B : List Nat) (hA : endsLine A) (hl : newLine ∉ l) :
    l ∈ terminatedLines (A ++ l ++ newLine :: B) := by
  rw [List.append_assoc, terminatedLines_append_of_endsLine A _ hA, terminatedLines_append l B hl]
  simp

theorem mem_terminatedLines_append (P Q l : List Nat) (hl : l ∈ terminatedLines P) :
    l ∈ terminatedLines (P ++ Q) := by
  obtain ⟨A, B, e, hA, hnl⟩ := mem_terminatedLines_decomp P l hl
  rw [e]
  have : A ++ l ++ newLine :: B ++ Q = A ++ l ++ newLine :: (B ++ Q) := by simp
  rw [this]
  exact mem_terminatedLines_of_decomp A l (B ++ Q) hA hnl

theorem mem_writeIPs_zero_iff (b : List Nat) (v : Nat) :
    v ∈ writeIPs Context.background b 0 ↔ ∃ l ∈ terminatedLines b, refLine l = some v := by
  rw [writeIPs_zero_eq_refEmit, refEmit, List.mem_filterMap]

theorem mem_writeIPs_index_iff (b : List Nat) (i : Int) (hi : i ≠ 0) (v : Nat) :
    v ∈ writeIPs Context.background b i ↔
      ∃ l ∈ terminatedLines (afterFirstNewline b), refLine l = some v := by
  rw [writeIPs_index _ _ _ hi, mem_writeIPs_zero_iff]

/-- A line that stands in a window after a newline is parsed from it at every
chunk index. -/
theorem mem_writeIPs_after_newline (X l B : List Nat) (v : Nat) (i : Int) (hl : newLine ∉ l)
    (hv : refLine l = some v) :
    v ∈ writeIPs Context.background ((X ++ [newLine]) ++ (l ++ newLine :: B)) i := by
  by_cases hi : i = 0
  · subst hi
    rw [mem_writeIPs_zero_iff]
    refine ⟨l, ?_, hv⟩
    have := mem_terminatedLines_of_decomp (X ++ [newLine]) l B (endsLine_append_newline X) hl
    simpa using this
  · rw [mem_writeIPs_index_iff _ _ hi]
    refine ⟨l, ?_, hv⟩
    obtain ⟨p, r, e, hp⟩ := exists_first_newline (X ++ [newLine]) (by simp)
    have hr := endsLine_tail _ p r (endsLine_append_newline X) e
    rw [e, List.append_assoc, List.cons_append, afterFirstNewline_append p _ hp]
    have := mem_terminatedLines_of_decomp r l B hr hl
    simpa using this

theorem window_zero_of_line (l B : List Nat) (chunk overlap : Nat)
    (hlen : l.length + 1 ≤ overlap) :
    ∃ B', window (l ++ newLine :: B) chunk overlap 0 = l ++ newLine :: B' := by
  refine ⟨B.take (chunk + overlap - (l.length + 1)), ?_⟩
  unfold window
  rw [Nat.zero_mul, List.drop_zero]
  have e : l ++ newLine :: B = (l ++ [newLine]) ++ B := by simp
  rw [e, List.take_append_eq_append_take, List.take_of_length_le (by simp; omega)]
  simp

theorem window_of_line (A' l B : List Nat) (chunk overlap : Nat) (hchunk : 0 < chunk)
    (hlen : l.length + 1 ≤ overlap) :
    ∃ X B', window (A' ++ [newLine] ++ l ++ newLine :: B) chunk overlap (A'.length / chunk) =
      (X ++ [newLine]) ++ (l ++ newLine :: B') := by
  have hk : A'.length / chunk * chunk ≤ A'.length := Nat.div_mul_le_self _ _
  have hk2 : A'.length < (A'.length / chunk + 1) * chunk := by
    rw [Nat.mul_comm]
    exact Nat.lt_mul_div_succ _ hchunk
  refine ⟨A'.drop (A'.length / chunk * chunk),
    B.take (chunk + overlap - ((A'.drop (A'.length / chunk * chunk)).length + 1
      + (l.length + 1))), ?_⟩
  unfold window
  have e : A' ++ [newLine] ++ l ++ newLine :: B = A' ++ (([newLine] ++ l ++ [newLine]) ++ B) := by
    simp
  rw [e, List.drop_append_of_le_length hk, ← List.append_assoc,
    List.take_append_eq_append_take, List.take_of_length_le]
  · simp only [List.length_append, List.length_drop, List.length_cons, List.length_nil]
    simp
    congr 2
    omega
  · simp only [List.length_append, List.length_drop, List.length_cons, List.length_nil]
    have : (A'.length / chunk + 1) * chunk = A'.length / chunk * chunk + chunk := by ring
    omega

theorem lt_nchunks_of_mul_lt (size chunk k : Nat) (hchunk : 0 < chunk) (h : k * chunk < size) :
    k < (size + chunk - 1) / chunk := by
  rw [Nat.lt_iff_add_one_le, Nat.le_div_iff_mul_le hchunk]
  have : (k + 1) * chunk = k * chunk + chunk := by ring
  omega

theorem mul_lt_of_lt_nchunks (size chunk k : Nat) (hchunk : 0 < chunk)
    (h : k < (size + chunk - 1) / chunk) : k * chunk < size := by
  rw [Nat.lt_iff_add_one_le, Nat.le_div_iff_mul_le hchunk] at h
  have : (k + 1) * chunk = k * chunk + chunk := by ring
  omega

theorem memoryMap.mmap_window (os : Platform) (mm mm' : memoryMap) (f : List Nat)
    (chunk overlap k : Nat) (hf : mm.f = f) (hsize : mm.size = f.length)
    (hchunk : mm.chunk = chunk) (hover : mm.overlap = overlap) (hpos : 0 < chunk)
    (hlen : f.length < 2 ^ 63) (hsum : chunk + overlap < 2 ^ 63) (hk : k * chunk < f.length)
    (hmm : mm.mmap os k = (mm', none)) : mm'.b = window f chunk overlap k := by
  have h := memoryMap.mmap_range os mm k (by rw [hchunk]; exact_mod_cast hpos)
    (by rw [hover]; exact_mod_cast Nat.zero_le _) (by exact_mod_cast Nat.zero_le _)
    (by rw [hsize]; exact_mod_cast hlen)
    (by rw [hsize, hchunk]; exact_mod_cast hk)
    (by rw [hchunk, hover]; exact_mod_cast hsum)
  have := (h.2.2.2.2.2 (by rw [hsize, hf]) mm' hmm).2.2
  rw [this, hf, hchunk, hover]
  simp

/-- Every address of the whole file is found in the window of some chunk when accepted lines fit in the overlap. -/
theorem exists_chunk_of_mem_writeIPs (f : List Nat) (chunk overlap : Nat) (hchunk : 0 < chunk)
    (hlines : ∀ l ∈ terminatedLines f, (refLine l).isSome = true → l.length + 1 ≤ overlap)
    (v : Nat) (hv : v ∈ writeIPs Context.background f 0) :
    ∃ k : Nat, k < (f.length + chunk - 1) / chunk ∧ k * chunk < f.length ∧
      v ∈ writeIPs Context.background (window f chunk overlap k) (k : Int) ∧
      ∀ (os : Platform) (mm mm' : memoryMap), mm.f = f → mm.size = f.length →
        mm.chunk = chunk → mm.overlap = overlap → f.length < 2 ^ 63 →
        chunk + overlap < 2 ^ 63 → mm.mmap os k = (mm', none) →
        mm'.b = window f chunk overlap k := by
  obtain ⟨l, hl, hlv⟩ := (mem_writeIPs_zero_iff f v).mp hv
  have hlen := hlines l hl (by rw [hlv]; rfl)
  obtain ⟨A, B, e, hA, hnl⟩ := mem_terminatedLines_decomp f l hl
  rcases hA with rfl | ⟨A', rfl⟩
  · have hk : 0 * chunk < f.length := by
      rw [e]; simp
    refine ⟨0, lt_nchunks_of_mul_lt _ _ _ hchunk hk, hk, ?_, ?_⟩
    · obtain ⟨B', hw⟩ := window_zero_of_line l B chunk overlap hlen
      rw [e, List.nil_append, hw]
      rw [Nat.cast_zero, mem_writeIPs_zero_iff]
      refine ⟨l, ?_, hlv⟩
      rw [terminatedLines_append l B' hnl]
      simp
    · intro os mm mm' h1 h2 h3 h4 h5 h6 h7
      exact memoryMap.mmap_window os mm mm' f chunk overlap 0 h1 h2 h3 h4 hchunk h5 h6 hk h7
  · have hk : A'.length / chunk * chunk < f.length := by
      have := Nat.div_mul_le_self A'.length chunk
      rw [e]
      simp only [List.length_append, List.length_cons, List.length_nil]
      omega
    refine ⟨A'.length / chunk, lt_nchunks_of_mul_lt _ _ _ hchunk hk, hk, ?_, ?_⟩
    · obtain ⟨X, B', hw⟩ := window_of_line A' l B chunk overlap hchunk hlen
      rw [e, hw]
      exact mem_writeIPs_after_newline X l B' v _ hnl hlv
    · intro os mm mm' h1 h2 h3 h4 h5 h6 h7
      exact memoryMap.mmap_window os mm mm' f chunk overlap _ h1 h2 h3 h4 hchunk h5 h6 hk h7

/-- C4. No loss at chunk boundaries: when every newline-terminated line of the
file that the parser accepts is at most `overlap` bytes long with its newline,
every address that `writeIPs` sends for the whole file at index 0 is sent by
`writeIPs` on the window of some chunk `k` below `ceil(size/chunk)`, at index
`k`; that window is the file's bytes `[k*chunk, min(k*chunk+chunk+overlap,
size))`, and it is the window a successful `mmap(k)` leaves in the mapper
(sizes within `int64`). -/
theorem no_loss_at_chunk_boundaries (f : List Nat) (chunk overlap : Nat) (hchunk : 0 < chunk)
    (hlines : ∀ l ∈ terminatedLines f, (refLine l).isSome = true → l.length + 1 ≤ overlap)
    (v : Nat) (hv : v ∈ writeIPs Context.background f 0) :
    ∃ k : Nat, k < (f.length + chunk - 1) / chunk ∧ k * chunk < f.length ∧
      v ∈ writeIPs Context.background (window f chunk overlap k) (k : Int) ∧
      ∀ (os : Platform) (mm mm' : memoryMap), mm.f = f → mm.size = f.length →
        mm.chunk = chunk → mm.overlap = overlap → f.length < 2 ^ 63 →
        chunk + overlap < 2 ^ 63 → mm.mmap os k = (mm', none) →
        mm'.b = window f chunk overlap k :=
  exists_chunk_of_mem_writeIPs f chunk overlap hchunk hlines v hv

/-- Witness for C4: three lines `10.0.0.1` (27 bytes), chunk 16, overlap 9. -/
theorem no_loss_at_chunk_boundaries_witness :
    ∃ k : Nat, k < (27 + 16 - 1) / 16 ∧ k * 16 < 27 ∧
      ip 10 0 0 1 ∈ writeIPs Context.background
        (window (bytes "10.0.0.1\n10.0.0.1\n10.0.0.1\n") 16 9 k) (k : Int) := by
  obtain ⟨k, h1, h2, h3, _⟩ := no_loss_at_chunk_boundaries
    (bytes "10.0.0.1\n10.0.0.1\n10.0.0.1\n") 16 9 (by decide) (by decide) (ip 10 0 0 1)
    (by decide)
  exact ⟨k, h1, h2, h3⟩

/-- No spurious address: what a window of the file gives at its chunk index,
the whole file gives at index 0. -/
theorem mem_writeIPs_of_window (f : List Nat) (chunk overlap k : Nat) (v : Nat)
    (hv : v ∈ writeIPs Context.background (window f chunk overlap k) (k : Int)) :
    v ∈ writeIPs Context.background f 0 := by
  rw [mem_writeIPs_zero_iff]
  have hf : f = f.take (k * chunk) ++ ((f.drop (k * chunk)).take (chunk + overlap) ++
      (f.drop (k * chunk)).drop (chunk + overlap)) := by
    rw [List.take_append_drop, List.take_append_drop]
  by_cases hk : k = 0
  · subst hk
    rw [Nat.cast_zero, mem_writeIPs_zero_iff] at hv
    obtain ⟨l, hl, hlv⟩ := hv
    refine ⟨l, ?_, hlv⟩
    unfold window at hl
    rw [Nat.zero_mul, List.drop_zero] at hl
    have := mem_terminatedLines_append _ (f.drop (chunk + overlap)) l hl
    rwa [List.take_append_drop] at this
  · have hi : (k : Int) ≠ 0 := by exact_mod_cast hk
    rw [mem_writeIPs_index_iff _ _ hi] at hv
    obtain ⟨l, hl, hlv⟩ := hv
    refine ⟨l, ?_, hlv⟩
    unfold window at hl
    by_cases hmem : newLine ∈ (f.drop (k * chunk)).take (chunk + overlap)
    · obtain ⟨p, r, e, hp⟩ := exists_first_newline _ hmem
      rw [e, afterFirstNewline_append p r hp] at hl
      rw [hf, e]
      have e2 : f.take (k * chunk) ++ (p ++ newLine :: r ++
            (f.drop (k * chunk)).drop (chunk + overlap)) =
          (f.take (k * chunk) ++ p ++ [newLine]) ++
            (r ++ (f.drop (k * chunk)).drop (chunk + overlap)) := by simp
      rw [e2, terminatedLines_append_of_endsLine _ _ (endsLine_append_newline _)]
      exact List.mem_append_right _ (mem_terminatedLines_append _ _ l hl)
    · rw [afterFirstNewline_of_not_mem _ hmem, terminatedLines_nil] at hl
      simp at hl

theorem refLine_lt (l : List Nat) (v : Nat) (h : refLine l = some v) : v < 2 ^ 32 := by
  obtain ⟨r0, r1, r2, r3, _, _, h0, h1, h2, h3, hv⟩ := (refLine_eq_some_iff l v).mp h
  rw [hv]
  have a0 : runValue r0 <<< 24 < 2 ^ 32 := by
    rw [← shl_mod _ 24 h0 (by norm_num)]; exact Nat.mod_lt _ (by norm_num)
  have a1 : runValue r1 <<< 16 < 2 ^ 32 := by
    rw [← shl_mod _ 16 h1 (by norm_num)]; exact Nat.mod_lt _ (by norm_num)
  have a2 : runValue r2 <<< 8 < 2 ^ 32 := by
    rw [← shl_mod _ 8 h2 (by norm_num)]; exact Nat.mod_lt _ (by norm_num)
  have a3 : runValue r3 < 2 ^ 32 := by
    calc runValue r3 ≤ 255 := h3
      _ < 2 ^ 32 := by norm_num
  exact Nat.or_lt_two_pow (Nat.or_lt_two_pow (Nat.or_lt_two_pow a0 a1) a2) a3

theorem writeIPs_lt (ctx : Context) (b : List Nat) (i : Int) (v : Nat)
    (hv : v ∈ writeIPs ctx b i) : v < 2 ^ 32 := by
  obtain ⟨l, _, e⟩ := mem_writeIPs_line ctx b i v hv
  exact refLine_lt l v e

/-! ## The pipeline -/

theorem app.nchunks_eq (a : app) (n c : Nat) (hc : a.chunk = (c : Int)) (hpos : 0 < c)
    (hno : n + c ≤ 2 ^ 63) : a.nchunks (n : Int) = (((n + c - 1) / c : Nat) : Int) := by
  unfold app.nchunks
  rw [hc]
  have h1 : wrap64 (wrap64 ((n : Int) + (c : Int)) - 1) = (((n + c - 1 : Nat)) : Int) := by
    unfold wrap64
    omega
  rw [h1, ← Int.ofNat_tdiv]
  apply wrap64_eq
  · have : (0 : Int) ≤ (((n + c - 1) / c : Nat) : Int) := Int.ofNat_nonneg _
    omega
  · have : (n + c - 1) / c ≤ n + c - 1 := Nat.div_le_self _ _
    omega

theorem app.indexes_eq (a : app) (n c : Nat) (hc : a.chunk = (c : Int)) (hpos : 0 < c)
    (hno : n + c ≤ 2 ^ 63) :
    a.indexes (n : Int) = (List.range ((n + c - 1) / c)).map Int.ofNat := by
  unfold app.indexes
  rw [app.nchunks_eq a n c hc hpos hno, Int.toNat_ofNat]

theorem memoryMap.mmap_fields (os : Platform) (mm mm' : memoryMap) (i : Int) (e : Option Errno)
    (h : mm.mmap os i = (mm', e)) :
    mm'.f = mm.f ∧ mm'.size = mm.size ∧ mm'.chunk = mm.chunk ∧ mm'.overlap = mm.overlap := by
  unfold memoryMap.mmap at h
  split at h
  · simp only [Prod.mk.injEq] at h
    obtain ⟨rfl, _⟩ := h
    exact ⟨rfl, rfl, rfl, rfl⟩
  · split at h
    · simp only [Prod.mk.injEq] at h
      obtain ⟨rfl, _⟩ := h
      exact ⟨rfl, rfl, rfl, rfl⟩
    · simp only [Prod.mk.injEq] at h
      obtain ⟨rfl, _⟩ := h
      exact ⟨rfl, rfl, rfl, rfl⟩

theorem wrap64_add_neg (c o : Nat) (hc : c < 2 ^ 63) (ho : o < 2 ^ 63) (hcon : ¬ c + o < 2 ^ 63) :
    wrap64 ((c : Int) + (o : Int)) < 0 := wrap64_neg _ (by omega) (by omega)

theorem wrap64_mul_cast (n c k : Nat) (hn : n < 2 ^ 63) (hk : k * c < n) :
    wrap64 ((k : Int) * (c : Int)) = ((k * c : Nat) : Int) := by
  rw [wrap64_eq]
  · push_cast; rfl
  · have : (0 : Int) ≤ ((k * c : Nat) : Int) := Int.ofNat_nonneg _
    push_cast at this
    omega
  · have : ((k * c : Nat) : Int) < (n : Int) := by exact_mod_cast hk
    push_cast at this
    omega

theorem wrap64_sub_cast (n c k : Nat) (hn : n < 2 ^ 63) (hk : k * c < n) :
    wrap64 ((n : Int) - ((k * c : Nat) : Int)) = (n : Int) - ((k * c : Nat) : Int) := by
  apply wrap64_eq <;> omega

theorem memoryMap.request_of_neg_length (mm : memoryMap) (n c o k : Nat)
    (hsize : mm.size = (n : Int)) (hchunk : mm.chunk = (c : Int)) (hover : mm.overlap = (o : Int))
    (hk : k * c < n)
    (hlenneg : wrap64 ((c : Int) + (o : Int)) < 0)
    (hoff : wrap64 ((k : Int) * (c : Int)) = ((k * c : Nat) : Int))
    (hleft : wrap64 ((n : Int) - ((k * c : Nat) : Int)) = (n : Int) - ((k * c : Nat) : Int)) :
    mm.request (k : Int) =
      some (((k * c : Nat) : Int), wrap64 ((c : Int) + (o : Int))) := by
  have hl1 : ¬ ((n : Int) - ((k * c : Nat) : Int) < 1) := by
    have : ((k * c : Nat) : Int) < (n : Int) := by exact_mod_cast hk
    omega
  have hl2 : ¬ ((n : Int) - ((k * c : Nat) : Int) < wrap64 ((c : Int) + (o : Int))) := by
    omega
  unfold memoryMap.request
  dsimp only
  rw [hsize, hchunk, hover, hoff, hleft, if_neg hl1, if_neg hl2]

theorem memoryMap.mmap_fails_of_length_le (os : Platform) (mm mm' : memoryMap) (i off len : Int)
    (hreq : mm.request i = some (off, len)) (hle : len ≤ 0)
    (hmm : mm.mmap os i = (mm', none)) : False := by
  unfold memoryMap.mmap at hmm
  rw [hreq] at hmm
  dsimp only at hmm
  unfold sysMmap at hmm
  rw [if_pos hle] at hmm
  exact absurd (congrArg Prod.snd hmm) (by simp)

/-- A mapping that succeeds was asked with a length that did not overflow. -/
theorem memoryMap.no_overflow_of_mmap (os : Platform) (mm mm' : memoryMap) (n c o k : Nat)
    (hsize : mm.size = (n : Int)) (hchunk : mm.chunk = (c : Int)) (hover : mm.overlap = (o : Int))
    (hn : n < 2 ^ 63) (hc : c < 2 ^ 63) (ho : o < 2 ^ 63) (hk : k * c < n)
    (hmm : mm.mmap os (k : Int) = (mm', none)) : c + o < 2 ^ 63 := by
  by_contra hcon
  have hlenneg := wrap64_add_neg c o hc ho hcon
  have hreq := memoryMap.request_of_neg_length mm n c o k hsize hchunk hover hk hlenneg
    (wrap64_mul_cast n c k hn hk) (wrap64_sub_cast n c k hn hk)
  exact memoryMap.mmap_fails_of_length_le os mm mm' _ _ _ hreq (Int.le_of_lt hlenneg) hmm

theorem app.worker_cons_ok (os : Platform) (mm mm' : memoryMap) (i : Int) (rest : List Int)
    (hmm : mm.mmap os i = (mm', none)) :
    app.worker os mm (i :: rest) =
      (writeIPs Context.background mm'.b i ++ (app.worker os mm' rest).1,
        (app.worker os mm' rest).2) := by
  simp only [app.worker, hmm]

theorem app.worker_cons_err (os : Platform) (mm mm' : memoryMap) (i : Int) (rest : List Int)
    (e : Errno) (hmm : mm.mmap os i = (mm', some e)) :
    app.worker os mm (i :: rest) = ([], some e) := by
  simp only [app.worker, hmm]

theorem app.worker_eq (os : Platform) (f : List Nat) (n c o : Nat) (hn : n = f.length)
    (hpos : 0 < c) (hn63 : n < 2 ^ 63) (hc : c < 2 ^ 63) (ho : o < 2 ^ 63) (work : List Int) :
    ∀ mm : memoryMap, mm.f = f → mm.size = (n : Int) → mm.chunk = (c : Int) →
      mm.overlap = (o : Int) → (∀ i ∈ work, ∃ k : Nat, i = (k : Int) ∧ k * c < n) →
      (app.worker os mm work).2 = none →
      (app.worker os mm work).1 =
        (work.map (fun i => writeIPs Context.background (window f c o i.toNat) i)).flatten := by
  induction work with
  | nil => intro mm _ _ _ _ _ _; rfl
  | cons i rest ih =>
    intro mm hf hsize hchunk hover hwork hok
    obtain ⟨k, rfl, hk⟩ := hwork i (List.mem_cons_self _ _)
    obtain ⟨mm', e, hmm⟩ : ∃ mm' e, mm.mmap os (k : Int) = (mm', e) := ⟨_, _, rfl⟩
    cases e with
    | some e =>
      rw [app.worker_cons_err os mm mm' _ rest e hmm] at hok
      simp at hok
    | none =>
      rw [app.worker_cons_ok os mm mm' _ rest hmm] at hok ⊢
      dsimp only at hok ⊢
      obtain ⟨f1, f2, f3, f4⟩ := memoryMap.mmap_fields os mm mm' _ _ hmm
      have hsum := memoryMap.no_overflow_of_mmap os mm mm' n c o k hsize hchunk hover hn63 hc ho
        hk hmm
      have hb := memoryMap.mmap_window os mm mm' f c o k hf (by rw [hsize, hn]) hchunk hover
        hpos (by rw [← hn]; exact hn63) hsum (by rw [← hn]; exact hk) hmm
      rw [ih mm' (by rw [f1, hf]) (by rw [f2, hsize]) (by rw [f3, hchunk]) (by rw [f4, hover])
        (fun j hj => hwork j (List.mem_cons_of_mem _ hj)) hok, hb]
      simp

theorem filterMap_snd_eq_nil (rs : List (List Nat × Option Errno)) (h : ∀ r ∈ rs, r.2 = none) :
    rs.filterMap (fun r => r.2) = [] := by
  induction rs with
  | nil => rfl
  | cons r rs ih =>
    rw [List.filterMap_cons, h r (List.mem_cons_self _ _)]
    exact ih (fun x hx => h x (List.mem_cons_of_mem _ hx))

theorem window_zero_of_le (f : List Nat) (c o : Nat) (h : f.length ≤ c) :
    window f c o 0 = f := by
  unfold window
  rw [Nat.zero_mul, List.drop_zero, List.take_of_length_le (by omega)]

theorem dedup_length_eq_of_mem_iff (l1 l2 : List Nat) (h : ∀ v, v ∈ l1 ↔ v ∈ l2) :
    l1.dedup.length = l2.dedup.length := by
  rw [← List.card_toFinset, ← List.card_toFinset]
  congr 1
  ext v
  simp only [List.mem_toFinset]
  exact h v

/-- The values that reach the aggregator in a complete run without a mapping
failure are the values of the windows of the generated chunks. -/
theorem app.mem_arrival_iff (os : Platform) (a : app) (f : List Nat) (sch : Schedule)
    (c o : Nat) (hc : a.chunk = (c : Int)) (ho : a.overlap = (o : Int)) (hpos : 0 < c)
    (hc63 : c < 2 ^ 63) (ho63 : o < 2 ^ 63) (hno : f.length + c ≤ 2 ^ 63)
    (hcomplete : sch.Complete os a f f.length)
    (hok : ∀ r ∈ a.workerResults os f f.length sch, r.2 = none) (v : Nat) :
    v ∈ sch.arrival ↔ ∃ k : Nat, k * c < f.length ∧
      v ∈ writeIPs Context.background (window f c o k) (k : Int) := by
  obtain ⟨_, hwork, harr⟩ := hcomplete
  have hidx := app.indexes_eq a f.length c hc hpos hno
  have hmemidx : ∀ i : Int, i ∈ sch.work.flatten ↔ ∃ k : Nat, i = (k : Int) ∧ k * c < f.length := by
    intro i
    rw [hwork.mem_iff, hidx, List.mem_map]
    constructor
    · rintro ⟨k, hk, rfl⟩
      exact ⟨k, rfl, mul_lt_of_lt_nchunks _ _ _ hpos (List.mem_range.mp hk)⟩
    · rintro ⟨k, rfl, hk⟩
      exact ⟨k, List.mem_range.mpr (lt_nchunks_of_mul_lt _ _ _ hpos hk), rfl⟩
  have hworker : ∀ w ∈ sch.work, (app.worker os (a.newMap f f.length) w).1 =
      (w.map (fun i => writeIPs Context.background (window f c o i.toNat) i)).flatten := by
    intro w hw
    apply app.worker_eq os f f.length c o rfl hpos (by omega) hc63 ho63 w
      (a.newMap f f.length) rfl rfl hc ho
    · intro i hi
      exact (hmemidx i).mp (List.mem_flatten.mpr ⟨w, hw, hi⟩)
    · exact hok _ (List.mem_map.mpr ⟨w, hw, rfl⟩)
  rw [harr.mem_iff]
  simp only [app.workerResults, List.map_map, List.mem_flatten, List.mem_map,
    Function.comp_apply]
  constructor
  · rintro ⟨out, ⟨w, hw, rfl⟩, hv⟩
    rw [hworker w hw, List.mem_flatten] at hv
    obtain ⟨out2, hout2, hv2⟩ := hv
    obtain ⟨i, hi, rfl⟩ := List.mem_map.mp hout2
    obtain ⟨k, rfl, hk⟩ := (hmemidx i).mp (List.mem_flatten.mpr ⟨w, hw, hi⟩)
    exact ⟨k, hk, by simpa using hv2⟩
  · rintro ⟨k, hk, hv⟩
    obtain ⟨w, hw, hkw⟩ := List.mem_flatten.mp ((hmemidx (k : Int)).mpr ⟨k, rfl, hk⟩)
    refine ⟨_, ⟨w, hw, rfl⟩, ?_⟩
    rw [hworker w hw, List.mem_flatten]
    exact ⟨_, List.mem_map.mpr ⟨(k : Int), hkw, rfl⟩, by simpa using hv⟩

/-- C1 fails on the code. With chunk `2^63 - 1` the `int64` expression
`size + chunk - 1` wraps around for the 8-byte file `1.2.3.4`, newline: the
code computes 0 chunks where rounding up `size / chunk`, as its comment
`number of chunks, rounding up` says, gives 1. So the generator produces no
index; the run with one worker that receives nothing is complete, no mapping
fails, the size is below the chunk, and the count returned is 0 with a nil
error, while the whole file parsed as chunk 0 gives one address. -/
theorem run_count_wraps_for_huge_chunk :
    (app.mk 9223372036854775807 0 1).nchunks 8 = 0 ∧
    (8 + 9223372036854775807 - 1) / 9223372036854775807 = 1 ∧
    (app.mk 9223372036854775807 0 1).indexes 8 = [] ∧
    Schedule.Complete Platform.permissive (app.mk 9223372036854775807 0 1)
      (bytes "1.2.3.4\n") 8 ⟨[[]], []⟩ ∧
    (∀ r ∈ (app.mk 9223372036854775807 0 1).workerResults Platform.permissive
      (bytes "1.2.3.4\n") 8 ⟨[[]], []⟩, r.2 = none) ∧
    ((bytes "1.2.3.4\n").length : Int) ≤ (app.mk 9223372036854775807 0 1).chunk ∧
    (app.mk 9223372036854775807 0 1).run Platform.permissive (bytes "1.2.3.4\n") 8 ⟨[[]], []⟩
      = some (0, none) ∧
    (writeIPs Context.background (bytes "1.2.3.4\n") 0).dedup.length = 1 ∧
    (app.mk 9223372036854775807 0 1).run Platform.permissive (bytes "1.2.3.4\n") 8 ⟨[[]], []⟩
      ≠ some ((writeIPs Context.background (bytes "1.2.3.4\n") 0).dedup.length, none) := by
  have hrun : (app.mk 9223372036854775807 0 1).run Platform.permissive (bytes "1.2.3.4\n") 8
      ⟨[[]], []⟩ = some (0, none) := by
    have h0 : newIPv4Set.count = 0 := newSmallSet_count Words
    have h1 : newIPv4Set.addAll [] = some newIPv4Set := rfl
    have h2 : ((app.mk 9223372036854775807 0 1).workerResults Platform.permissive
        (bytes "1.2.3.4\n") 8 ⟨[[]], []⟩).filterMap (fun r => r.2) = [] := by decide
    unfold app.run
    dsimp only
    rw [h1, h2, Option.map_some', h0]
    rfl
  have hone : (writeIPs Context.background (bytes "1.2.3.4\n") 0).dedup.length = 1 := by decide
  refine ⟨by decide, by decide, by decide, ⟨by decide, by decide, by decide⟩, by decide,
    by decide, hrun, hone, ?_⟩
  rw [hrun, hone]
  decide

/-- The end-to-end count where the chunk arithmetic stays inside `int64`, over
the sequential model of `app.run` without cancellation and without mapping
failure (a chunk and overlap whose sum wraps around make `mmap` fail, which
the hypothesis on the worker results excludes): for every file content,
every chunk above 0 for which `size + chunk - 1` does not overflow `int64`,
every overlap of at least 0, at least one worker, every distribution of the
generated indices among the workers and every order in which the values sent
reach the aggregator (chunk and overlap being `int64` values), if the size is
at most the chunk or every
newline-terminated line that the parser accepts is at most `overlap` bytes
long with its newline, then `run` returns a nil error and the number of
distinct values that `writeIPs` sends for the whole file at index 0. -/
theorem run_counts_distinct (os : Platform) (a : app) (f : List Nat) (sch : Schedule)
    (hchunk : 0 < a.chunk) (hover : 0 ≤ a.overlap) (_hworkers : 1 ≤ a.numWorkers)
    (hc63 : a.chunk < 2 ^ 63) (ho63 : a.overlap < 2 ^ 63)
    (hno : (f.length : Int) + a.chunk - 1 < 2 ^ 63)
    (hcomplete : sch.Complete os a f f.length)
    (hok : ∀ r ∈ a.workerResults os f f.length sch, r.2 = none)
    (hcover : (f.length : Int) ≤ a.chunk ∨
      ∀ l ∈ terminatedLines f, (refLine l).isSome = true →
        ((l.length + 1 : Nat) : Int) ≤ a.overlap) :
    a.run os f f.length sch =
      some ((writeIPs Context.background f 0).dedup.length, none) := by
  have hc : a.chunk = ((a.chunk.toNat : Nat) : Int) := (Int.toNat_of_nonneg (le_of_lt hchunk)).symm
  have ho : a.overlap = ((a.overlap.toNat : Nat) : Int) := (Int.toNat_of_nonneg hover).symm
  generalize a.chunk.toNat = c at hc
  generalize a.overlap.toNat = o at ho
  have hpos : 0 < c := by omega
  have hno' : f.length + c ≤ 2 ^ 63 := by omega
  have hc63' : c < 2 ^ 63 := by omega
  have ho63' : o < 2 ^ 63 := by omega
  have hmem := app.mem_arrival_iff os a f sch c o hc ho hpos hc63' ho63' hno' hcomplete hok
  have hiff : ∀ v, v ∈ sch.arrival ↔ v ∈ writeIPs Context.background f 0 := by
    intro v
    rw [hmem v]
    constructor
    · rintro ⟨k, _, hv⟩
      exact mem_writeIPs_of_window f c o k v hv
    · intro hv
      rcases hcover with hsmall | hlines
      · have hne : f ≠ [] := by
          rintro rfl
          simp [writeIPs] at hv
        have hlen : 0 < f.length := List.length_pos.mpr hne
        refine ⟨0, by omega, ?_⟩
        rw [window_zero_of_le f c o (by omega)]
        exact hv
      · obtain ⟨k, _, hk, hvk, _⟩ := exists_chunk_of_mem_writeIPs f c o hpos
          (fun l hl hsome => by have := hlines l hl hsome; omega) v hv
        exact ⟨k, hk, hvk⟩
  have h32 : ∀ v ∈ sch.arrival, v < 2 ^ 32 :=
    fun v hv => writeIPs_lt _ _ _ v ((hiff v).mp hv)
  obtain ⟨s, hs, hcount⟩ := ipv4Set.count_addAll Words sch.arrival h32
    (fun v hv => shiftRight_lt_Words v (h32 v hv))
  have hs' : newIPv4Set.addAll sch.arrival = some s := hs
  unfold app.run
  dsimp only
  rw [hs', filterMap_snd_eq_nil _ hok, Option.map_some', hcount,
    dedup_length_eq_of_mem_iff _ _ hiff]
  rfl

/-- Two runs inside the `int64` bounds: the file with 1.2.3.4, 8.8.8.8, 1.2.3.4 in one
chunk and two workers gives 2; three lines `10.0.0.1` over two chunks of 16
bytes with overlap 16 and three workers give 1. -/
theorem run_counts_distinct_witness :
    (app.mk 4096 8 2).run Platform.permissive (bytes "1.2.3.4\n8.8.8.8\n1.2.3.4\n") 24
        ⟨[[0], []], [ip 1 2 3 4, ip 8 8 8 8, ip 1 2 3 4]⟩ =
      some ((writeIPs Context.background (bytes "1.2.3.4\n8.8.8.8\n1.2.3.4\n") 0).dedup.length,
        none) ∧
    (writeIPs Context.background (bytes "1.2.3.4\n8.8.8.8\n1.2.3.4\n") 0).dedup.length = 2 ∧
    (app.mk 16 16 3).run Platform.permissive (bytes "10.0.0.1\n10.0.0.1\n10.0.0.1\n") 27
        ⟨[[1], [], [0]], [ip 10 0 0 1, ip 10 0 0 1, ip 10 0 0 1, ip 10 0 0 1]⟩ =
      some ((writeIPs Context.background
        (bytes "10.0.0.1\n10.0.0.1\n10.0.0.1\n") 0).dedup.length, none) ∧
    (writeIPs Context.background (bytes "10.0.0.1\n10.0.0.1\n10.0.0.1\n") 0).dedup.length
      = 1 :=
  ⟨run_counts_distinct Platform.permissive (app.mk 4096 8 2)
      (bytes "1.2.3.4\n8.8.8.8\n1.2.3.4\n") ⟨[[0], []], [ip 1 2 3 4, ip 8 8 8 8, ip 1 2 3 4]⟩
      (by decide) (by decide) (by decide) (by decide) (by decide) (by decide)
      ⟨by decide, by decide, by decide⟩ (by decide) (Or.inl (by decide)),
    by decide,
    run_counts_distinct Platform.permissive (app.mk 16 16 3)
      (bytes "10.0.0.1\n10.0.0.1\n10.0.0.1\n")
      ⟨[[1], [], [0]], [ip 10 0 0 1, ip 10 0 0 1, ip 10 0 0 1, ip 10 0 0 1]⟩
      (by decide) (by decide) (by decide) (by decide) (by decide) (by decide)
      ⟨by decide, by decide, by decide⟩ (by decide) (Or.inr (by decide)),
    by decide⟩

theorem ipv4Set.add_eq (s : ipv4Set) (ip : Nat) :
    s.add ip = if ip / 64 < s.bitmap.length then
      some ⟨s.bitmap.set (ip / 64) (s.bitmap.getD (ip / 64) 0 ||| 1 <<< (ip % 64))⟩ else none := by
  obtain ⟨e1, e2⟩ := shift_and_eq ip
  have hb : ip % 64 < 64 := Nat.mod_lt _ (by norm_num)
  have hmod : (1 <<< (ip % 64)) % 2 ^ 64 = 1 <<< (ip % 64) := by
    apply Nat.mod_eq_of_lt
    rw [Nat.one_shiftLeft]
    exact Nat.pow_lt_pow_right (by norm_num) hb
  unfold ipv4Set.add
  simp only [e1, e2, hmod]

theorem getD_set_testBit (l : List Nat) (w0 w b k : Nat) (h : w0 < l.length) :
    ((l.set w0 (l.getD w0 0 ||| 1 <<< b)).getD w 0).testBit k =
      ((l.getD w 0).testBit k || (decide (w = w0) && decide (k = b))) := by
  by_cases hw : w = w0
  · subst hw
    rw [List.getD_eq_getElem _ _ (by simpa using h), List.getElem_set_self, Nat.testBit_or,
      Nat.one_shiftLeft, Nat.testBit_two_pow]
    by_cases hk : k = b
    · subst hk; simp
    · have : ¬ b = k := fun e => hk e.symm
      simp [hk, this]
  · have hne : w0 ≠ w := fun e => hw e.symm
    have : (l.set w0 (l.getD w0 0 ||| 1 <<< b)).getD w 0 = l.getD w 0 := by
      simp only [List.getD_eq_getElem?_getD, List.getElem?_set_ne hne]
    rw [this]
    simp [hw]

/-- What `add` does to the bits: the bit of `ip` is set, every other bit of
every word is as before. -/
theorem ipv4Set.add_bits (s s' : ipv4Set) (ip : Nat) (h : s.add ip = some s') :
    s'.bitmap.length = s.bitmap.length ∧
    ∀ w k, (s'.bitmap.getD w 0).testBit k =
      ((s.bitmap.getD w 0).testBit k || (decide (w = ip / 64) && decide (k = ip % 64))) := by
  rw [ipv4Set.add_eq] at h
  split_ifs at h with hin
  simp only [Option.some.injEq] at h
  subst h
  refine ⟨by simp, ?_⟩
  intro w k
  exact getD_set_testBit s.bitmap (ip / 64) w (ip % 64) k hin

theorem ipv4Set.add_isSome_iff (s : ipv4Set) (ip : Nat) :
    (s.add ip).isSome = true ↔ ip / 64 < s.bitmap.length := by
  rw [ipv4Set.add_eq]
  split_ifs with h <;> simp [h]

theorem ipv4Set.ext_bits (s t : ipv4Set) (hlen : s.bitmap.length = t.bitmap.length)
    (h : ∀ w k, (s.bitmap.getD w 0).testBit k = (t.bitmap.getD w 0).testBit k) : s = t := by
  obtain ⟨l1⟩ := s
  obtain ⟨l2⟩ := t
  simp only at hlen h
  congr 1
  apply List.ext_getElem hlen
  intro n h1 h2
  apply Nat.eq_of_testBit_eq
  intro k
  have := h n k
  rwa [List.getD_eq_getElem _ _ h1, List.getD_eq_getElem _ _ h2] at this

theorem ipv4Set.add_add_self (s s' : ipv4Set) (ip : Nat) (h : s.add ip = some s') :
    s'.add ip = some s' := by
  obtain ⟨hlen, hbits⟩ := ipv4Set.add_bits s s' ip h
  have hin : ip / 64 < s'.bitmap.length := by
    rw [hlen]; exact (ipv4Set.add_isSome_iff s ip).mp (by rw [h]; rfl)
  obtain ⟨s'', h2⟩ := Option.isSome_iff_exists.mp ((ipv4Set.add_isSome_iff s' ip).mpr hin)
  rw [h2]
  congr 1
  obtain ⟨hlen2, hbits2⟩ := ipv4Set.add_bits s' s'' ip h2
  apply ipv4Set.ext_bits _ _ hlen2
  intro w k
  rw [hbits2, hbits]
  cases (s.bitmap.getD w 0).testBit k <;> cases (decide (w = ip / 64) && decide (k = ip % 64)) <;> rfl

theorem ipv4Set.add_comm (s : ipv4Set) (a b : Nat) :
    (s.add a).bind (fun s' => s'.add b) = (s.add b).bind (fun s' => s'.add a) := by
  by_cases ha : a / 64 < s.bitmap.length
  · by_cases hb : b / 64 < s.bitmap.length
    · obtain ⟨sa, ea⟩ := Option.isSome_iff_exists.mp ((ipv4Set.add_isSome_iff s a).mpr ha)
      obtain ⟨sb, eb⟩ := Option.isSome_iff_exists.mp ((ipv4Set.add_isSome_iff s b).mpr hb)
      obtain ⟨la, ba⟩ := ipv4Set.add_bits s sa a ea
      obtain ⟨lb, bb⟩ := ipv4Set.add_bits s sb b eb
      obtain ⟨sab, eab⟩ := Option.isSome_iff_exists.mp
        ((ipv4Set.add_isSome_iff sa b).mpr (by rw [la]; exact hb))
      obtain ⟨sba, eba⟩ := Option.isSome_iff_exists.mp
        ((ipv4Set.add_isSome_iff sb a).mpr (by rw [lb]; exact ha))
      obtain ⟨lab, bab⟩ := ipv4Set.add_bits sa sab b eab
      obtain ⟨lba, bba⟩ := ipv4Set.add_bits sb sba a eba
      rw [ea, eb, Option.some_bind, Option.some_bind, eab, eba]
      congr 1
      apply ipv4Set.ext_bits _ _ (by rw [lab, la, lba, lb])
      intro w k
      rw [bab, ba, bba, bb]
      cases (s.bitmap.getD w 0).testBit k <;>
        cases (decide (w = a / 64) && decide (k = a % 64)) <;>
        cases (decide (w = b / 64) && decide (k = b % 64)) <;> rfl
    · have eb : s.add b = none := by
        rw [ipv4Set.add_eq, if_neg hb]
      obtain ⟨sa, ea⟩ := Option.isSome_iff_exists.mp ((ipv4Set.add_isSome_iff s a).mpr ha)
      obtain ⟨la, _⟩ := ipv4Set.add_bits s sa a ea
      have eab : sa.add b = none := by
        rw [ipv4Set.add_eq, if_neg (by rw [la]; exact hb)]
      rw [ea, eb, Option.some_bind, eab]
      rfl
  · have ea : s.add a = none := by
      rw [ipv4Set.add_eq, if_neg ha]
    rw [ea]
    cases eb : s.add b with
    | none => rfl
    | some sb =>
      obtain ⟨lb, _⟩ := ipv4Set.add_bits s sb b eb
      have eba : sb.add a = none := by
        rw [ipv4Set.add_eq, if_neg (by rw [lb]; exact ha)]
      rw [Option.some_bind, eba]
      rfl

theorem ipv4Set.addAll_bits (words : Nat) (ips : List Nat) (hin : ∀ ip ∈ ips, ip >>> 6 < words) :
    ∃ s, (newSmallSet words).addAll ips = some s ∧ s.bitmap.length = words ∧
      ∀ i : Nat, i >>> 6 < words →
        ((s.bitmap.getD (i >>> 6) 0).testBit (i &&& 63) = true ↔ i ∈ ips) := by
  obtain ⟨s, e, hlen, hrep⟩ := ipv4Set.addAll_represents ips (newSmallSet words) ∅
    (newSmallSet_represents words) (by simpa [newSmallSet] using hin)
  have hlen' : s.bitmap.length = words := by
    rw [hlen]; simp [newSmallSet]
  refine ⟨s, e, hlen', ?_⟩
  intro i hi
  obtain ⟨e1, e2⟩ := shift_and_eq i
  rw [e1] at hi
  rw [e1, e2, hrep.2.1 i (by rw [hlen']; omega)]
  simp

theorem newIPv4Set_length : newIPv4Set.bitmap.length = 2 ^ 26 := by
  have hW : Words = 2 ^ 26 := by decide
  simp only [newIPv4Set, List.length_replicate, hW]

theorem ipv4Set.addAll_length (ips : List Nat) :
    ∀ s s' : ipv4Set, s.addAll ips = some s' → s'.bitmap.length = s.bitmap.length := by
  induction ips with
  | nil =>
    intro s s' h
    simp only [ipv4Set.addAll, Option.some.injEq] at h
    rw [h]
  | cons ip rest ih =>
    intro s s' h
    simp only [ipv4Set.addAll] at h
    cases e : s.add ip with
    | none => rw [e] at h; simp at h
    | some s1 =>
      rw [e, Option.some_bind] at h
      rw [ih s1 s' h, (ipv4Set.add_bits s s1 ip e).1]

theorem word_bit_injective (a b : Nat) (h : (a >>> 6, a &&& 63) = (b >>> 6, b &&& 63)) : a = b := by
  obtain ⟨a1, a2⟩ := shift_and_eq a
  obtain ⟨b1, b2⟩ := shift_and_eq b
  simp only [Prod.mk.injEq, a1, a2, b1, b2] at h
  omega

/-- C12. Bitmap membership invariant: after any sequence of adds to an
all-zero bitmap (word indices in range), bit `i & 63` of word `i >> 6` is set
exactly when `i` occurs in the sequence (first part, any length; second part,
the full bitmap and every 32-bit `i`); `add(ip)` sets the bit of `ip` and
leaves every other bit of every word as it was (third part); adding `ip` a
second time changes nothing (fourth part); and two adds commute (fifth part). -/
theorem ipv4Set_membership_invariant :
    (∀ (words : Nat) (ips : List Nat), (∀ ip ∈ ips, ip >>> 6 < words) →
      ∃ s, (newSmallSet words).addAll ips = some s ∧
        ∀ i : Nat, i >>> 6 < words →
          ((s.bitmap.getD (i >>> 6) 0).testBit (i &&& 63) = true ↔ i ∈ ips)) ∧
    (∀ ips : List Nat, (∀ ip ∈ ips, ip < 2 ^ 32) →
      ∃ s, newIPv4Set.addAll ips = some s ∧
        ∀ i : Nat, i < 2 ^ 32 →
          ((s.bitmap.getD (i >>> 6) 0).testBit (i &&& 63) = true ↔ i ∈ ips)) ∧
    (∀ (s s' : ipv4Set) (ip : Nat), s.add ip = some s' →
      ∀ w k : Nat, (s'.bitmap.getD w 0).testBit k =
        ((s.bitmap.getD w 0).testBit k || (decide (w = ip >>> 6) && decide (k = ip &&& 63)))) ∧
    (∀ (s s' : ipv4Set) (ip : Nat), s.add ip = some s' → s'.add ip = some s') ∧
    (∀ (s : ipv4Set) (a b : Nat),
      (s.add a).bind (fun s' => s'.add b) = (s.add b).bind (fun s' => s'.add a)) := by
  refine ⟨?_, ?_, ?_, ipv4Set.add_add_self, ipv4Set.add_comm⟩
  · intro words ips hin
    obtain ⟨s, e, _, h⟩ := ipv4Set.addAll_bits words ips hin
    exact ⟨s, e, h⟩
  · intro ips h32
    obtain ⟨s, e, _, h⟩ := ipv4Set.addAll_bits Words ips
      (fun ip hip => shiftRight_lt_Words ip (h32 ip hip))
    exact ⟨s, e, fun i hi => h i (shiftRight_lt_Words i hi)⟩
  · intro s s' ip h w k
    obtain ⟨e1, e2⟩ := shift_and_eq ip
    rw [e1, e2]
    exact (ipv4Set.add_bits s s' ip h).2 w k

/-- C19. The bitmap of `newIPv4Set` has exactly `2^26` words of 64 bits, that
is `2^32` bits and 536,870,912 bytes, one bit per 32-bit address; for every
`uint32` address the word index `ip >> 6` is below the bitmap length, so `add`
on the full bitmap never indexes out of range, however many adds came before;
and two addresses with the same word index and bit index are equal, the bit
index being below 64. -/
theorem bitmap_covers_address_space :
    Words = 2 ^ 26 ∧ newIPv4Set.bitmap.length = 2 ^ 26 ∧
    64 * newIPv4Set.bitmap.length = 2 ^ 32 ∧ TotalIPs = 2 ^ 32 ∧
    BitmapBytes = 536870912 ∧ 8 * BitmapBytes = TotalIPs ∧
    (∀ ip : Nat, ip < 2 ^ 32 → ip >>> 6 < newIPv4Set.bitmap.length) ∧
    (∀ (ips : List Nat) (ip : Nat), (∀ x ∈ ips, x < 2 ^ 32) → ip < 2 ^ 32 →
      ∃ s s', newIPv4Set.addAll ips = some s ∧ s.add ip = some s') ∧
    (∀ a b : Nat, (a >>> 6, a &&& 63) = (b >>> 6, b &&& 63) → a = b) ∧
    (∀ ip : Nat, ip &&& 63 < 64) := by
  have hW : Words = 2 ^ 26 := by decide
  refine ⟨hW, newIPv4Set_length, by rw [newIPv4Set_length]; norm_num, by decide, by decide,
    by decide, ?_, ?_, word_bit_injective, ?_⟩
  · intro ip hip
    rw [newIPv4Set_length, ← hW]
    exact shiftRight_lt_Words ip hip
  · intro ips ip hips hip
    obtain ⟨s, e, -⟩ := ipv4Set.count_addAll Words ips hips
      (fun x hx => shiftRight_lt_Words x (hips x hx))
    have e' : newIPv4Set.addAll ips = some s := e
    have hlen := ipv4Set.addAll_length ips newIPv4Set s e'
    have hin : ip / 64 < s.bitmap.length := by
      rw [hlen, newIPv4Set_length, ← hW, ← (shift_and_eq ip).1]
      exact shiftRight_lt_Words ip hip
    obtain ⟨s', e2⟩ := Option.isSome_iff_exists.mp ((ipv4Set.add_isSome_iff s ip).mpr hin)
    exact ⟨s, s', e', e2⟩
  · intro ip
    rw [(shift_and_eq ip).2]
    exact Nat.mod_lt _ (by norm_num)

theorem div_le_iff_le_mul (n c m : Nat) (hc : 0 < c) : (n + c - 1) / c ≤ m ↔ n ≤ m * c := by
  rw [← Nat.lt_succ_iff, Nat.div_lt_iff_lt_mul hc, Nat.succ_mul]
  omega

theorem ceil_div_eq (n c : Nat) (hc : 0 < c) : ⌈(n : ℚ) / (c : ℚ)⌉₊ = (n + c - 1) / c := by
  apply eq_of_forall_ge_iff
  intro m
  rw [Nat.ceil_le, div_le_iff_le_mul n c m hc, div_le_iff₀ (by exact_mod_cast hc)]
  exact_mod_cast Iff.rfl

theorem app.mem_indexes_iff (a : app) (n c : Nat) (hc : a.chunk = (c : Int)) (hpos : 0 < c)
    (hno : n + c ≤ 2 ^ 63) (i : Int) :
    i ∈ a.indexes (n : Int) ↔ 0 ≤ i ∧ i * a.chunk < (n : Int) := by
  rw [app.indexes_eq a n c hc hpos hno, List.mem_map, hc]
  constructor
  · rintro ⟨k, hk, rfl⟩
    have := mul_lt_of_lt_nchunks n c k hpos (List.mem_range.mp hk)
    refine ⟨Int.ofNat_nonneg k, ?_⟩
    rw [Int.ofNat_eq_coe]
    exact_mod_cast this
  · rintro ⟨h0, h1⟩
    obtain ⟨k, rfl⟩ := Int.eq_ofNat_of_zero_le h0
    have h2 : k * c < n := by exact_mod_cast h1
    exact ⟨k, List.mem_range.mpr (lt_nchunks_of_mul_lt n c k hpos h2), rfl⟩

theorem memoryMap.request_isSome (mm : memoryMap) (n c k : Nat)
    (hsize : mm.size = (n : Int)) (hchunk : mm.chunk = (c : Int)) (hn : n < 2 ^ 63)
    (hk : k * c < n) : (mm.request (k : Int)).isSome = true := by
  have hoff := wrap64_mul_cast n c k hn hk
  have hleft := wrap64_sub_cast n c k hn hk
  have hl1 : ¬ ((n : Int) - ((k * c : Nat) : Int) < 1) := by
    have : ((k * c : Nat) : Int) < (n : Int) := by exact_mod_cast hk
    omega
  unfold memoryMap.request
  dsimp only
  rw [hsize, hchunk, hoff, hleft, if_neg hl1]
  split_ifs <;> rfl

theorem window_length (f : List Nat) (c o k : Nat) :
    (window f c o k).length = min (c + o) (f.length - k * c) := by
  simp [window]

theorem base_ranges_flatten (c : Nat) (m : Nat) :
    ∀ f : List Nat, f.length ≤ m * c →
      ((List.range m).map (fun i => (f.drop (i * c)).take c)).flatten = f := by
  induction m with
  | zero =>
    intro f hf
    have : f = [] := List.length_eq_zero.mp (by omega)
    subst this
    rfl
  | succ m ih =>
    intro f hf
    rw [List.range_succ_eq_map, List.map_cons, List.map_map, List.flatten_cons]
    have h1 : ((fun i => (List.drop (i * c) f).take c) ∘ Nat.succ) =
        (fun i => (List.drop (i * c) (f.drop c)).take c) := by
      funext i
      simp only [Function.comp_apply, List.drop_drop]
      congr 2
      have : Nat.succ i * c = i * c + c := by rw [Nat.succ_mul]
      omega
    rw [h1, ih (f.drop c) (by
      have : (m + 1) * c = m * c + c := by ring
      simp only [List.length_drop]; omega)]
    simp

theorem memoryMap.window_ne_nil_of_mmap (os : Platform) (mm mm' : memoryMap) (n c o k : Nat)
    (hf : mm.size = (mm.f.length : Int)) (hn : mm.f.length = n) (hchunk : mm.chunk = (c : Int))
    (hover : mm.overlap = (o : Int)) (hpos : 0 < c) (hn63 : n < 2 ^ 63) (hc63 : c < 2 ^ 63)
    (ho63 : o < 2 ^ 63) (hk : k * c < n) (hmm : mm.mmap os (k : Int) = (mm', none)) :
    mm'.b ≠ [] := by
  have hsize : mm.size = (n : Int) := by rw [hf, hn]
  have hsum := memoryMap.no_overflow_of_mmap os mm mm' n c o k hsize hchunk hover hn63 hc63 ho63
    hk hmm
  have hb := memoryMap.mmap_window os mm mm' mm.f c o k rfl hf hchunk hover hpos
    (by rw [hn]; exact hn63) hsum (by rw [hn]; exact hk) hmm
  intro hnil
  have hlen := window_length mm.f c o k
  rw [← hb, hnil, hn] at hlen
  simp only [List.length_nil] at hlen
  have : 1 ≤ min (c + o) (n - k * c) := le_min (by omega) (by omega)
  omega

theorem exists_unique_base_range (n c p : Nat) (hpos : 0 < c) (hp : p < n) :
    ∃! i : Nat, i < (n + c - 1) / c ∧ i * c ≤ p ∧ p < min ((i + 1) * c) n := by
  refine ⟨p / c, ⟨?_, Nat.div_mul_le_self p c, ?_⟩, ?_⟩
  · apply lt_nchunks_of_mul_lt n c _ hpos
    have := Nat.div_mul_le_self p c
    omega
  · apply lt_min _ hp
    rw [Nat.mul_comm]
    exact Nat.lt_mul_div_succ p hpos
  · rintro i ⟨_, h1, h2⟩
    have h3 : p < (i + 1) * c := lt_of_lt_of_le h2 (min_le_left _ _)
    exact (Nat.div_eq_of_lt_le h1 h3).symm

/-- C13. Chunk index generation: for a size of at least 0 and a chunk above 0
with `size + chunk - 1` not overflowing `int64`, the `int64` expression
`(size + chunk - 1) / chunk` is `ceil(size/chunk)`; without cancellation the
generator sends exactly `0, 1, ..., ceil(size/chunk) - 1` in increasing order,
which are exactly the indices `i >= 0` with `i*chunk < size`; for each of them
`mmap` does not take its early return, and a mapping that succeeds is not
empty; every byte position of the file lies in exactly one base range
`[i*chunk, min((i+1)*chunk, size))` of a generated index and the base ranges
in order make up the file; and an empty file generates no index. -/
theorem chunk_index_generation (a : app) (n c : Nat) (hc : a.chunk = (c : Int)) (hpos : 0 < c)
    (hno : n + c ≤ 2 ^ 63) :
    a.nchunks (n : Int) = (((n + c - 1) / c : Nat) : Int) ∧
    (n + c - 1) / c = ⌈(n : ℚ) / (c : ℚ)⌉₊ ∧
    a.indexes (n : Int) = (List.range ⌈(n : ℚ) / (c : ℚ)⌉₊).map Int.ofNat ∧
    (∀ i : Int, i ∈ a.indexes (n : Int) ↔ 0 ≤ i ∧ i * a.chunk < (n : Int)) ∧
    (∀ (mm : memoryMap) (i : Int), mm.size = (n : Int) → mm.chunk = (c : Int) →
      i ∈ a.indexes (n : Int) → (mm.request i).isSome = true) ∧
    (∀ (os : Platform) (mm mm' : memoryMap) (o : Nat) (i : Int),
      mm.size = (mm.f.length : Int) → mm.f.length = n → mm.chunk = (c : Int) →
      mm.overlap = (o : Int) → o < 2 ^ 63 → i ∈ a.indexes (n : Int) →
      mm.mmap os i = (mm', none) → mm'.b ≠ []) ∧
    (∀ p : Nat, p < n →
      ∃! i : Nat, i < (n + c - 1) / c ∧ i * c ≤ p ∧ p < min ((i + 1) * c) n) ∧
    (∀ f : List Nat, f.length = n →
      ((List.range ((n + c - 1) / c)).map (fun i => (f.drop (i * c)).take c)).flatten = f) ∧
    (n = 0 → a.indexes (n : Int) = []) := by
  have hidx := app.indexes_eq a n c hc hpos hno
  have hmem := app.mem_indexes_iff a n c hc hpos hno
  have hkey : ∀ i : Int, i ∈ a.indexes (n : Int) → ∃ k : Nat, i = (k : Int) ∧ k * c < n := by
    intro i hi
    obtain ⟨h0, h1⟩ := (hmem i).mp hi
    obtain ⟨k, rfl⟩ := Int.eq_ofNat_of_zero_le h0
    rw [hc] at h1
    exact ⟨k, rfl, by exact_mod_cast h1⟩
  refine ⟨app.nchunks_eq a n c hc hpos hno, (ceil_div_eq n c hpos).symm, ?_, hmem, ?_, ?_, ?_, ?_,
    ?_⟩
  · rw [hidx, ceil_div_eq n c hpos]
  · intro mm i hsize hchunk hi
    obtain ⟨k, rfl, hk⟩ := hkey i hi
    exact memoryMap.request_isSome mm n c k hsize hchunk (by omega) hk
  · intro os mm mm' o i hf hn hchunk hover ho63 hi hmm
    obtain ⟨k, rfl, hk⟩ := hkey i hi
    exact memoryMap.window_ne_nil_of_mmap os mm mm' n c o k hf hn hchunk hover hpos (by omega)
      (by omega) ho63 hk hmm
  · intro p hp
    exact exists_unique_base_range n c p hpos hp
  · intro f hf
    apply base_ranges_flatten
    rw [hf]
    exact (div_le_iff_le_mul n c _ hpos).mp (le_refl _)
  · intro h0
    subst h0
    rw [hidx]
    have : (0 + c - 1) / c = 0 := by
      apply Nat.div_eq_of_lt
      omega
    rw [this]
    rfl

/-- Witness for C13: a 27-byte file with chunk 16 has the indices 0 and 1. -/
theorem chunk_index_generation_witness :
    (app.mk 16 0 1).indexes 27 = [0, 1] ∧
    (app.mk 16 0 1).nchunks ((27 : Nat) : Int) = (((27 + 16 - 1) / 16 : Nat) : Int) ∧
    (∀ p : Nat, p < 27 →
      ∃! i : Nat, i < (27 + 16 - 1) / 16 ∧ i * 16 ≤ p ∧ p < min ((i + 1) * 16) 27) :=
  ⟨by decide,
    (chunk_index_generation (app.mk 16 0 1) 27 16 rfl (by decide) (by decide)).1,
    (chunk_index_generation (app.mk 16 0 1) 27 16 rfl (by decide) (by decide)).2.2.2.2.2.2.1⟩

/-- C16. No spurious address from chunking, whatever the overlap: for every
file, chunk, overlap, chunk index `k` and context, every value that `writeIPs`
sends for the window `[k*chunk, min(k*chunk+chunk+overlap, size))` of the file
at index `k` is sent by `writeIPs` for the whole file at index 0 under a live
context; a window that starts or ends inside a line never turns a piece of
the line into an address. -/
theorem no_spurious_address_from_window (ctx : Context) (f : List Nat) (chunk overlap k : Nat)
    (v : Nat) (hv : v ∈ writeIPs ctx (window f chunk overlap k) (k : Int)) :
    v ∈ writeIPs Context.background f 0 :=
  mem_writeIPs_of_window f chunk overlap k v ((writeIPs_isPrefix ctx _ _).subset hv)

/-- Witness for C16: the file `11.2.3.4`, newline, `5.6.7.8`, newline, with
chunk 1: the window of chunk 1 starts with the tail `1.2.3.4` of the first
line and gives only 5.6.7.8. -/
theorem no_spurious_address_from_window_witness :
    writeIPs Context.background (window (bytes "11.2.3.4\n5.6.7.8\n") 1 20 1) 1 = [ip 5 6 7 8] ∧
    ip 5 6 7 8 ∈ writeIPs Context.background (bytes "11.2.3.4\n5.6.7.8\n") 0 :=
  ⟨by decide,
    no_spurious_address_from_window Context.background (bytes "11.2.3.4\n5.6.7.8\n") 1 20 1
      (ip 5 6 7 8) (by decide)⟩

theorem writeIPsLoop_eq_trace (fuel : Nat) :
    ∀ (ctx : Context) (k : Nat) (st : PState) (rest : List Nat),
      (∀ j, j < k → ctx j = false) → (ctx k = true ∨ (writeIPsTrace fuel st rest).length ≤ k) →
      writeIPsLoop fuel ctx st rest =
        ((writeIPsTrace fuel st rest).take k).filterMap (fun e => e.2.2) := by
  induction fuel with
  | zero => intro ctx k st rest _ _; simp [writeIPsLoop, writeIPsTrace]
  | succ fuel ih =>
    intro ctx k st rest hlive hk
    cases rest with
    | nil => simp [writeIPsLoop, writeIPsTrace]
    | cons c rest =>
      simp only [writeIPsLoop, writeIPsTrace]
      cases k with
      | zero =>
        rcases hk with hk | hk
        · rw [if_pos hk]; rfl
        · simp [writeIPsTrace] at hk
      | succ k =>
        rw [if_neg (by rw [hlive 0 (Nat.succ_pos k)]; simp)]
        rw [ih ctx.next k _ _ (fun j hj => hlive (j + 1) (by omega))
          (by
            rcases hk with hk | hk
            · exact Or.inl hk
            · right
              simp only [writeIPsTrace, List.length_cons] at hk
              omega)]
        simp only [List.take_succ_cons, List.filterMap_cons]
        cases (writeIPsStep st c rest).1 <;> rfl

theorem writeIPs_eq_iterations (ctx : Context) (b : List Nat) (index : Int) (k : Nat)
    (hlive : ∀ j, j < k → ctx j = false)
    (hk : ctx k = true ∨ (writeIPsIterations b index).length ≤ k) :
    writeIPs ctx b index = ((writeIPsIterations b index).take k).filterMap (fun e => e.2.2) := by
  unfold writeIPs writeIPsIterations at *
  dsimp only at *
  split_ifs at hk ⊢ with h0
  · simp
  · exact writeIPsLoop_eq_trace _ ctx k _ _ hlive hk
  · exact writeIPsLoop_eq_trace _ ctx k _ _ hlive hk

theorem writeIPs_background_eq_iterations (b : List Nat) (index : Int) :
    writeIPs Context.background b index =
      (writeIPsIterations b index).filterMap (fun e => e.2.2) := by
  rw [writeIPs_eq_iterations Context.background b index (writeIPsIterations b index).length
    (fun _ _ => rfl) (Or.inr (le_refl _)), List.take_length]

theorem writeIPsTrace_newline (fuel : Nat) :
    ∀ (st : PState) (rest : List Nat) (e : PState × Nat × Option Nat),
      e ∈ writeIPsTrace fuel st rest → e.2.2 ≠ none → e.2.1 = newLine := by
  induction fuel with
  | zero => intro st rest e he; simp [writeIPsTrace] at he
  | succ fuel ih =>
    intro st rest e he hsome
    cases rest with
    | nil => simp [writeIPsTrace] at he
    | cons c rest =>
      simp only [writeIPsTrace, List.mem_cons] at he
      rcases he with rfl | he
      · by_contra hc
        exact hsome (writeIPsStep_emit_none st c rest hc)
      · exact ih _ _ e he hsome

theorem writeIPsIterations_newline (b : List Nat) (index : Int)
    (e : PState × Nat × Option Nat) (he : e ∈ writeIPsIterations b index) (hsome : e.2.2 ≠ none) :
    e.2.1 = newLine := by
  unfold writeIPsIterations at he
  dsimp only at he
  split_ifs at he with h0
  · simp at he
  · exact writeIPsTrace_newline _ _ _ e he hsome
  · exact writeIPsTrace_newline _ _ _ e he hsome

/-- C15. Cancellation in the parser: when the context is observed live at the
first `k` checks of the main loop and cancelled at the next one, `writeIPs`
sends exactly the values of the first `k` iterations that the loop makes under
a live context, each of which is sent by an iteration that reads a newline;
under a live context it sends the values of all iterations, so the cancelled
output is an initial part of the live one; and with a context that is already
cancelled at the first check nothing is sent. -/
theorem writeIPs_cancellation (ctx : Context) (b : List Nat) (index : Int) (k : Nat)
    (hlive : ∀ j, j < k → ctx j = false) (hk : ctx k = true) :
    writeIPs ctx b index = ((writeIPsIterations b index).take k).filterMap (fun e => e.2.2) ∧
    (∀ e ∈ writeIPsIterations b index, e.2.2 ≠ none → e.2.1 = newLine) ∧
    writeIPs Context.background b index =
      (writeIPsIterations b index).filterMap (fun e => e.2.2) ∧
    writeIPs ctx b index <+: writeIPs Context.background b index ∧
    (k = 0 → writeIPs ctx b index = []) := by
  have h1 := writeIPs_eq_iterations ctx b index k hlive (Or.inl hk)
  refine ⟨h1, writeIPsIterations_newline b index, writeIPs_background_eq_iterations b index,
    writeIPs_isPrefix ctx b index, ?_⟩
  intro h0
  rw [h1, h0]
  rfl

/-- Witness for C15: on the window `1.2.3.4`, newline, `2.3.4.5`, newline, a
context cancelled before the start sends nothing, one cancelled from the
eighth check on (after the first newline was read) sends 1.2.3.4. -/
theorem writeIPs_cancellation_witness :
    writeIPs Context.cancelled (bytes "1.2.3.4\n2.3.4.5\n") 0 = [] ∧
    writeIPs (Context.cancelledFrom 7) (bytes "1.2.3.4\n2.3.4.5\n") 0 = [] ∧
    writeIPs (Context.cancelledFrom 8) (bytes "1.2.3.4\n2.3.4.5\n") 0 = [ip 1 2 3 4] ∧
    writeIPs (Context.cancelledFrom 8) (bytes "1.2.3.4\n2.3.4.5\n") 0 =
      ((writeIPsIterations (bytes "1.2.3.4\n2.3.4.5\n") 0).take 8).filterMap (fun e => e.2.2) :=
  ⟨by decide, by decide, by decide,
    (writeIPs_cancellation (Context.cancelledFrom 8) (bytes "1.2.3.4\n2.3.4.5\n") 0 8
      (by decide) (by decide)).1⟩

theorem PState.init_bounded : PState.init.Bounded := by
  simp [PState.Bounded, PState.init]

theorem writeIPsStep_bounded (st : PState) (c : Nat) (rest : List Nat) (h : st.Bounded) :
    (writeIPsStep st c rest).2.1.Bounded := by
  obtain ⟨a0, a1, a2, n, s⟩ := st
  obtain ⟨h0, h1, h2, hn, hs⟩ := h
  simp only at h0 h1 h2 hn hs
  by_cases hd : zeroChar ≤ c ∧ c ≤ neufChar
  · rw [writeIPsStep_digit _ c rest hd hn]
    split_ifs with hbig
    · exact ⟨h0, h1, h2, Nat.zero_le _, Nat.zero_le _⟩
    · simp only [gt_iff_lt, not_lt] at hbig
      exact ⟨h0, h1, h2, hbig, hs⟩
  · by_cases hdot : c = dotChar
    · subst hdot
      rw [writeIPsStep_dot]
      split_ifs
      · exact ⟨hn, h1, h2, Nat.zero_le _, by norm_num⟩
      · exact ⟨h0, hn, h2, Nat.zero_le _, by norm_num⟩
      · exact ⟨h0, h1, hn, Nat.zero_le _, by norm_num⟩
      · exact ⟨h0, h1, h2, Nat.zero_le _, Nat.zero_le _⟩
    · by_cases hnl : c = newLine
      · subst hnl
        rw [writeIPsStep_newline]
        split_ifs <;> exact ⟨h0, h1, h2, Nat.zero_le _, Nat.zero_le _⟩
      · rw [writeIPsStep_other _ c rest hd hdot hnl]
        exact ⟨h0, h1, h2, Nat.zero_le _, Nat.zero_le _⟩

theorem writeIPsTrace_bounded (fuel : Nat) :
    ∀ (st : PState) (rest : List Nat), st.Bounded →
      ∀ e ∈ writeIPsTrace fuel st rest, e.1.Bounded := by
  induction fuel with
  | zero => intro st rest _ e he; simp [writeIPsTrace] at he
  | succ fuel ih =>
    intro st rest hst e he
    cases rest with
    | nil => simp [writeIPsTrace] at he
    | cons c rest =>
      simp only [writeIPsTrace, List.mem_cons] at he
      rcases he with rfl | he
      · exact hst
      · exact ih _ _ (writeIPsStep_bounded st c rest hst) e he

theorem writeIPsTrace_emit (fuel : Nat) :
    ∀ (st : PState) (rest : List Nat) (e : PState × Nat × Option Nat) (v : Nat),
      e ∈ writeIPsTrace fuel st rest → e.2.2 = some v →
      e.1.segment = 3 ∧
      v = ((e.1.a0 <<< 24) % 2 ^ 32) ||| ((e.1.a1 <<< 16) % 2 ^ 32) |||
        ((e.1.a2 <<< 8) % 2 ^ 32) ||| e.1.number := by
  induction fuel with
  | zero => intro st rest e v he; simp [writeIPsTrace] at he
  | succ fuel ih =>
    intro st rest e v he hv
    cases rest with
    | nil => simp [writeIPsTrace] at he
    | cons c rest =>
      simp only [writeIPsTrace, List.mem_cons] at he
      rcases he with rfl | he
      · simp only at hv ⊢
        by_cases hc : c = newLine
        · subst hc
          rw [writeIPsStep_newline] at hv
          split_ifs at hv with h3
          simp only [Option.some.injEq] at hv
          exact ⟨h3, hv.symm⟩
        · rw [writeIPsStep_emit_none st c rest hc] at hv
          exact absurd hv (by simp)
      · exact ih _ _ e v he hv

theorem writeIPsIterations_subset (b : List Nat) (index : Int) :
    ∃ fuel rest, writeIPsIterations b index = writeIPsTrace fuel PState.init rest := by
  unfold writeIPsIterations
  dsimp only
  split_ifs
  · exact ⟨0, [], rfl⟩
  · exact ⟨_, _, rfl⟩
  · exact ⟨_, _, rfl⟩

theorem encode_eq_add (a0 a1 a2 a3 : Nat) (h1 : a1 ≤ 255) (h2 : a2 ≤ 255)
    (h3 : a3 ≤ 255) :
    (a0 <<< 24) ||| (a1 <<< 16) ||| (a2 <<< 8) ||| a3 =
      a0 * 16777216 + a1 * 65536 + a2 * 256 + a3 := by
  have e3 : 2 ^ 8 * a2 + a3 = 2 ^ 8 * a2 ||| a3 :=
    Nat.mul_add_lt_is_or (by norm_num; omega) a2
  have e2 : 2 ^ 16 * a1 + (2 ^ 8 * a2 + a3) = 2 ^ 16 * a1 ||| (2 ^ 8 * a2 + a3) :=
    Nat.mul_add_lt_is_or (by norm_num; omega) a1
  have e1 : 2 ^ 24 * a0 + (2 ^ 16 * a1 + (2 ^ 8 * a2 + a3)) =
      2 ^ 24 * a0 ||| (2 ^ 16 * a1 + (2 ^ 8 * a2 + a3)) :=
    Nat.mul_add_lt_is_or (by norm_num; omega) a0
  rw [Nat.shiftLeft_eq, Nat.shiftLeft_eq, Nat.shiftLeft_eq, Nat.or_assoc, Nat.or_assoc,
    Nat.mul_comm a2, ← e3, Nat.mul_comm a1, ← e2, Nat.mul_comm a0, ← e1]
  norm_num
  ring

theorem decode_encode (a0 a1 a2 a3 : Nat) (h1 : a1 ≤ 255) (h2 : a2 ≤ 255)
    (h3 : a3 ≤ 255) (v : Nat) (hv : v = (a0 <<< 24) ||| (a1 <<< 16) ||| (a2 <<< 8) ||| a3) :
    v >>> 24 = a0 ∧ (v >>> 16) &&& 255 = a1 ∧ (v >>> 8) &&& 255 = a2 ∧ v &&& 255 = a3 := by
  rw [encode_eq_add a0 a1 a2 a3 h1 h2 h3] at hv
  have hand : ∀ x : Nat, x &&& 255 = x % 256 := by
    intro x
    have := Nat.and_pow_two_sub_one_eq_mod x 8
    simpa using this
  simp only [Nat.shiftRight_eq_div_pow, hand]
  norm_num
  omega

theorem refLine_octets (l : List Nat) (v : Nat) (h : refLine l = some v) :
    ∃ v0 v1 v2 v3 : Nat, (l.splitOn dotChar).map runValue = [v0, v1, v2, v3] ∧
      v0 ≤ 255 ∧ v1 ≤ 255 ∧ v2 ≤ 255 ∧ v3 ≤ 255 ∧
      v = (v0 <<< 24) ||| (v1 <<< 16) ||| (v2 <<< 8) ||| v3 := by
  unfold refLine at h
  dsimp only at h
  split_ifs at h with hall
  have hlen := combine_eq_some_length _ _ h
  rw [List.length_map] at hlen
  match hs : l.splitOn dotChar, hlen with
  | [r0, r1, r2, r3], _ =>
    rw [hs] at hall h
    simp only [List.all_cons, List.all_nil, Bool.and_true, Bool.and_eq_true,
      decide_eq_true_eq, List.all_eq_true] at hall
    simp only [List.map, combine, Option.some.injEq] at h
    exact ⟨runValue r0, runValue r1, runValue r2, runValue r3, rfl, hall.1.2, hall.2.1.2,
      hall.2.2.1.2, hall.2.2.2.2, h.symm⟩

theorem refLine_eq_iff_octets (l l' : List Nat) (v v' : Nat) (h : refLine l = some v)
    (h' : refLine l' = some v') :
    v = v' ↔ (l.splitOn dotChar).map runValue = (l'.splitOn dotChar).map runValue := by
  obtain ⟨a0, a1, a2, a3, e, _, h1, h2, h3, hv⟩ := refLine_octets l v h
  obtain ⟨b0, b1, b2, b3, e', _, k1, k2, k3, hv'⟩ := refLine_octets l' v' h'
  rw [e, e']
  constructor
  · intro hvv
    obtain ⟨d0, d1, d2, d3⟩ := decode_encode a0 a1 a2 a3 h1 h2 h3 v hv
    obtain ⟨c0, c1, c2, c3⟩ := decode_encode b0 b1 b2 b3 k1 k2 k3 v' hv'
    rw [← d0, ← d1, ← d2, ← d3, ← c0, ← c1, ← c2, ← c3, hvv]
  · intro hl
    simp only [List.cons.injEq, and_true] at hl
    obtain ⟨rfl, rfl, rfl, rfl⟩ := hl
    rw [hv, hv']

/-- C18. Octet range and collision-free encoding: in every iteration that
`writeIPs` makes, the stored octets `a0`, `a1`, `a2` and the accumulator
`number` are at most 255 and the dot count at most 3 at the start, and the
value `number*10 + digit` computed for a digit is at most 2559, so the
`uint32` arithmetic never wraps (first part); when a value `v` is sent it is
`(a0<<24)|(a1<<16)|(a2<<8)|number` of four octets of at most 255, which it
determines: `a0 = v>>24`, `a1 = (v>>16)&255`, `a2 = (v>>8)&255`,
`number = v&255` (second part); and two accepted lines have the same value
exactly when their four octet values are equal (third part). -/
theorem octet_range_and_encoding :
    (∀ (b : List Nat) (index : Int), ∀ e ∈ writeIPsIterations b index,
      e.1.a0 ≤ 255 ∧ e.1.a1 ≤ 255 ∧ e.1.a2 ≤ 255 ∧ e.1.number ≤ 255 ∧ e.1.segment ≤ 3 ∧
      (zeroChar ≤ e.2.1 ∧ e.2.1 ≤ neufChar →
        e.1.number * 10 + (e.2.1 - zeroChar) ≤ 2559 ∧
        (e.1.number * 10 + (e.2.1 - zeroChar)) % 2 ^ 32 =
          e.1.number * 10 + (e.2.1 - zeroChar))) ∧
    (∀ (b : List Nat) (index : Int), ∀ e ∈ writeIPsIterations b index, ∀ v : Nat,
      e.2.2 = some v →
        e.1.a0 ≤ 255 ∧ e.1.a1 ≤ 255 ∧ e.1.a2 ≤ 255 ∧ e.1.number ≤ 255 ∧
        v = (e.1.a0 <<< 24) ||| (e.1.a1 <<< 16) ||| (e.1.a2 <<< 8) ||| e.1.number ∧
        v >>> 24 = e.1.a0 ∧ (v >>> 16) &&& 255 = e.1.a1 ∧ (v >>> 8) &&& 255 = e.1.a2 ∧
        v &&& 255 = e.1.number) ∧
    (∀ (l l' : List Nat) (v v' : Nat), refLine l = some v → refLine l' = some v' →
      (v = v' ↔ (l.splitOn dotChar).map runValue = (l'.splitOn dotChar).map runValue)) := by
  have hb : ∀ (b : List Nat) (index : Int), ∀ e ∈ writeIPsIterations b index, e.1.Bounded := by
    intro b index e he
    obtain ⟨fuel, rest, heq⟩ := writeIPsIterations_subset b index
    rw [heq] at he
    exact writeIPsTrace_bounded fuel _ _ PState.init_bounded e he
  refine ⟨?_, ?_, refLine_eq_iff_octets⟩
  · intro b index e he
    obtain ⟨h0, h1, h2, hn, hs⟩ := hb b index e he
    refine ⟨h0, h1, h2, hn, hs, ?_⟩
    intro hd
    have h9 := digit_sub_le e.2.1 hd
    have hle : e.1.number * 10 + (e.2.1 - zeroChar) ≤ 2559 := by omega
    refine ⟨hle, Nat.mod_eq_of_lt ?_⟩
    calc e.1.number * 10 + (e.2.1 - zeroChar) ≤ 2559 := hle
      _ < 2 ^ 32 := by norm_num
  · intro b index e he v hv
    obtain ⟨h0, h1, h2, hn, _⟩ := hb b index e he
    obtain ⟨fuel, rest, heq⟩ := writeIPsIterations_subset b index
    rw [heq] at he
    obtain ⟨_, hval⟩ := writeIPsTrace_emit fuel _ _ e v he hv
    rw [shl_mod _ 24 h0 (by norm_num), shl_mod _ 16 h1 (by norm_num),
      shl_mod _ 8 h2 (by norm_num)] at hval
    obtain ⟨d0, d1, d2, d3⟩ := decode_encode _ _ _ _ h1 h2 hn v hval
    exact ⟨h0, h1, h2, hn, hval, d0, d1, d2, d3⟩

/-- The iterations on the window `1.2.3.4`, newline: eight of them, the last
one sends 1.2.3.4. -/
theorem writeIPsIterations_example :
    (writeIPsIterations (bytes "1.2.3.4\n") 0).map (fun e => e.2.2) =
      [none, none, none, none, none, none, none, some (ip 1 2 3 4)] := by
  decide

theorem length_flatten_replicate (n : Nat) (l : List Nat) :
    ((List.replicate n l).flatten).length = n * l.length := by
  induction n with
  | zero => simp
  | succ n ih =>
    rw [List.replicate_succ, List.flatten_cons, List.length_append, ih]
    ring

theorem filterMap_refLine_replicate (n : Nat) (l : List Nat) (v : Nat)
    (h : refLine l = some v) :
    (List.replicate n l).filterMap refLine = List.replicate n v := by
  induction n with
  | zero => rfl
  | succ n ih => rw [List.replicate_succ, List.filterMap_cons, h, ih, List.replicate_succ]

theorem boundaryFile_page_length :
    ((List.replicate 256 (bytes "100.100.100.100\n")).flatten).length = 4096 := by
  rw [length_flatten_replicate]
  decide

theorem boundaryFile_length : boundaryFile.length = 4112 := by
  unfold boundaryFile
  rw [List.length_append, boundaryFile_page_length]
  decide

theorem boundaryFile_eq_lines :
    boundaryFile =
      ((List.replicate 256 (bytes "100.100.100.100") ++ [bytes "255.255.255.255"]).map
        (fun l => l ++ [newLine])).flatten ++ [] := by
  unfold boundaryFile
  rw [List.append_nil, List.map_append, List.flatten_append, List.map_replicate]
  rfl

theorem boundaryFile_whole :
    writeIPs Context.background boundaryFile 0 =
      List.replicate 256 (ip 100 100 100 100) ++ [ip 255 255 255 255] := by
  rw [boundaryFile_eq_lines, writeIPs_lines _ _ (by
    intro l hl
    rcases List.mem_append.mp hl with h | h
    · rw [List.eq_of_mem_replicate h]; decide
    · rw [List.mem_singleton.mp h]; decide) (by simp)]
  have h1 : refLine (bytes "100.100.100.100") = some (ip 100 100 100 100) := by decide
  have h2 : [bytes "255.255.255.255"].filterMap refLine = [ip 255 255 255 255] := by decide
  rw [List.filterMap_append, h2, filterMap_refLine_replicate 256 _ _ h1]

theorem boundaryFile_window_zero :
    writeIPs Context.background (window boundaryFile 4096 14 0) 0 =
      List.replicate 256 (ip 100 100 100 100) := by
  have hw : window boundaryFile 4096 14 0 =
      ((List.replicate 256 (bytes "100.100.100.100")).map (fun l => l ++ [newLine])).flatten ++
        bytes "255.255.255.25" := by
    unfold window boundaryFile
    rw [Nat.zero_mul, List.drop_zero, List.take_append_eq_append_take,
      List.take_of_length_le (by rw [boundaryFile_page_length]; norm_num),
      boundaryFile_page_length, List.map_replicate]
    rfl
  rw [hw, writeIPs_lines _ _ (by
    intro l hl
    rw [List.eq_of_mem_replicate hl]; decide) (by decide)]
  have h1 : refLine (bytes "100.100.100.100") = some (ip 100 100 100 100) := by decide
  rw [filterMap_refLine_replicate 256 _ _ h1]

theorem boundaryFile_window_one :
    window boundaryFile 4096 14 1 = bytes "255.255.255.255\n" ∧
    writeIPs Context.background (window boundaryFile 4096 14 1) 1 = [] := by
  have hw : window boundaryFile 4096 14 1 = bytes "255.255.255.255\n" := by
    unfold window boundaryFile
    rw [Nat.one_mul, List.drop_append_of_le_length (by rw [boundaryFile_page_length]),
      List.drop_of_length_le (by rw [boundaryFile_page_length]), List.nil_append]
    decide
  refine ⟨hw, ?_⟩
  rw [hw]
  decide

theorem boundaryFile_window_beyond (k : Nat) (hk : 2 ≤ k) :
    window boundaryFile 4096 14 k = [] := by
  unfold window
  rw [List.drop_of_length_le (by rw [boundaryFile_length]; omega)]
  rfl

theorem terminatedLines_lines (ls : List (List Nat)) (t : List Nat)
    (hls : ∀ l ∈ ls, newLine ∉ l) (ht : newLine ∉ t) :
    terminatedLines ((ls.map (fun l => l ++ [newLine])).flatten ++ t) = ls := by
  induction ls with
  | nil => simpa using terminatedLines_of_not_mem t ht
  | cons l ls ih =>
    simp only [List.map_cons, List.flatten_cons, List.append_assoc, List.singleton_append,
      List.cons_append]
    rw [terminatedLines_append l _ (hls l (List.mem_cons_self _ _)), List.nil_append,
      ih (fun l' hl' => hls l' (List.mem_cons_of_mem _ hl'))]

theorem boundaryFile_lines :
    terminatedLines boundaryFile =
      List.replicate 256 (bytes "100.100.100.100") ++ [bytes "255.255.255.255"] := by
  rw [boundaryFile_eq_lines]
  apply terminatedLines_lines
  · intro l hl
    rcases List.mem_append.mp hl with h | h
    · rw [List.eq_of_mem_replicate h]; decide
    · rw [List.mem_singleton.mp h]; decide
  · simp

theorem memoryMap.mmap_of_request (os : Platform) (mm : memoryMap) (i off len : Int)
    (hreq : mm.request i = some (off, len)) (hlen : 0 < len) (hoff : 0 ≤ off)
    (hos : os off len = none) :
    mm.mmap os i = ({ mm with b := (mm.f.drop off.toNat).take len.toNat }, none) := by
  unfold memoryMap.mmap
  rw [hreq]
  dsimp only
  unfold sysMmap
  rw [if_neg (by omega), if_neg (by omega), hos]

theorem dedup_replicate_succ (n v : Nat) : (List.replicate (n + 1) v).dedup = [v] := by
  induction n with
  | zero => rfl
  | succ n ih =>
    rw [List.replicate_succ, List.dedup_cons_of_mem (by simp), ih]

theorem boundaryFile_drop : boundaryFile.drop 4096 = bytes "255.255.255.255\n" := by
  unfold boundaryFile
  rw [List.drop_append_of_le_length (by rw [boundaryFile_page_length]),
    List.drop_of_length_le (by rw [boundaryFile_page_length]), List.nil_append]

theorem boundaryFile_request (b : List Nat) (i : Int) :
    (memoryMap.mk boundaryFile 4112 4096 14 b).request i =
      (memoryMap.mk [] 4112 4096 14 []).request i := rfl

theorem boundaryFile_mmap_zero (b : List Nat) :
    (memoryMap.mk boundaryFile 4112 4096 14 b).mmap (Platform.paged 4096) 0 =
      (memoryMap.mk boundaryFile 4112 4096 14 (window boundaryFile 4096 14 0), none) := by
  have hreq : (memoryMap.mk boundaryFile 4112 4096 14 b).request 0 = some (0, 4110) := by
    rw [boundaryFile_request]; decide
  rw [memoryMap.mmap_of_request (Platform.paged 4096) _ 0 0 4110 hreq (by decide) (by decide)
    (by decide)]
  have e1 : (0 : Int).toNat = 0 := rfl
  have e2 : (4110 : Int).toNat = 4096 + 14 := rfl
  simp only [e1, e2, window, Nat.zero_mul]

theorem boundaryFile_mmap_one (b : List Nat) :
    (memoryMap.mk boundaryFile 4112 4096 14 b).mmap (Platform.paged 4096) 1 =
      (memoryMap.mk boundaryFile 4112 4096 14 (window boundaryFile 4096 14 1), none) := by
  have hreq : (memoryMap.mk boundaryFile 4112 4096 14 b).request 1 = some (4096, 16) := by
    rw [boundaryFile_request]; decide
  rw [memoryMap.mmap_of_request (Platform.paged 4096) _ 1 4096 16 hreq (by decide) (by decide)
    (by decide)]
  have e1 : (4096 : Int).toNat = 4096 := rfl
  have e2 : (16 : Int).toNat = 16 := rfl
  have e3 : (bytes "255.255.255.255\n").take 16 = bytes "255.255.255.255\n" := by decide
  simp only [e1, e2, boundaryFile_window_one.1, boundaryFile_drop, e3]

theorem boundaryFile_worker :
    app.worker (Platform.paged 4096) ((app.mk 4096 14 1).newMap boundaryFile 4112) [0, 1] =
      (List.replicate 256 (ip 100 100 100 100), none) := by
  have e0 := boundaryFile_mmap_zero []
  rw [show (app.mk 4096 14 1).newMap boundaryFile 4112 = memoryMap.mk boundaryFile 4112 4096 14 []
    from rfl]
  rw [app.worker_cons_ok _ _ _ 0 [1] e0,
    app.worker_cons_ok _ _ _ 1 [] (boundaryFile_mmap_one _)]
  simp only [boundaryFile_window_zero, boundaryFile_window_one.2, app.worker, List.append_nil]

theorem boundaryFile_results :
    (app.mk 4096 14 1).workerResults (Platform.paged 4096) boundaryFile 4112
        ⟨[[0, 1]], List.replicate 256 (ip 100 100 100 100)⟩ =
      [(List.replicate 256 (ip 100 100 100 100), none)] := by
  simp only [app.workerResults, List.map_cons, List.map_nil, boundaryFile_worker]

theorem boundaryFile_not_mem (k : Nat) :
    ip 255 255 255 255 ∉
      writeIPs Context.background (window boundaryFile 4096 14 k) (k : Int) := by
  obtain _ | _ | k := k
  · rw [Nat.cast_zero, boundaryFile_window_zero]
    intro h
    exact absurd (List.eq_of_mem_replicate h) (by decide)
  · have := boundaryFile_window_one.2
    simp only [Nat.zero_add, Nat.cast_one]
    rw [this]
    simp
  · rw [boundaryFile_window_beyond (k + 1 + 1) (by omega)]
    simp [writeIPs]

theorem boundaryFile_distinct :
    (writeIPs Context.background boundaryFile 0).dedup.length = 2 := by
  rw [boundaryFile_whole,
    dedup_length_eq_of_mem_iff _ [ip 100 100 100 100, ip 255 255 255 255] (by
      intro x
      simp only [List.mem_append, List.mem_replicate, List.mem_singleton, List.mem_cons,
        List.not_mem_nil, or_false]
      constructor
      · rintro (⟨_, h⟩ | h)
        · exact Or.inl h
        · exact Or.inr h
      · rintro (h | h)
        · exact Or.inl ⟨by norm_num, h⟩
        · exact Or.inr h)]
  decide

/-- C17 fails on the code. With the default overlap of 14 and a chunk of one
4096-byte page, the 4112-byte file of 256 lines `100.100.100.100` followed by
`255.255.255.255` has only canonical lines of 16 bytes; the last line starts
at the boundary of chunk 1, the window of chunk 0 ends two bytes before its
newline and chunk 1 skips it as its leading line. So 255.255.255.255, which
the whole file gives, is given by the window of no chunk, and the run with one
worker on a platform with 4096-byte pages returns the count 1 where the file
has 2 distinct addresses. -/
theorem default_overlap_loses_boundary_line :
    boundaryFile.length = 4112 ∧
    (∀ l ∈ terminatedLines boundaryFile, l.length + 1 = 16 ∧ strictLine l = true) ∧
    ip 255 255 255 255 ∈ writeIPs Context.background boundaryFile 0 ∧
    (writeIPs Context.background boundaryFile 0).dedup.length = 2 ∧
    (∀ k : Nat, ip 255 255 255 255 ∉
      writeIPs Context.background (window boundaryFile 4096 14 k) (k : Int)) ∧
    Schedule.Complete (Platform.paged 4096) (app.mk 4096 14 1) boundaryFile 4112
      ⟨[[0, 1]], List.replicate 256 (ip 100 100 100 100)⟩ ∧
    (∀ r ∈ (app.mk 4096 14 1).workerResults (Platform.paged 4096) boundaryFile 4112
      ⟨[[0, 1]], List.replicate 256 (ip 100 100 100 100)⟩, r.2 = none) ∧
    (app.mk 4096 14 1).run (Platform.paged 4096) boundaryFile 4112
      ⟨[[0, 1]], List.replicate 256 (ip 100 100 100 100)⟩ = some (1, none) := by
  have h32 : ∀ v ∈ List.replicate 256 (ip 100 100 100 100), v < 2 ^ 32 := by
    intro v hv
    rw [List.eq_of_mem_replicate hv]
    decide
  refine ⟨boundaryFile_length, ?_, ?_, boundaryFile_distinct, boundaryFile_not_mem, ?_, ?_, ?_⟩
  · intro l hl
    rw [boundaryFile_lines] at hl
    rcases List.mem_append.mp hl with h | h
    · rw [List.eq_of_mem_replicate h]; decide
    · rw [List.mem_singleton.mp h]; decide
  · rw [boundaryFile_whole]
    exact List.mem_append_right _ (List.mem_singleton.mpr rfl)
  · refine ⟨by decide, by decide, ?_⟩
    rw [boundaryFile_results]
    simp only [List.map_cons, List.map_nil, List.flatten_cons, List.flatten_nil,
      List.append_nil]
    exact List.Perm.refl _
  · intro r hr
    rw [boundaryFile_results] at hr
    rw [List.mem_singleton.mp hr]
  · obtain ⟨s, hs, hcount⟩ := ipv4Set.count_addAll Words _ h32
      (fun v hv => shiftRight_lt_Words v (h32 v hv))
    have hs' : newIPv4Set.addAll (List.replicate 256 (ip 100 100 100 100)) = some s := hs
    unfold app.run
    dsimp only
    rw [hs', boundaryFile_results, Option.map_some', hcount, dedup_replicate_succ 255]
    rfl

theorem refLine_length_le (l : List Nat) (h : (refLine l).isSome = true)
    (hr : ∀ r ∈ l.splitOn dotChar, r.length ≤ 3) : l.length + 1 ≤ 16 := by
  obtain ⟨v, hv⟩ := Option.isSome_iff_exists.mp h
  unfold refLine at hv
  dsimp only at hv
  split_ifs at hv with hall
  have hlen := combine_eq_some_length _ _ hv
  rw [List.length_map] at hlen
  have hl := List.intercalate_splitOn l dotChar
  match hs : l.splitOn dotChar, hlen with
  | [r0, r1, r2, r3], _ =>
    rw [hs] at hl hr
    have h0 := hr r0 (by simp)
    have h1 := hr r1 (by simp)
    have h2 := hr r2 (by simp)
    have h3 := hr r3 (by simp)
    rw [← hl]
    simp only [List.intercalate, List.intersperse, List.flatten, List.length_append,
      List.length_cons, List.length_nil]
    omega

/-- C14, as stated, fails: the parser accepts digit runs of any length when
they start with zeros, so 16 bytes is not the longest accepted line. The
22-byte file with the single line `000000000000001.2.3.4` gives 1.2.3.4 when
parsed whole, but with chunk 4 and overlap 16 the window of chunk 0 ends
before the newline and every later chunk skips the line as its leading line:
no chunk gives the address. -/
theorem long_line_lost_with_overlap_sixteen :
    refLine (bytes "000000000000001.2.3.4") = some (ip 1 2 3 4) ∧
    (bytes "000000000000001.2.3.4\n").length = 22 ∧
    writeIPs Context.background (bytes "000000000000001.2.3.4\n") 0 = [ip 1 2 3 4] ∧
    (∀ k : Nat,
      writeIPs Context.background (window (bytes "000000000000001.2.3.4\n") 4 16 k) (k : Int)
        = []) ∧
    ¬ (∀ v ∈ writeIPs Context.background (bytes "000000000000001.2.3.4\n") 0,
        ∃ k : Nat,
          v ∈ writeIPs Context.background
            (window (bytes "000000000000001.2.3.4\n") 4 16 k) (k : Int)) := by
  have hall : ∀ k : Nat,
      writeIPs Context.background (window (bytes "000000000000001.2.3.4\n") 4 16 k) (k : Int)
        = [] := by
    intro k
    by_cases hk : k < 6
    · interval_cases k <;> decide
    · have hw : window (bytes "000000000000001.2.3.4\n") 4 16 k = [] := by
        unfold window
        rw [List.drop_of_length_le (by
          have : (bytes "000000000000001.2.3.4\n").length = 22 := by decide
          rw [this]; omega)]
        rfl
      rw [hw]
      rfl
  refine ⟨by decide, by decide, by decide, hall, ?_⟩
  intro h
  obtain ⟨k, hk⟩ := h (ip 1 2 3 4) (by decide)
  rw [hall k] at hk
  exact absurd hk (List.not_mem_nil _)

/-- C14, amended. An overlap of at least 16 bytes is enough for every file
whose accepted lines are at most 16 bytes long with their newline, which holds
in particular for an accepted line whose digit runs have at most three digits
each: for every such file, every chunk above 0 and every overlap of at least
16, every address that `writeIPs` sends for the whole file at index 0 is sent
by `writeIPs` on the window of some chunk `k` below `ceil(size/chunk)` at
index `k`. -/
theorem overlap_sixteen_suffices_for_short_lines (f : List Nat) (chunk overlap : Nat)
    (hchunk : 0 < chunk) (hover : 16 ≤ overlap)
    (hshort : ∀ l ∈ terminatedLines f, (refLine l).isSome = true →
      l.length + 1 ≤ 16 ∨ ∀ r ∈ l.splitOn dotChar, r.length ≤ 3)
    (v : Nat) (hv : v ∈ writeIPs Context.background f 0) :
    ∃ k : Nat, k < (f.length + chunk - 1) / chunk ∧ k * chunk < f.length ∧
      v ∈ writeIPs Context.background (window f chunk overlap k) (k : Int) := by
  obtain ⟨k, h1, h2, h3, _⟩ := exists_chunk_of_mem_writeIPs f chunk overlap hchunk
    (fun l hl hsome => by
      rcases hshort l hl hsome with h | h
      · omega
      · have := refLine_length_le l hsome h
        omega) v hv
  exact ⟨k, h1, h2, h3⟩

/-- Witness for C14 amended: three lines `255.255.255.255` of 16 bytes each,
chunk 5, overlap 16; the line of 16 bytes is accepted. -/
theorem overlap_sixteen_suffices_for_short_lines_witness :
    refLine (bytes "255.255.255.255") = some (ip 255 255 255 255) ∧
    (bytes "255.255.255.255\n").length = 16 ∧
    ∃ k : Nat, k < (48 + 5 - 1) / 5 ∧ k * 5 < 48 ∧
      ip 255 255 255 255 ∈ writeIPs Context.background
        (window (bytes "255.255.255.255\n255.255.255.255\n255.255.255.255\n") 5 16 k) (k : Int) :=
  ⟨by decide, by decide,
    overlap_sixteen_suffices_for_short_lines
      (bytes "255.255.255.255\n255.255.255.255\n255.255.255.255\n") 5 16 (by decide) (by decide)
      (by decide) (ip 255 255 255 255) (by decide)⟩

theorem memoryMap.request_congr (mm1 mm2 : memoryMap) (i : Int) (h2 : mm1.size = mm2.size)
    (h3 : mm1.chunk = mm2.chunk) (h4 : mm1.overlap = mm2.overlap) :
    mm1.request i = mm2.request i := by
  unfold memoryMap.request
  rw [h2, h3, h4]

theorem memoryMap.mmap_snd_congr (os : Platform) (mm1 mm2 : memoryMap) (i : Int)
    (h1 : mm1.f = mm2.f) (h2 : mm1.size = mm2.size) (h3 : mm1.chunk = mm2.chunk)
    (h4 : mm1.overlap = mm2.overlap) : (mm1.mmap os i).2 = (mm2.mmap os i).2 := by
  unfold memoryMap.mmap
  rw [memoryMap.request_congr mm1 mm2 i h2 h3 h4, h1]
  cases mm2.request i with
  | none => rfl
  | some p =>
    dsimp only
    cases sysMmap os mm2.f p.1 p.2 <;> rfl

theorem app.workerCtx_err (os : Platform) (mm0 : memoryMap) (w : List (Int × Context)) :
    ∀ mm : memoryMap, mm.f = mm0.f → mm.size = mm0.size → mm.chunk = mm0.chunk →
      mm.overlap = mm0.overlap →
      (app.workerCtx os mm w).2 = w.findSome? (fun ic => (mm0.mmap os ic.1).2) := by
  induction w with
  | nil => intro mm _ _ _ _; rfl
  | cons ic rest ih =>
    intro mm h1 h2 h3 h4
    have hc := memoryMap.mmap_snd_congr os mm mm0 ic.1 h1 h2 h3 h4
    obtain ⟨mm', e, hmm⟩ : ∃ mm' e, mm.mmap os ic.1 = (mm', e) := ⟨_, _, rfl⟩
    rw [hmm] at hc
    simp only at hc
    simp only [app.workerCtx, hmm, List.findSome?_cons, ← hc]
    cases e with
    | some e => rfl
    | none =>
      obtain ⟨f1, f2, f3, f4⟩ := memoryMap.mmap_fields os mm mm' _ _ hmm
      exact ih mm' (by rw [f1, h1]) (by rw [f2, h2]) (by rw [f3, h3]) (by rw [f4, h4])

theorem app.worker_eq_workerCtx (os : Platform) (w : List Int) :
    ∀ mm : memoryMap,
      app.worker os mm w = app.workerCtx os mm (w.map (fun i => (i, Context.background))) := by
  induction w with
  | nil => intro mm; rfl
  | cons i rest ih =>
    intro mm
    obtain ⟨mm', e, hmm⟩ : ∃ mm' e, mm.mmap os i = (mm', e) := ⟨_, _, rfl⟩
    cases e with
    | some e => simp only [app.worker, app.workerCtx, List.map_cons, hmm]
    | none => simp only [app.worker, app.workerCtx, List.map_cons, hmm, ih mm']

theorem app.run_eq_runCtx (os : Platform) (a : app) (f : List Nat) (size : Int)
    (sch : Schedule) : a.run os f size sch = a.runCtx os f size sch.toCtx := by
  unfold app.run app.runCtx app.workerResults app.ctxResults Schedule.toCtx
  simp only [List.map_map]
  have : (app.workerCtx os (a.newMap f size) ∘ fun w => w.map (fun i => (i, Context.background)))
      = app.worker os (a.newMap f size) := by
    funext w
    exact (app.worker_eq_workerCtx os w _).symm
  rw [this]

theorem app.workerCtx_lt (os : Platform) (w : List (Int × Context)) :
    ∀ mm : memoryMap, ∀ v ∈ (app.workerCtx os mm w).1, v < 2 ^ 32 := by
  induction w with
  | nil => intro mm v hv; simp [app.workerCtx] at hv
  | cons ic rest ih =>
    intro mm v hv
    obtain ⟨mm', e, hmm⟩ : ∃ mm' e, mm.mmap os ic.1 = (mm', e) := ⟨_, _, rfl⟩
    cases e with
    | some e => simp [app.workerCtx, hmm] at hv
    | none =>
      simp only [app.workerCtx, hmm, List.mem_append] at hv
      rcases hv with hv | hv
      · exact writeIPs_lt _ _ _ v hv
      · exact ih mm' v hv

theorem findSome_ne_none_iff {α β : Type} (g : α → Option β) (l : List α) :
    l.findSome? g ≠ none ↔ ∃ x ∈ l, g x ≠ none := by
  induction l with
  | nil => simp
  | cons x l ih =>
    rw [List.findSome?_cons]
    cases h : g x with
    | some y => simp [h]
    | none => simp [h, ih]

theorem filterMap_snd_ne_nil_iff (rs : List (List Nat × Option Errno)) :
    rs.filterMap (fun r => r.2) ≠ [] ↔ ∃ r ∈ rs, r.2 ≠ none := by
  induction rs with
  | nil => simp
  | cons r rs ih =>
    rw [List.filterMap_cons]
    cases h : r.2 with
    | some y => simp [h]
    | none => simp [h, ih]

theorem app.ctxResults_arrival_lt (os : Platform) (a : app) (f : List Nat) (size : Int)
    (sch : CtxSchedule) (hsent : sch.Sent os a f size) : ∀ v ∈ sch.arrival, v < 2 ^ 32 := by
  intro v hv
  have hv' := hsent.subset hv
  obtain ⟨l, hl, hvl⟩ := List.mem_flatten.1 hv'
  obtain ⟨r, hr, rfl⟩ := List.mem_map.1 hl
  unfold app.ctxResults at hr
  obtain ⟨w, _, rfl⟩ := List.mem_map.1 hr
  exact app.workerCtx_lt os w _ v hvl

theorem app.runCtx_eq (os : Platform) (a : app) (f : List Nat) (size : Int)
    (sch : CtxSchedule) (s : ipv4Set) (hs : newIPv4Set.addAll sch.arrival = some s) :
    a.runCtx os f size sch = some (s.count,
      if (a.ctxResults os f size sch).filterMap (fun r => r.2) = [] then none
      else some ((a.ctxResults os f size sch).filterMap (fun r => r.2))) := by
  unfold app.runCtx
  dsimp only
  rw [hs, Option.map_some']
  by_cases h : (a.ctxResults os f size sch).filterMap (fun r => r.2) = []
  · simp [h]
  · simp [h]

/-- C11. Error aggregation in `app.run`, in the model where each worker ends
with an optional error and may stop early on cancellation. Under any schedule
in which the aggregator receives what the workers sent: a worker's error is
the error of the first failing `mmap` among the indices it took, so a worker
that stops on cancellation or on the closed queue without a failed `mmap` ends
with nil (first part); `ipSet.add` never panics, the returned count is the
bitmap's count of the values received, that is the number of distinct ones,
whether or not there is an error, and the returned error is nil when no worker
error is non-nil and otherwise built from the list of all of them (second
part); that list is non-empty exactly when some `mmap` call of some worker
failed (third part), and it holds every non-nil worker error, one entry per
failed worker (fourth and fifth part). The run under a live context is the
special case with the background context (last part). -/
theorem run_error_aggregation (os : Platform) (a : app) (f : List Nat) (size : Int)
    (sch : CtxSchedule) (hsent : sch.Sent os a f size) :
    (∀ w ∈ sch.work, (app.workerCtx os (a.newMap f size) w).2 =
      w.findSome? (fun ic => ((a.newMap f size).mmap os ic.1).2)) ∧
    (∃ s, newIPv4Set.addAll sch.arrival = some s ∧ s.count = sch.arrival.dedup.length ∧
      a.runCtx os f size sch = some (s.count,
        if (a.ctxResults os f size sch).filterMap (fun r => r.2) = [] then none
        else some ((a.ctxResults os f size sch).filterMap (fun r => r.2)))) ∧
    ((a.ctxResults os f size sch).filterMap (fun r => r.2) ≠ [] ↔
      ∃ w ∈ sch.work, ∃ ic ∈ w, ((a.newMap f size).mmap os ic.1).2 ≠ none) ∧
    (∀ e, e ∈ (a.ctxResults os f size sch).filterMap (fun r => r.2) ↔
      ∃ r ∈ a.ctxResults os f size sch, r.2 = some e) ∧
    ((a.ctxResults os f size sch).filterMap (fun r => r.2)).length =
      ((a.ctxResults os f size sch).filter (fun r => r.2.isSome)).length ∧
    (∀ sch0 : Schedule, a.run os f size sch0 = a.runCtx os f size sch0.toCtx) := by
  have hw : ∀ w, (app.workerCtx os (a.newMap f size) w).2 =
      w.findSome? (fun ic => ((a.newMap f size).mmap os ic.1).2) :=
    fun w => app.workerCtx_err os (a.newMap f size) w (a.newMap f size) rfl rfl rfl rfl
  refine ⟨fun w _ => hw w, ?_, ?_, ?_, ?_, fun sch0 => app.run_eq_runCtx os a f size sch0⟩
  · have h32 := app.ctxResults_arrival_lt os a f size sch hsent
    obtain ⟨s, hs, hc⟩ := ipv4Set.count_addAll Words sch.arrival h32
      (fun v hv => shiftRight_lt_Words v (h32 v hv))
    exact ⟨s, hs, hc, app.runCtx_eq os a f size sch s hs⟩
  · rw [filterMap_snd_ne_nil_iff]
    constructor
    · rintro ⟨r, hr, hne⟩
      simp only [app.ctxResults, List.mem_map] at hr
      obtain ⟨w, hwm, rfl⟩ := hr
      rw [hw w] at hne
      exact ⟨w, hwm, (findSome_ne_none_iff _ w).1 hne⟩
    · rintro ⟨w, hwm, hex⟩
      refine ⟨app.workerCtx os (a.newMap f size) w, ?_, ?_⟩
      · simp only [app.ctxResults, List.mem_map]
        exact ⟨w, hwm, rfl⟩
      · rw [hw w]
        exact (findSome_ne_none_iff _ w).2 hex
  · intro e
    simp only [List.mem_filterMap]
  · generalize a.ctxResults os f size sch = rs
    induction rs with
    | nil => rfl
    | cons r rs ih =>
      rw [List.filterMap_cons, List.filter_cons]
      cases h : r.2 with
      | some y => simp [ih]
      | none => simp [ih]

/-- The scenario of `TestAppRun_ReturnsError_OnMmapFailure` scaled down to pages
of 16 bytes: the chunk of 11 bytes is not page-aligned, one worker maps chunk 0
and sends its three addresses, the other fails on chunk 1 with `EINVAL`; the
run returns the count 1 and the error. -/
theorem run_error_aggregation_witness :
    (CtxSchedule.mk [[(0, Context.background)], [(1, Context.background)]]
        [ip 10 0 0 1, ip 10 0 0 1, ip 10 0 0 1]).Sent (Platform.paged 16) (app.mk 11 16 2)
      (bytes "10.0.0.1\n10.0.0.1\n10.0.0.1\n10.0.0.1\n") 36 ∧
    (app.mk 11 16 2).runCtx (Platform.paged 16)
      (bytes "10.0.0.1\n10.0.0.1\n10.0.0.1\n10.0.0.1\n") 36
      (CtxSchedule.mk [[(0, Context.background)], [(1, Context.background)]]
        [ip 10 0 0 1, ip 10 0 0 1, ip 10 0 0 1]) = some (1, some [EINVAL]) := by
  have hres : (app.mk 11 16 2).ctxResults (Platform.paged 16)
      (bytes "10.0.0.1\n10.0.0.1\n10.0.0.1\n10.0.0.1\n") 36
      (CtxSchedule.mk [[(0, Context.background)], [(1, Context.background)]]
        [ip 10 0 0 1, ip 10 0 0 1, ip 10 0 0 1]) =
      [([ip 10 0 0 1, ip 10 0 0 1, ip 10 0 0 1], none), ([], some EINVAL)] := by decide
  have hsent : (CtxSchedule.mk [[(0, Context.background)], [(1, Context.background)]]
        [ip 10 0 0 1, ip 10 0 0 1, ip 10 0 0 1]).Sent (Platform.paged 16) (app.mk 11 16 2)
      (bytes "10.0.0.1\n10.0.0.1\n10.0.0.1\n10.0.0.1\n") 36 := by
    unfold CtxSchedule.Sent
    rw [hres]
    exact List.Perm.refl _
  refine ⟨hsent, ?_⟩
  obtain ⟨_, ⟨s, _, hc, hrun⟩, _⟩ := run_error_aggregation _ _ _ _ _ hsent
  rw [hrun, hc, hres]
  decide

/-- C10, amended. Mapping past the end of the file: for every state of the
mapper, every platform and every index whose offset `index*chunk` is at or
beyond the size of the file (and inside `int64`), `mmap(index)` makes no
system call, returns a nil error and leaves the mapper as it was, window
included (first and second part); so on a mapper whose window is empty before
the call, as a fresh one is, the window is empty afterwards and the parser run
on it sends nothing, under every context and at every index (third part). The
generator of `app.run` never produces such an index (last part). -/
theorem mmap_past_end_leaves_mapper_unchanged (os : Platform) (mm : memoryMap) (index : Int)
    (hsize : 0 ≤ mm.size) (hoff : mm.size ≤ index * mm.chunk)
    (hmul : index * mm.chunk < 2 ^ 63) :
    mm.request index = none ∧
    mm.mmap os index = (mm, none) ∧
    (mm.b = [] → (mm.mmap os index).1.b = [] ∧
      ∀ (ctx : Context) (i : Int), writeIPs ctx (mm.mmap os index).1.b i = []) ∧
    (∀ (a : app) (n c : Nat), a.chunk = (c : Int) → 0 < c → n + c ≤ 2 ^ 63 →
      mm.size = (n : Int) → mm.chunk = (c : Int) → index ∉ a.indexes (n : Int)) := by
  have hreq := memoryMap.request_past_end mm index hsize hoff hmul
  have hmm := memoryMap.mmap_of_request_none os mm index hreq
  refine ⟨hreq, hmm, ?_, ?_⟩
  · intro hb
    rw [hmm]
    refine ⟨hb, fun ctx i => ?_⟩
    show writeIPs ctx mm.b i = []
    rw [hb]
    rfl
  · intro a n c hc hpos hno hn hchunk hi
    obtain ⟨_, h1⟩ := (app.mem_indexes_iff a n c hc hpos hno index).mp hi
    rw [hc, ← hchunk, ← hn] at h1
    omega

/-- Witness for C10 amended, the repository test scaled down: a fresh mapper of
a 16-byte file with chunk 16, called at index 2 (offset 32), returns nil and
has no window afterwards. -/
theorem mmap_past_end_leaves_mapper_unchanged_witness :
    staleMap.b = [] ∧ staleMap.size ≤ 2 * staleMap.chunk ∧
    staleMap.mmap (Platform.paged 16) 2 = (staleMap, none) ∧
    (staleMap.mmap (Platform.paged 16) 2).1.b = [] ∧
    writeIPs Context.background (staleMap.mmap (Platform.paged 16) 2).1.b 2 = [] :=
  ⟨by decide, by decide,
    (mmap_past_end_leaves_mapper_unchanged (Platform.paged 16) staleMap 2
      (by decide) (by decide) (by decide)).2.1,
    ((mmap_past_end_leaves_mapper_unchanged (Platform.paged 16) staleMap 2
      (by decide) (by decide) (by decide)).2.2.1 (by decide)).1,
    ((mmap_past_end_leaves_mapper_unchanged (Platform.paged 16) staleMap 2
      (by decide) (by decide) (by decide)).2.2.1 (by decide)).2 Context.background 2⟩

end EfficientGo
